import Mathlib

/-!
# Verification of `android-sparse-rs` (Android sparse image codec)

A shallow embedding of the sparse-image codec from the repository's sources:

* `src/headers.rs` — wire headers (`FileHeader`, `ChunkHeader`), little-endian
  serialization with magic/version validation on read;
* `src/block.rs` — the `Block` pipeline currency (Raw/Fill/Skip/Crc32);
* `src/write.rs` — the streaming `Writer` (run-merging, two-pass header
  back-patching over a seekable sink) and the `Decoder` (blocks → raw bytes);
* `src/read.rs` — the chunk-level `Reader` (with optional CRC32 verification)
  and the chunk-merging `Encoder` (raw bytes → sparse chunks);
* `src/encoder.rs` + `src/file.rs` — the earlier generation `Encoder` that
  validates sizes in `File::add_raw`/`add_fill`/`add_dont_care`;
* `src/ext.rs` — the CRC32 feeding of blocks (`WriteBlock for crc32::Digest`).

Bytes are modelled as `Nat` (a byte position holds the byte's value; the code
never produces values ≥ 256 on its own, and where Rust truncates to a machine
width the model applies `% 2^w` explicitly).  Machine `u32` counters of the
writer and reader are modelled with explicit `% 2^32` at every arithmetic
operation, mirroring release-mode wrapping semantics.  Seekable files are
modelled as a list of bytes plus a cursor; writing past the end zero-fills the
gap (fresh-file hole semantics) and seeking never fails.
-/

namespace AndroidSparse


/-! ## Little-endian integer encoding (byteorder `LittleEndian`) -/

/-- `u32` modulus. -/
def U32 : Nat := 4294967296

/-- Little-endian bytes of a `u16` value (`write_u16::<LittleEndian>`). -/
def le16 (n : Nat) : List Nat := [n % 256, n / 256 % 256]

/-- Little-endian bytes of a `u32` value (`write_u32::<LittleEndian>`). -/
def le32 (n : Nat) : List Nat :=
  [n % 256, n / 256 % 256, n / 65536 % 256, n / 16777216 % 256]

/-- Decode two little-endian bytes (`read_u16::<LittleEndian>`). -/
def de16 (b0 b1 : Nat) : Nat := b0 + 256 * b1

/-- Decode four little-endian bytes (`read_u32::<LittleEndian>`). -/
def de32 (b0 b1 b2 b3 : Nat) : Nat := b0 + 256 * b1 + 65536 * b2 + 16777216 * b3

/-! ## Splitting byte streams into fixed-size pieces

`splitSz k l` cuts `l` into consecutive pieces of `k + 1` bytes; the final
piece may be shorter.  This models the read loops of the two encoders (block
size 4096, i.e. `splitSz 4095`) and the word view of `is_sparse_block`
(`block.chunks(4)`, i.e. `splitSz 3`). -/

def splitSz (k : Nat) (l : List Nat) : List (List Nat) :=
  if h : l = [] then []
  else l.take (k + 1) :: splitSz k (l.drop (k + 1))
termination_by l.length
decreasing_by
  simp only [List.length_drop]
  have : 0 < l.length := List.length_pos.mpr h
  omega

/-! ## Blocks (`src/block.rs`)

`Block` is the pipeline currency: `Raw` holds a `[u8; 4096]` buffer, `Fill` a
`[u8; 4]` pattern, `Skip` nothing, `Crc32` a `u32` checksum.  `Block::SIZE =
4096`.  Buffers are lists of byte values; well-formedness (the lengths the
Rust array types enforce) is the separate predicate `Block.wf`. -/

inductive Block where
  | raw (buf : List Nat)
  | fill (value : List Nat)
  | skip
  | crc32 (checksum : Nat)

deriving DecidableEq, Repr

/-- `Block::SIZE`. -/
def BLOCK_SIZE : Nat := 4096

/-- The lengths the Rust types `[u8; 4096]` / `[u8; 4]` enforce, plus the
byte/`u32` value ranges. -/
def Block.wf : Block → Prop
  | .raw buf => buf.length = 4096
  | .fill v => v.length = 4
  | .skip => True
  | .crc32 c => c < U32

instance : DecidablePred Block.wf := fun b =>
  match b with
  | .raw buf => decidable_of_iff (buf.length = 4096) Iff.rfl
  | .fill v => decidable_of_iff (v.length = 4) Iff.rfl
  | .skip => decidable_of_iff True Iff.rfl
  | .crc32 c => decidable_of_iff (c < U32) Iff.rfl

/-- The raw-image-equivalent bytes of a block: what the block expands to in
the decoded image (`Raw`: its buffer; `Fill`: the pattern 1024 times; `Skip`:
4096 zero bytes; `Crc32`: nothing). -/
def Block.rawBytes : Block → List Nat
  | .raw buf => buf
  | .fill v => (List.replicate 1024 v).flatten
  | .skip => List.replicate 4096 0
  | .crc32 _ => []

/-! ## CRC32 (crate `crc` v1, `crc32::Digest::new(crc32::IEEE)`)

The `crc` crate's `Digest` starts at value 0; each `write(bytes)` call
complements the value, folds the reflected-table step over the bytes, and
complements again; `sum32()` returns the value.  The table entry for index
`i` applies eight reflected polynomial steps (`IEEE = 0xEDB88320`). -/

def CRC_IEEE : Nat := 0xEDB88320

/-- One reflected polynomial step of `make_table`. -/
def crcTableStep (v : Nat) : Nat :=
  if v % 2 = 1 then (v / 2) ^^^ CRC_IEEE else v / 2

/-- `make_table(poly)[i]`: eight reflected steps starting from `i`. -/
def crcTableEntry (i : Nat) : Nat := crcTableStep^[8] i

/-- One byte of `crc32::update`'s fold:
`value = table[(value as u8) ^ byte] ^ (value >> 8)`. -/
def crcUpdate (v b : Nat) : Nat :=
  (crcTableEntry ((v % 256) ^^^ (b % 256))) ^^^ (v / 256)

/-- Complement of a `u32` (`!value`). -/
def compl32 (v : Nat) : Nat := v ^^^ 0xFFFFFFFF

/-- `crc32::update(value, table, bytes)`: complement, fold, complement. -/
def crcWrite (v : Nat) (bytes : List Nat) : Nat :=
  compl32 (bytes.foldl crcUpdate (compl32 v))

/-- `WriteBlock for crc32::Digest` (`src/ext.rs`): feed a digest with the
raw-image equivalent of a block (`Fill` loops `Block::SIZE / 4` separate
4-byte writes; `Crc32` feeds nothing). -/
def crcWriteBlock (v : Nat) : Block → Nat
  | .raw buf => crcWrite v buf
  | .fill value => (List.replicate 1024 value).foldl crcWrite v
  | .skip => crcWrite v (List.replicate 4096 0)
  | .crc32 _ => v

/-- Digest value after feeding a whole block sequence, starting from the fresh
digest (value 0). -/
def crcOfBlocks (bs : List Block) : Nat := bs.foldl crcWriteBlock 0

/-! ## Wire headers (`src/headers.rs`) -/

def FILE_MAGIC : Nat := 0xED26FF3A

def CHUNK_MAGIC_RAW : Nat := 0xCAC1

def CHUNK_MAGIC_FILL : Nat := 0xCAC2

def CHUNK_MAGIC_DONT_CARE : Nat := 0xCAC3

def CHUNK_MAGIC_CRC32 : Nat := 0xCAC4

inductive ChunkType where
  | raw
  | fill
  | dontCare
  | crc32

deriving DecidableEq, Repr

/-- `ChunkType::magic`. -/
def ChunkType.magic : ChunkType → Nat
  | .raw => CHUNK_MAGIC_RAW
  | .fill => CHUNK_MAGIC_FILL
  | .dontCare => CHUNK_MAGIC_DONT_CARE
  | .crc32 => CHUNK_MAGIC_CRC32

structure FileHeader where
  total_blocks : Nat
  total_chunks : Nat
  image_checksum : Nat

deriving DecidableEq, Repr

/-- `FileHeader::SIZE = 28`. -/
def FileHeader.SIZE : Nat := 28

structure ChunkHeader where
  chunk_type : ChunkType
  chunk_size : Nat
  total_size : Nat

deriving DecidableEq, Repr

/-- `ChunkHeader::SIZE = 12`. -/
def ChunkHeader.SIZE : Nat := 12

/-- `FileHeader::write_to`: magic, version 1.0, header sizes, block size,
then the three counters, all little-endian. -/
def FileHeader.writeTo (h : FileHeader) : List Nat :=
  le32 FILE_MAGIC ++ le16 1 ++ le16 0 ++ le16 FileHeader.SIZE ++
  le16 ChunkHeader.SIZE ++ le32 BLOCK_SIZE ++
  le32 h.total_blocks ++ le32 h.total_chunks ++ le32 h.image_checksum

/-- `ChunkHeader::write_to`: magic, reserved 0, chunk_size, total_size. -/
def ChunkHeader.writeTo (h : ChunkHeader) : List Nat :=
  le16 h.chunk_type.magic ++ le16 0 ++ le32 h.chunk_size ++ le32 h.total_size

/-! ## Seekable byte sinks

`Sink` models a `File` opened for writing (wrapped in a `BufWriter`, whose
buffering is semantically transparent: `BufWriter::seek` flushes before
seeking).  `data` is the file contents, `pos` the cursor.  Writing past the
end zero-fills the gap, as a fresh regular file does; seeking never fails and
does not extend the file. -/

structure Sink where
  data : List Nat
  pos : Nat

deriving DecidableEq, Repr

/-- Store one byte at an absolute position, zero-filling any gap. -/
def storeByte (data : List Nat) (p : Nat) (b : Nat) : List Nat :=
  if p < data.length then data.set p b
  else data ++ List.replicate (p - data.length) 0 ++ [b]

/-- Store a byte string starting at an absolute position. -/
def storeBytes (data : List Nat) (p : Nat) : List Nat → List Nat
  | [] => data
  | b :: bs => storeBytes (storeByte data p b) (p + 1) bs

/-- `write_all`: store at the cursor, advance the cursor. -/
def Sink.writeAll (s : Sink) (bs : List Nat) : Sink :=
  { data := storeBytes s.data s.pos bs, pos := s.pos + bs.length }

/-- `seek(SeekFrom::Current(k))` for `k ≥ 0`. -/
def Sink.seekCur (s : Sink) (k : Nat) : Sink := { s with pos := s.pos + k }

/-- `seek(SeekFrom::Current(-k))` (callers keep `k ≤ pos`). -/
def Sink.seekBack (s : Sink) (k : Nat) : Sink := { s with pos := s.pos - k }

/-- `seek(SeekFrom::Start(p))`. -/
def Sink.seekTo (s : Sink) (p : Nat) : Sink := { s with pos := p }

/-! ## Writer (`src/write.rs`)

The writer consumes blocks and emits the sparse image into a seekable sink,
reserving header space with forward seeks and back-patching each header once
its chunk is finished.  All `u32` counters wrap with `% U32`. -/

structure WriterState where
  dst : Sink
  current_chunk : Option ChunkHeader
  current_fill : Option (List Nat)
  num_blocks : Nat
  num_chunks : Nat
  /-- `crc`: `some v` iff the writer was constructed `with_crc`; `v` is the
  digest value. -/
  crc : Option Nat

deriving DecidableEq, Repr

/-- `Writer::new` / `Writer::with_crc`: seek past the 28-byte file header. -/
def Writer.new (withCrc : Bool) : WriterState :=
  { dst := (Sink.mk [] 0).seekCur 28,
    current_chunk := none, current_fill := none,
    num_blocks := 0, num_chunks := 0,
    crc := if withCrc then some 0 else none }

/-- `Writer::can_merge`.  The Rust `self.current_fill.unwrap() == *value` is
modelled as equality with `some value`; the safety claim (the open chunk has
type Fill iff `current_fill` is set) is proved separately. -/
def WriterState.canMerge (w : WriterState) (b : Block) : Bool :=
  match w.current_chunk with
  | none => false
  | some c =>
    match c.chunk_type, b with
    | .raw, .raw _ => true
    | .dontCare, .skip => true
    | .fill, .fill value => w.current_fill == some value
    | _, _ => false

/-- `Writer::start_chunk`: build the header with `chunk_size == 0` and the
body-independent initial `total_size`, and seek past the 12 header bytes. -/
def WriterState.startChunk (w : WriterState) (b : Block) : WriterState :=
  let ct : ChunkType × Nat :=
    match b with
    | .raw _ => (.raw, 0)
    | .fill _ => (.fill, 4)
    | .skip => (.dontCare, 0)
    | .crc32 _ => (.crc32, 4)
  let chunk : ChunkHeader :=
    { chunk_type := ct.1, chunk_size := 0, total_size := ct.2 + ChunkHeader.SIZE }
  { w with dst := w.dst.seekCur 12, current_chunk := some chunk }

/-- `Writer::finish_chunk`: rewind by `total_size`, write the header, restore
the position, clear the fill cache, bump the counters. -/
def WriterState.finishChunk (w : WriterState) : WriterState :=
  match w.current_chunk with
  | none => w
  | some chunk =>
    let pos := w.dst.pos
    let dst := (((w.dst.seekBack chunk.total_size).writeAll chunk.writeTo).seekTo pos)
    { w with
      dst := dst
      current_chunk := none
      current_fill := none
      num_chunks := (w.num_chunks + 1) % U32
      num_blocks := (w.num_blocks + chunk.chunk_size) % U32 }

/-- Feed the digest (`digest.write_block(block)`) when CRC is enabled. -/
def WriterState.feedCrc (w : WriterState) (b : Block) : WriterState :=
  { w with crc := w.crc.map (fun v => crcWriteBlock v b) }

/-- `chunk.chunk_size += 1`. -/
def WriterState.bumpChunkSize (w : WriterState) : WriterState :=
  { w with current_chunk :=
      w.current_chunk.map (fun c => { c with chunk_size := (c.chunk_size + 1) % U32 }) }

/-- `chunk.total_size += Block::SIZE` (the raw-block body). -/
def WriterState.growTotalSize (w : WriterState) : WriterState :=
  { w with current_chunk :=
      w.current_chunk.map (fun c => { c with total_size := (c.total_size + 4096) % U32 }) }

/-- `Writer::write_block`. -/
def WriterState.writeBlock (w : WriterState) (b : Block) : WriterState :=
  let w := if w.canMerge b then w else (w.finishChunk).startChunk b
  match b with
  | .raw buf =>
    (({ w with dst := w.dst.writeAll buf }).growTotalSize.feedCrc b).bumpChunkSize
  | .fill value =>
    let w :=
      if w.current_fill = none then
        { w with dst := w.dst.writeAll value, current_fill := some value }
      else w
    (w.feedCrc b).bumpChunkSize
  | .skip => (w.feedCrc b).bumpChunkSize
  | .crc32 checksum =>
    -- CRC chunk size must remain 0, so drop out here already.
    { w with dst := w.dst.writeAll (le32 checksum) }

/-- `Writer::write_checksum`: append a `Crc32` block carrying `sum32()`. -/
def WriterState.writeChecksum (w : WriterState) : WriterState :=
  match w.crc with
  | none => w
  | some v => w.writeBlock (.crc32 v)

/-- `Writer::finish` (reached via `close`): append the checksum block if
enabled, finish the open chunk, rewind to the start and write the final
`FileHeader` (`image_checksum` always 0), flush. -/
def WriterState.finish (w : WriterState) : WriterState :=
  let w := w.writeChecksum
  let w := w.finishChunk
  let header : FileHeader :=
    { total_blocks := w.num_blocks, total_chunks := w.num_chunks, image_checksum := 0 }
  { w with dst := (w.dst.seekTo 0).writeAll header.writeTo }

/-- Run the writer over a block sequence and `close()` it. -/
def runWriter (withCrc : Bool) (bs : List Block) : WriterState :=
  (bs.foldl WriterState.writeBlock (Writer.new withCrc)).finish

/-- The bytes of the produced sparse image. -/
def writerImage (withCrc : Bool) (bs : List Block) : List Nat :=
  (runWriter withCrc bs).dst.data

/-! ### Functional mirror of the writer's chunk stream

`WChunk` is a finished or in-progress chunk together with the data the writer
wrote for it; `mergeBlocks` replays the `can_merge`/`start_chunk` decisions
at the level of whole chunks. -/

inductive WChunk where
  | raw (bufs : List (List Nat))
  | fill (value : List Nat) (n : Nat)
  | dontCare (n : Nat)
  | crc32 (c : Nat)

deriving DecidableEq, Repr

/-- Number of raw-image blocks the chunk stands for (`chunk_size`). -/
def WChunk.count : WChunk → Nat
  | .raw bufs => bufs.length
  | .fill _ n => n
  | .dontCare n => n
  | .crc32 _ => 0

/-- The chunk's body bytes as the writer lays them out. -/
def WChunk.body : WChunk → List Nat
  | .raw bufs => bufs.flatten
  | .fill v _ => v
  | .dontCare _ => []
  | .crc32 c => le32 c

/-- The chunk's back-patched header. -/
def WChunk.header : WChunk → ChunkHeader
  | .raw bufs => ⟨.raw, bufs.length, 12 + 4096 * bufs.length⟩
  | .fill _ n => ⟨.fill, n, 16⟩
  | .dontCare n => ⟨.dontCare, n, 12⟩
  | .crc32 _ => ⟨.crc32, 0, 16⟩

/-- Header plus body: the chunk's bytes in the image. -/
def WChunk.bytes (c : WChunk) : List Nat := c.header.writeTo ++ c.body

/-- The blocks the chunk was merged from (`Crc32` chunks come from a single
`Crc32` block). -/
def WChunk.blocks : WChunk → List Block
  | .raw bufs => bufs.map Block.raw
  | .fill v n => List.replicate n (.fill v)
  | .dontCare n => List.replicate n .skip
  | .crc32 c => [.crc32 c]

/-- The merge table of `Writer::can_merge`, at chunk level. -/
def WChunk.mergeable : WChunk → Block → Bool
  | .raw _, .raw _ => true
  | .dontCare _, .skip => true
  | .fill v _, .fill value => v == value
  | _, _ => false

/-- Absorb one more block into an open chunk (callers established
`mergeable`). -/
def WChunk.push : WChunk → Block → WChunk
  | .raw bufs, .raw buf => .raw (bufs ++ [buf])
  | .fill v n, _ => .fill v (n + 1)
  | .dontCare n, _ => .dontCare (n + 1)
  | c, _ => c

/-- Open a fresh chunk from its first block (`start_chunk` plus that block's
body write). -/
def WChunk.openFrom : Block → WChunk
  | .raw buf => .raw [buf]
  | .fill v => .fill v 1
  | .skip => .dontCare 1
  | .crc32 c => .crc32 c

/-- One `write_block` at chunk level. -/
def mergeStep : List WChunk × Option WChunk → Block → List WChunk × Option WChunk
  | (done, some c), b =>
      if c.mergeable b then (done, some (c.push b))
      else (done ++ [c], some (WChunk.openFrom b))
  | (done, none), b => (done, some (WChunk.openFrom b))

/-- Replay a block sequence into finished chunks plus the open chunk. -/
def mergeBlocks (bs : List Block) : List WChunk × Option WChunk :=
  bs.foldl mergeStep ([], none)

/-- The block sequence the writer consumes, including the trailing checksum
block appended by `write_checksum` when CRC is enabled. -/
def writerBlocks (withCrc : Bool) (bs : List Block) : List Block :=
  bs ++ if withCrc then [.crc32 (crcOfBlocks bs)] else []

/-- The chunk sequence of the finished image. -/
def writerChunks (withCrc : Bool) (bs : List Block) : List WChunk :=
  (mergeBlocks (writerBlocks withCrc bs)).1 ++ (mergeBlocks (writerBlocks withCrc bs)).2.toList

/-! ## Byte sources and the Reader (`src/read.rs`, `src/headers.rs`)

A byte source is the sparse image plus a cursor.  `read_exact` fails with an
I/O error when the source is exhausted; `seek(Current(k))` (used to skip raw
bodies when CRC is off) never fails, even past the end. -/

structure Src where
  data : List Nat
  pos : Nat

deriving DecidableEq, Repr

/-- The two error kinds of `src/result.rs`; `parse` errors carry the
offending field and value as `headers.rs` formats them into the message. -/
inductive RdErr where
  | io
  | invalidFileMagic (v : Nat)
  | invalidVersion (major minor : Nat)
  | invalidFileHeaderSize (v : Nat)
  | invalidChunkHeaderSize (v : Nat)
  | invalidBlockSize (v : Nat)
  | invalidChunkMagic (v : Nat)
  /-- `"Checksum does not match"`. -/
  | checksumMismatch

deriving DecidableEq, Repr

deriving instance DecidableEq for Except

def Src.readExact (s : Src) (n : Nat) : Except RdErr (List Nat × Src) :=
  if s.pos + n ≤ s.data.length then
    .ok ((s.data.drop s.pos).take n, { s with pos := s.pos + n })
  else .error .io

def Src.readU16 (s : Src) : Except RdErr (Nat × Src) :=
  match s.readExact 2 with
  | .error e => .error e
  | .ok (bytes, s) => .ok (de16 (bytes.getD 0 0) (bytes.getD 1 0), s)

def Src.readU32 (s : Src) : Except RdErr (Nat × Src) :=
  match s.readExact 4 with
  | .error e => .error e
  | .ok (bytes, s) =>
    .ok (de32 (bytes.getD 0 0) (bytes.getD 1 0) (bytes.getD 2 0) (bytes.getD 3 0), s)

def Src.seekCur (s : Src) (k : Nat) : Src := { s with pos := s.pos + k }

/-- `FileHeader::read_from` (`src/headers.rs`): validate magic, version,
header sizes and block size; accept the three counters verbatim. -/
def readFileHeader (s : Src) : Except RdErr (FileHeader × Src) :=
  match s.readU32 with
  | .error e => .error e
  | .ok (magic, s) =>
    if magic ≠ FILE_MAGIC then .error (.invalidFileMagic magic) else
    match s.readU16 with
    | .error e => .error e
    | .ok (major, s) =>
      match s.readU16 with
      | .error e => .error e
      | .ok (minor, s) =>
        if (major, minor) ≠ (1, 0) then .error (.invalidVersion major minor) else
        match s.readU16 with
        | .error e => .error e
        | .ok (file_header_size, s) =>
          if file_header_size ≠ FileHeader.SIZE then
            .error (.invalidFileHeaderSize file_header_size) else
          match s.readU16 with
          | .error e => .error e
          | .ok (chunk_header_size, s) =>
            if chunk_header_size ≠ ChunkHeader.SIZE then
              .error (.invalidChunkHeaderSize chunk_header_size) else
            match s.readU32 with
            | .error e => .error e
            | .ok (block_size, s) =>
              if block_size ≠ BLOCK_SIZE then .error (.invalidBlockSize block_size) else
              match s.readU32 with
              | .error e => .error e
              | .ok (total_blocks, s) =>
                match s.readU32 with
                | .error e => .error e
                | .ok (total_chunks, s) =>
                  match s.readU32 with
                  | .error e => .error e
                  | .ok (image_checksum, s) =>
                    .ok (⟨total_blocks, total_chunks, image_checksum⟩, s)

/-- `ChunkType::from_magic`. -/
def chunkTypeFromMagic (magic : Nat) : Except RdErr ChunkType :=
  if magic = CHUNK_MAGIC_RAW then .ok .raw
  else if magic = CHUNK_MAGIC_FILL then .ok .fill
  else if magic = CHUNK_MAGIC_DONT_CARE then .ok .dontCare
  else if magic = CHUNK_MAGIC_CRC32 then .ok .crc32
  else .error (.invalidChunkMagic magic)

/-- `ChunkHeader::read_from`: magic, discarded reserved field, `chunk_size`,
`total_size`, with no cross-validation. -/
def readChunkHeader (s : Src) : Except RdErr (ChunkHeader × Src) :=
  match s.readU16 with
  | .error e => .error e
  | .ok (magic, s) =>
    match chunkTypeFromMagic magic with
    | .error e => .error e
    | .ok ct =>
      match s.readU16 with
      | .error e => .error e
      | .ok (_reserved, s) =>
        match s.readU32 with
        | .error e => .error e
        | .ok (chunk_size, s) =>
          match s.readU32 with
          | .error e => .error e
          | .ok (total_size, s) => .ok (⟨ct, chunk_size, total_size⟩, s)

/-- The reader's record of one parsed chunk — `file.rs`'s `Chunk` as
`read.rs` builds it (`Raw` keeps an offset into the source, not the bytes). -/
inductive RChunk where
  | raw (offset : Nat) (num_blocks : Nat)
  | fill (value : List Nat) (num_blocks : Nat)
  | dontCare (num_blocks : Nat)
  | crc32 (crc : Nat)

deriving DecidableEq, Repr

/-- `Reader::read_raw_chunk`.  With CRC on, the body is read block by block
and fed to the digest; with CRC off it is skipped with one relative seek of
`num_blocks * BLOCK_SIZE` computed in `u32`. -/
def readRawLoop (v : Nat) (s : Src) : Nat → Except RdErr (Nat × Src)
  | 0 => .ok (v, s)
  | n + 1 =>
    match s.readExact 4096 with
    | .error e => .error e
    | .ok (block, s) => readRawLoop (crcWrite v block) s n

/-- `num_blocks * BLOCK_SIZE` as `read_raw_chunk` computes it: a `u32`
multiplication, wrapping modulo `2^32`. -/
def rawChunkByteSize (num_blocks : Nat) : Nat := (num_blocks * BLOCK_SIZE) % U32

/-- `num_blocks * BLOCK_SIZE / 4` as `read_fill_chunk` computes it: the `u32`
product (wrapping modulo `2^32`) divided by 4. -/
def fillFeedCount (num_blocks : Nat) : Nat := num_blocks * BLOCK_SIZE % U32 / 4

def readRawChunk (crc : Option Nat) (s : Src) (num_blocks : Nat) :
    Except RdErr (Option Nat × RChunk × Src) :=
  let offset := s.pos
  let chunk : RChunk := .raw offset num_blocks
  match crc with
  | some v =>
    match readRawLoop v s num_blocks with
    | .error e => .error e
    | .ok (v, s) => .ok (some v, chunk, s)
  | none => .ok (none, chunk, s.seekCur (rawChunkByteSize num_blocks))

/-- `Reader::read_fill_chunk`: read the 4-byte pattern once; with CRC on feed
it `fillFeedCount num_blocks` times. -/
def readFillChunk (crc : Option Nat) (s : Src) (num_blocks : Nat) :
    Except RdErr (Option Nat × RChunk × Src) :=
  match s.readExact 4 with
  | .error e => .error e
  | .ok (fill, s) =>
    let crc' := crc.map fun v => (fun u => crcWrite u fill)^[fillFeedCount num_blocks] v
    .ok (crc', .fill fill num_blocks, s)

/-- `Reader::read_dont_care_chunk`: no source bytes; with CRC on feed one
all-zero block per `num_blocks`. -/
def readDontCareChunk (crc : Option Nat) (num_blocks : Nat) : Option Nat × RChunk :=
  (crc.map fun v => (fun u => crcWrite u (List.replicate 4096 0))^[num_blocks] v,
   .dontCare num_blocks)

/-- `Reader::read_crc32_chunk` + `check_crc`: read the checksum and compare
it with `sum32()` when verification is on. -/
def readCrc32Chunk (crc : Option Nat) (s : Src) : Except RdErr (RChunk × Src) :=
  match s.readU32 with
  | .error e => .error e
  | .ok (c, s) =>
    match crc with
    | some v => if v ≠ c then .error .checksumMismatch else .ok (.crc32 c, s)
    | none => .ok (.crc32 c, s)

/-- `Reader::read_chunk`. -/
def readChunk (crc : Option Nat) (s : Src) : Except RdErr (Option Nat × RChunk × Src) :=
  match readChunkHeader s with
  | .error e => .error e
  | .ok (header, s) =>
    match header.chunk_type with
    | .raw => readRawChunk crc s header.chunk_size
    | .fill => readFillChunk crc s header.chunk_size
    | .dontCare =>
      let r := readDontCareChunk crc header.chunk_size
      .ok (r.1, r.2, s)
    | .crc32 =>
      match readCrc32Chunk crc s with
      | .error e => .error e
      | .ok (chunk, s) => .ok (crc, chunk, s)

/-- The `for _ in 0..header.total_chunks` loop of `Reader::read`. -/
def readChunksLoop (crc : Option Nat) (s : Src) (acc : List RChunk) :
    Nat → Except RdErr (List RChunk)
  | 0 => .ok acc
  | n + 1 =>
    match readChunk crc s with
    | .error e => .error e
    | .ok (crc, chunk, s) => readChunksLoop crc s (acc ++ [chunk]) n

/-- `Reader::read` (constructed plain or `with_crc`): parse the file header,
then read `total_chunks` chunks into the sparse file. -/
def readerRun (verifyCrc : Bool) (image : List Nat) : Except RdErr (List RChunk) :=
  match readFileHeader ⟨image, 0⟩ with
  | .error e => .error e
  | .ok (header, s) =>
    readChunksLoop (if verifyCrc then some 0 else none) s [] header.total_chunks

/-! ## Decoder (`src/write.rs`) -/

/-- `Decoder::write_block`: `Raw` bytes verbatim; `Fill` writes the 4-byte
pattern `Block::SIZE / 4` times; `Skip` seeks forward `Block::SIZE - 1` and
writes one zero byte; `Crc32` writes nothing. -/
def decodeBlock (s : Sink) : Block → Sink
  | .raw buf => s.writeAll buf
  | .fill value => (List.replicate 1024 value).foldl Sink.writeAll s
  | .skip => (s.seekCur 4095).writeAll [0]
  | .crc32 _ => s

/-- Feed a block sequence to a `Decoder` over a fresh output file.
`Decoder::finish`/`close` only flushes, which is a no-op in the model. -/
def runDecoder (bs : List Block) : Sink := bs.foldl decodeBlock ⟨[], 0⟩

/-- The decoded raw image. -/
def decoderImage (bs : List Block) : List Nat := (runDecoder bs).data

/-! ## The chunk-merging Encoder of `src/read.rs` -/

/-- `is_sparse_block`: false unless the slice is exactly `BLOCK_SIZE` bytes;
otherwise true iff every 4-byte word equals the first. -/
def is_sparse_block (block : List Nat) : Bool :=
  if block.length ≠ BLOCK_SIZE then false
  else
    match splitSz 3 block with
    | [] => true
    | first :: words => words.all (· == first)

/-- The encoder's per-slice classification (`Encoder::merge_block`): sparse
and all-zero → don't-care, sparse otherwise → fill with the first word,
otherwise raw. -/
def classifyBlock (block : List Nat) : Block :=
  if is_sparse_block block then
    if block.take 4 = [0, 0, 0, 0] then .skip else .fill (block.take 4)
  else .raw block

/-- `file.rs` `Chunk` as the `read.rs` `Encoder` builds it: raw chunks record
the source offset of their first block (`curr_off - BLOCK_SIZE`, an `u64`
that can go negative on a sub-block source, hence `Int`). -/
inductive EChunk where
  | raw (offset : Int) (num_blocks : Nat)
  | fill (value : List Nat) (num_blocks : Nat)
  | dontCare (num_blocks : Nat)

deriving DecidableEq, Repr

def EChunk.nb : EChunk → Nat
  | .raw _ n => n
  | .fill _ n => n
  | .dontCare n => n

/-- `Encoder::merge_raw_block` (`pos` is the source offset after the read). -/
def encMergeRaw (pos : Nat) : Option EChunk → Option EChunk × EChunk
  | some (.raw offset n) => (none, .raw offset (n + 1))
  | old => (old, .raw ((pos : Int) - 4096) 1)

/-- `Encoder::merge_fill_block`. -/
def encMergeFill (value : List Nat) : Option EChunk → Option EChunk × EChunk
  | some (.fill v n) =>
    if v = value then (none, .fill v (n + 1))
    else (some (.fill v n), .fill value 1)
  | old => (old, .fill value 1)

/-- `Encoder::merge_don_care_block`. -/
def encMergeDontCare : Option EChunk → Option EChunk × EChunk
  | some (.dontCare n) => (none, .dontCare (n + 1))
  | old => (old, .dontCare 1)

/-- One loop iteration of `Encoder::read`: read a slice, then
`read_block` (empty slices are dropped, otherwise classify and merge). -/
def encStep : Nat × Option EChunk × List EChunk → List Nat → Nat × Option EChunk × List EChunk
  | (pos, chunk, out), slice =>
    let pos' := pos + slice.length
    if slice = [] then (pos', chunk, out)
    else
      let (old, new) :=
        if is_sparse_block slice then
          if slice.take 4 = [0, 0, 0, 0] then encMergeDontCare chunk
          else encMergeFill (slice.take 4) chunk
        else encMergeRaw pos' chunk
      (pos', some new, out ++ old.toList)

/-- `Encoder::read` over a raw byte source: loop until a short read, then
flush the final in-progress chunk. -/
def encChunks (r : List Nat) : List EChunk :=
  let st := (splitSz 4095 r).foldl encStep (0, none, [])
  st.2.2 ++ st.2.1.toList

/-- Total number of raw-image blocks the encoder's chunks stand for. -/
def encTotalBlocks (r : List Nat) : Nat := ((encChunks r).map EChunk.nb).sum

/-- The block sequence the encoder's output expands to (raw chunks denote
slices of the source). -/
def EChunk.toBlocks (r : List Nat) : EChunk → List Block
  | .raw offset n =>
    (List.range n).map fun (i : Nat) =>
      .raw ((r.drop (offset + 4096 * (i : Int)).toNat).take 4096)
  | .fill v n => List.replicate n (.fill v)
  | .dontCare n => List.replicate n .skip

/-- The block sequence produced by classifying the source with the `read.rs`
Encoder. -/
def encoderBlocks (r : List Nat) : List Block :=
  ((encChunks r).map (EChunk.toBlocks r)).flatten

/-! ## The earlier-generation Encoder (`src/encoder.rs` + `src/file.rs`) -/

/-- `file.rs` `Chunk` in its buffer-carrying form. -/
inductive FChunk where
  | raw (buf : List Nat)
  | fill (value : List Nat) (size : Nat)
  | dontCare (size : Nat)

deriving DecidableEq, Repr

/-- `File::add_raw`: reject buffers that are not whole blocks, else extend a
trailing raw chunk or append a new one. -/
def fileAddRaw (chunks : List FChunk) (buf : List Nat) : Except String (List FChunk) :=
  if buf.length % 4096 ≠ 0 then .error "bytes size must be multiple of block_size"
  else
    match chunks.getLast? with
    | some (.raw b) => .ok (chunks.dropLast ++ [.raw (b ++ buf)])
    | _ => .ok (chunks ++ [.raw buf])

/-- `File::add_fill`. -/
def fileAddFill (chunks : List FChunk) (fill : List Nat) (size : Nat) :
    Except String (List FChunk) :=
  if size % 4096 ≠ 0 then .error "size must be multiple of block_size"
  else
    match chunks.getLast? with
    | some (.fill v sz) =>
      if v = fill then .ok (chunks.dropLast ++ [.fill v (sz + size)])
      else .ok (chunks ++ [.fill fill size])
    | _ => .ok (chunks ++ [.fill fill size])

/-- `File::add_dont_care`. -/
def fileAddDontCare (chunks : List FChunk) (size : Nat) : Except String (List FChunk) :=
  if size % 4096 ≠ 0 then .error "size must be multiple of block_size"
  else
    match chunks.getLast? with
    | some (.dontCare sz) => .ok (chunks.dropLast ++ [.dontCare (sz + size)])
    | _ => .ok (chunks ++ [.dontCare size])

/-- `Encoder::read_block` of `src/encoder.rs` (block size 4096). -/
def encoderRsStep (acc : Except String (List FChunk)) (slice : List Nat) :
    Except String (List FChunk) :=
  match acc with
  | .error e => .error e
  | .ok chunks =>
    if slice = [] then .ok chunks
    else if is_sparse_block slice then
      if slice.take 4 = [0, 0, 0, 0] then fileAddDontCare chunks 4096
      else fileAddFill chunks (slice.take 4) 4096
    else fileAddRaw chunks slice

/-- `Encoder::read` of `src/encoder.rs`. -/
def encoderRsRead (r : List Nat) : Except String (List FChunk) :=
  (splitSz 4095 r).foldl encoderRsStep (.ok [])

/-! ## Derived notions used by the claims -/

def Block.isCrc32 : Block → Bool
  | .crc32 _ => true
  | _ => false

/-- The data blocks of a sequence: everything except `Crc32` sentinels.
Their count is what the writer records as `total_blocks`. -/
def dataBlocks (bs : List Block) : List Block := bs.filter fun b => !b.isCrc32

/-- The block sequence a parsed sparse image stands for, expanding every
chunk (raw chunks denote byte ranges of the image). -/
def imageBlocks (image : List Nat) : Except RdErr (List Block) :=
  match readerRun false image with
  | .error e => .error e
  | .ok chunks =>
    .ok ((chunks.map fun c =>
      match c with
      | .raw offset n => (List.range n).map fun i => .raw ((image.drop (offset + 4096 * i)).take 4096)
      | .fill v n => List.replicate n (.fill v)
      | .dontCare n => List.replicate n .skip
      | .crc32 c => [.crc32 c]).flatten)

/-- The full `Encoder → Writer → (image) → Decoder` pipeline of claim C1:
classify the raw stream, write the sparse image (no CRC), take that image's
block sequence, decode it into a fresh file. -/
def sparsePipeline (r : List Nat) : Except RdErr (List Nat) :=
  match imageBlocks (writerImage false (encoderBlocks r)) with
  | .error e => .error e
  | .ok bs => .ok (decoderImage bs)

/-- Is the writer's open chunk a Fill chunk?  (The case in which
`can_merge` evaluates `self.current_fill.unwrap()`.) -/
def hasFillChunk (w : WriterState) : Bool :=
  match w.current_chunk with
  | some c => c.chunk_type == ChunkType.fill
  | none => false

/-- The 28 header bytes from raw field values, laid out as `FileHeader`'s
wire format expects them (used to state the validation claim C7). -/
def headerFieldBytes (m major minor fhs chs bsz tb tc ic : Nat) : List Nat :=
  le32 m ++ le16 major ++ le16 minor ++ le16 fhs ++ le16 chs ++ le32 bsz ++
  le32 tb ++ le32 tc ++ le32 ic

/-- The `FileHeader` that `read_from` yields on `headerFieldBytes` once every
validated field passes, or the `Parse` error of the first failing check. -/
def headerVerdict (m major minor fhs chs bsz tb tc ic : Nat) : Except RdErr FileHeader :=
  if m ≠ FILE_MAGIC then .error (.invalidFileMagic m)
  else if (major, minor) ≠ (1, 0) then .error (.invalidVersion major minor)
  else if fhs ≠ 28 then .error (.invalidFileHeaderSize fhs)
  else if chs ≠ 12 then .error (.invalidChunkHeaderSize chs)
  else if bsz ≠ 4096 then .error (.invalidBlockSize bsz)
  else .ok ⟨tb, tc, ic⟩

/-! ## Writer invariant vocabulary -/

/-- Well-formedness of a chunk's payload (lengths the Rust types enforce). -/
def WChunk.wf : WChunk → Prop
  | .raw bufs => ∀ b ∈ bufs, b.length = 4096
  | .fill v _ => v.length = 4
  | .dontCare _ => True
  | .crc32 _ => True

/-- Bytes present in the sink for the in-progress chunk: the 12-byte header
gap (zero once later writes fill it) plus the body written so far.  A
don't-care chunk has written nothing, so nothing is present. -/
def openPartial : Option WChunk → List Nat
  | none => []
  | some (.raw bufs) => List.replicate 12 0 ++ bufs.flatten
  | some (.fill v _) => List.replicate 12 0 ++ v
  | some (.dontCare _) => []
  | some (.crc32 c) => List.replicate 12 0 ++ le32 c

/-- How far the cursor has advanced for the in-progress chunk. -/
def openAdv : Option WChunk → Nat
  | none => 0
  | some c => c.header.total_size

/-- The cached fill value corresponding to the in-progress chunk. -/
def openFillCache : Option WChunk → Option (List Nat)
  | some (.fill v _) => some v
  | _ => none

/-- Raw-image block count of the in-progress chunk. -/
def optCount : Option WChunk → Nat
  | none => 0
  | some c => c.count

/-- Serialized bytes of the finished chunks. -/
def doneBytes (done : List WChunk) : List Nat := (done.map WChunk.bytes).flatten

/-- Cursor distance covered by the finished chunks. -/
def sizeSum (done : List WChunk) : Nat := (done.map fun c => c.header.total_size).sum

/-- Raw-image block count of the finished chunks. -/
def countSum (done : List WChunk) : Nat := (done.map WChunk.count).sum

/-- The sink contents determined by the finished and in-progress chunks: the
28-byte file-header gap, the finished chunks, the in-progress partial bytes —
or nothing at all while nothing has been written yet. -/
def sinkData (done : List WChunk) (opn : Option WChunk) : List Nat :=
  if done = [] ∧ openPartial opn = [] then []
  else List.replicate 28 0 ++ doneBytes done ++ openPartial opn

/-- The writer-state invariant tying a `WriterState` to the functional chunk
view `(done, opn)` after consuming `consumed`. -/
structure WriterInv (withCrc : Bool) (consumed : List Block)
    (done : List WChunk) (opn : Option WChunk) (w : WriterState) : Prop where
  hchunk : w.current_chunk = opn.map WChunk.header
  hfill : w.current_fill = openFillCache opn
  hnb : w.num_blocks = countSum done
  hnc : w.num_chunks = done.length
  hdata : w.dst.data = sinkData done opn
  hpos : w.dst.pos = 28 + sizeSum done + openAdv opn
  hcrc : w.crc = if withCrc then some (crcOfBlocks consumed) else none
  hwfdone : ∀ c ∈ done, c.wf
  hwfopen : ∀ c ∈ opn.toList, c.wf
  hsize : sizeSum done + openAdv opn ≤ 4108 * consumed.length
  hcount : countSum done + optCount opn ≤ consumed.length
  hlen : done.length + opn.toList.length ≤ consumed.length

/-! ## Encoder structure lemmas (`src/read.rs` Encoder, `src/encoder.rs`) -/

/-- Block count of an optional in-progress chunk. -/
def optNb (o : Option EChunk) : Nat := (o.map EChunk.nb).getD 0

/-- Block total of an encoder state. -/
def encStateTotal (st : Nat × Option EChunk × List EChunk) : Nat :=
  (st.2.2.map EChunk.nb).sum + optNb st.2.1

/-- No block of an adjacent successor chunk could have merged into its
predecessor (the successor's head block is what `can_merge` rejected). -/
def notMergeable (c1 c2 : WChunk) : Prop :=
  ∀ b, c2.blocks.head? = some b → c1.mergeable b = false

/-! ### Reading back a written image -/

/-- The reader's record for a chunk whose header starts at position `p`. -/
def WChunk.record (p : Nat) : WChunk → RChunk
  | .raw bufs => .raw (p + 12) bufs.length
  | .fill v n => .fill v n
  | .dontCare n => .dontCare n
  | .crc32 c => .crc32 c

/-- The records of consecutive chunks laid out from position `p`. -/
def recordsFrom (p : Nat) : List WChunk → List RChunk
  | [] => []
  | c :: t => c.record p :: recordsFrom (p + c.header.total_size) t

/-- Digest update for one whole chunk (the blocks it was merged from). -/
def crcChunk (v : Nat) (c : WChunk) : Nat := c.blocks.foldl crcWriteBlock v

/-- Every `Crc32` chunk in the list carries exactly the digest value
accumulated at its position. -/
def crcConsistent (v : Nat) : List WChunk → Prop
  | [] => True
  | c :: t => (∀ cv, c = .crc32 cv → cv = v) ∧ crcConsistent (crcChunk v c) t

/-- The finished and open chunks after replaying a block sequence. -/
def mergedChunks (bs : List Block) : List WChunk :=
  (mergeBlocks bs).1 ++ (mergeBlocks bs).2.toList

/-! ### The `read.rs` Encoder emits the classified slices -/

/-- Expansion of an encoder state into blocks (finished chunks then the
in-progress one). -/
def encExpand (r : List Nat) (st : Nat × Option EChunk × List EChunk) : List Block :=
  ((st.2.2 ++ st.2.1.toList).map (EChunk.toBlocks r)).flatten

@[simp] theorem le16_length (n : Nat) : (le16 n).length = 2 := rfl

@[simp] theorem le32_length (n : Nat) : (le32 n).length = 4 := rfl

@[simp] theorem fileHeader_writeTo_length (h : FileHeader) : h.writeTo.length = 28 := rfl

@[simp] theorem chunkHeader_writeTo_length (h : ChunkHeader) : h.writeTo.length = 12 := rfl

theorem de16_le16 (n : Nat) (h : n < 65536) :
    de16 (n % 256) (n / 256 % 256) = n := by
  unfold de16; omega

theorem de32_le32 (n : Nat) (h : n < U32) :
    de32 (n % 256) (n / 256 % 256) (n / 65536 % 256) (n / 16777216 % 256) = n := by
  unfold de32 U32 at *; omega

@[simp] theorem splitSz_nil (k : Nat) : splitSz k [] = [] := by
  unfold splitSz; simp

theorem splitSz_cons (k : Nat) (l : List Nat) (h : l ≠ []) :
    splitSz k l = l.take (k + 1) :: splitSz k (l.drop (k + 1)) := by
  rw [splitSz]; simp [h]

theorem flatten_splitSz (k : Nat) (l : List Nat) : (splitSz k l).flatten = l := by
  induction l using splitSz.induct k with
  | case1 => simp
  | case2 l h ih =>
    rw [splitSz_cons k l h]
    simp [ih]

theorem splitSz_length (k : Nat) (l : List Nat) :
    (splitSz k l).length = (l.length + k) / (k + 1) := by
  induction l using splitSz.induct k with
  | case1 => simp [Nat.div_eq_of_lt (Nat.lt_succ_self k)]
  | case2 l h ih =>
    rw [splitSz_cons k l h]
    have hpos : 0 < l.length := List.length_pos.mpr h
    have hnum : l.length + k = (l.length - 1) + (k + 1) := by omega
    rw [List.length_cons, ih, List.length_drop, hnum, Nat.add_div_right _ (Nat.succ_pos k)]
    rcases Nat.lt_or_ge l.length (k + 1) with hlt | hge
    · rw [Nat.sub_eq_zero_of_le (le_of_lt hlt), Nat.zero_add,
        Nat.div_eq_of_lt (by omega), Nat.div_eq_of_lt (by omega)]
    · have heq : l.length - (k + 1) + k = l.length - 1 := by omega
      rw [heq]

theorem splitSz_mem_length (k : Nat) (l : List Nat) :
    ∀ p ∈ splitSz k l, p.length ≤ k + 1 ∧ p ≠ [] := by
  induction l using splitSz.induct k with
  | case1 => simp
  | case2 l h ih =>
    rw [splitSz_cons k l h]
    intro p hp
    rcases List.mem_cons.mp hp with rfl | hp
    · constructor
      · simp [List.length_take]
      · simp only [ne_eq, List.take_eq_nil_iff]
        push_neg
        exact ⟨by omega, h⟩
    · exact ih p hp

theorem splitSz_mem_length_dvd (k : Nat) (l : List Nat)
    (hd : (k + 1) ∣ l.length) : ∀ p ∈ splitSz k l, p.length = k + 1 := by
  induction l using splitSz.induct k with
  | case1 => simp
  | case2 l h ih =>
    rw [splitSz_cons k l h]
    intro p hp
    have hlen : k + 1 ≤ l.length := by
      rcases hd with ⟨c, hc⟩
      have : c ≠ 0 := by
        rintro rfl
        exact h (List.eq_nil_of_length_eq_zero (by omega))
      nlinarith [Nat.one_le_iff_ne_zero.mpr this]
    rcases List.mem_cons.mp hp with rfl | hp
    · simp [List.length_take]; omega
    · refine ih ?_ p hp
      simp only [List.length_drop]
      exact (Nat.dvd_sub' hd dvd_rfl)

theorem flatten_replicate_length {n m : Nat} (v : List Nat) (hv : v.length = m) :
    (List.replicate n v).flatten.length = n * m := by
  induction n with
  | zero => simp
  | succ k ih => simp [List.replicate_succ, ih, hv]; ring

theorem Block.rawBytes_length (b : Block) (hb : b.wf) (hnc : ∀ c, b ≠ .crc32 c) :
    b.rawBytes.length = 4096 := by
  cases b with
  | raw buf => simpa [Block.rawBytes] using hb
  | fill v =>
    have hv : v.length = 4 := hb
    show (List.replicate 1024 v).flatten.length = 4096
    rw [flatten_replicate_length v hv]
  | skip =>
    show (List.replicate 4096 0).length = 4096
    rw [List.length_replicate]
  | crc32 c => exact absurd rfl (hnc c)

@[simp] theorem compl32_compl32 (v : Nat) : compl32 (compl32 v) = v := by
  simp only [compl32]
  rw [Nat.xor_assoc, Nat.xor_self, Nat.xor_zero]

@[simp] theorem crcWrite_nil (v : Nat) : crcWrite v [] = v := by
  simp [crcWrite]

theorem crcWrite_append (v : Nat) (a b : List Nat) :
    crcWrite (crcWrite v a) b = crcWrite v (a ++ b) := by
  simp [crcWrite, List.foldl_append]

/-- `Digest::write` iterated over a list of buffers collapses to one stream. -/
theorem foldl_crcWrite_flatten (v : Nat) (bufs : List (List Nat)) :
    bufs.foldl crcWrite v = crcWrite v bufs.flatten := by
  induction bufs generalizing v with
  | nil => simp
  | cons a t ih => simp [ih, crcWrite_append]

theorem crcWriteBlock_eq_rawBytes (v : Nat) (b : Block) :
    crcWriteBlock v b = crcWrite v b.rawBytes := by
  cases b with
  | raw buf => rfl
  | fill value => exact foldl_crcWrite_flatten v _
  | skip => rfl
  | crc32 c => exact (crcWrite_nil v).symm

theorem foldl_crcWriteBlock_eq (v : Nat) (bs : List Block) :
    bs.foldl crcWriteBlock v = crcWrite v (bs.map Block.rawBytes).flatten := by
  induction bs generalizing v with
  | nil => simp
  | cons b t ih => simp [ih, crcWriteBlock_eq_rawBytes, crcWrite_append]

theorem storeBytes_append_at_end (data : List Nat) (p : Nat) (bs : List Nat)
    (h : data.length ≤ p) :
    storeBytes data p bs = if bs = [] then data
      else data ++ List.replicate (p - data.length) 0 ++ bs := by
  induction bs generalizing data p with
  | nil => simp [storeBytes]
  | cons b t ih =>
    simp only [storeBytes, reduceIte]
    have hsb : storeByte data p b = data ++ List.replicate (p - data.length) 0 ++ [b] := by
      unfold storeByte
      rw [if_neg (by omega)]
    rw [hsb, ih _ _ (by simp; omega)]
    rcases eq_or_ne t [] with rfl | ht
    · simp
    · rw [if_neg ht]
      have hlen : (data ++ List.replicate (p - data.length) 0 ++ [b]).length = p + 1 := by
        simp; omega
      rw [hlen]
      simp

/-- Writing exactly at the end of the file appends. -/
theorem storeBytes_at_end (data : List Nat) (bs : List Nat) :
    storeBytes data data.length bs = data ++ bs := by
  rw [storeBytes_append_at_end _ _ _ le_rfl]
  rcases eq_or_ne bs [] with rfl | h <;> simp [*]

/-- Overwriting a region strictly inside the file (back-patching a header
whose placeholder `mid` was reserved earlier). -/
theorem storeBytes_patch (pre mid post bs : List Nat) (h : mid.length = bs.length) :
    storeBytes (pre ++ mid ++ post) pre.length bs = pre ++ bs ++ post := by
  induction bs generalizing pre mid with
  | nil =>
    have hm : mid = [] := List.eq_nil_of_length_eq_zero (by simpa using h)
    subst hm
    simp [storeBytes]
  | cons b t ih =>
    cases mid with
    | nil => simp at h
    | cons m mt =>
      simp only [storeBytes]
      have hre : pre ++ (m :: mt) ++ post = pre ++ (m :: (mt ++ post)) := by simp
      have hre2 : pre ++ (m :: (mt ++ post)) = (pre ++ [m]) ++ (mt ++ post) := by simp
      have hset : storeByte (pre ++ (m :: mt) ++ post) pre.length b
          = (pre ++ [b]) ++ mt ++ post := by
        unfold storeByte
        have hlt : pre.length < (pre ++ (m :: mt) ++ post).length := by
          simp
        rw [if_pos hlt, List.set_eq_take_cons_drop _ hlt, hre]
        have htake : (pre ++ (m :: (mt ++ post))).take pre.length = pre := List.take_left _ _
        have hdrop : (pre ++ (m :: (mt ++ post))).drop (pre.length + 1) = mt ++ post := by
          rw [hre2]
          have hl : pre.length + 1 = (pre ++ [m]).length := by simp
          rw [hl, List.drop_left]
        rw [htake, hdrop]
        simp
      rw [hset]
      have hl : pre.length + 1 = (pre ++ [b]).length := by simp
      rw [hl, ih (pre ++ [b]) mt (by simpa using h)]
      simp

/-! ## Decoder correctness -/

theorem Sink.writeAll_at_end (s : Sink) (h : s.pos = s.data.length) (bs : List Nat) :
    s.writeAll bs = ⟨s.data ++ bs, s.pos + bs.length⟩ := by
  unfold Sink.writeAll
  rw [h, storeBytes_at_end]

theorem foldl_writeAll_at_end (ll : List (List Nat)) (s : Sink) (h : s.pos = s.data.length) :
    ll.foldl Sink.writeAll s = ⟨s.data ++ ll.flatten, s.pos + ll.flatten.length⟩ := by
  induction ll generalizing s with
  | nil => cases s with | mk d p => simp at h; simp [h]
  | cons a t ih =>
    simp only [List.foldl_cons]
    rw [Sink.writeAll_at_end s h a, ih _ (by simp [h])]
    simp [h]
    omega

/-- One `Decoder::write_block` call on a cursor-at-end sink appends exactly
the block's raw-image bytes. -/
theorem decodeBlock_spec (s : Sink) (h : s.pos = s.data.length) (b : Block) :
    decodeBlock s b = ⟨s.data ++ b.rawBytes, s.pos + b.rawBytes.length⟩ := by
  cases b with
  | raw buf => exact Sink.writeAll_at_end s h buf
  | fill value => exact foldl_writeAll_at_end _ s h
  | skip =>
    have hr : Block.skip.rawBytes = List.replicate 4096 (0 : Nat) := rfl
    have h2 : List.replicate 4095 (0 : Nat) ++ [0] = List.replicate 4096 0 :=
      (List.replicate_succ' 4095 (0 : Nat)).symm
    show (s.seekCur 4095).writeAll [0] = _
    rw [hr, List.length_replicate]
    unfold Sink.writeAll Sink.seekCur
    simp only
    rw [h, storeBytes_append_at_end _ _ _ (by omega), if_neg (by simp)]
    have h1 : s.data.length + 4095 - s.data.length = 4095 := by omega
    rw [h1, List.append_assoc, h2]
    simp only [Sink.mk.injEq, List.length_singleton]
  | crc32 c => simp [decodeBlock, Block.rawBytes, Sink.mk.injEq]

/-- `Decoder` over a whole block sequence: the fresh output file holds the
concatenated raw-image bytes, with the cursor at the end. -/
theorem runDecoder_spec (bs : List Block) :
    runDecoder bs = ⟨(bs.map Block.rawBytes).flatten, (bs.map Block.rawBytes).flatten.length⟩ := by
  have main : ∀ (bs : List Block) (s : Sink), s.pos = s.data.length →
      bs.foldl decodeBlock s
        = ⟨s.data ++ (bs.map Block.rawBytes).flatten,
           s.pos + (bs.map Block.rawBytes).flatten.length⟩ := by
    intro bs
    induction bs with
    | nil => intro s h; cases s with | mk d p => simp at h; simp [h]
    | cons b t ih =>
      intro s h
      simp only [List.foldl_cons]
      rw [decodeBlock_spec s h b, ih _ (by simp [h])]
      simp [h]
      omega
  simpa using main bs ⟨[], 0⟩ rfl

theorem decoderImage_eq (bs : List Block) :
    decoderImage bs = (bs.map Block.rawBytes).flatten := by
  unfold decoderImage
  rw [runDecoder_spec]

/-- The decoded file's length counts 4096 bytes per data block. -/
theorem decoderImage_length (bs : List Block) (hwf : ∀ b ∈ bs, b.wf) :
    (decoderImage bs).length = 4096 * (dataBlocks bs).length := by
  rw [decoderImage_eq]
  induction bs with
  | nil => simp [dataBlocks]
  | cons b t ih =>
    have hb := hwf b (List.mem_cons_self b t)
    have ht := fun x hx => hwf x (List.mem_cons_of_mem b hx)
    simp only [List.map_cons, List.flatten_cons, List.length_append, ih ht]
    cases b with
    | crc32 c => simp [dataBlocks, Block.rawBytes, Block.isCrc32]
    | raw buf =>
      rw [Block.rawBytes_length _ hb (by intro c h; cases h)]
      simp [dataBlocks, Block.isCrc32, List.filter_cons]
      ring
    | fill v =>
      rw [Block.rawBytes_length _ hb (by intro c h; cases h)]
      simp [dataBlocks, Block.isCrc32, List.filter_cons]
      ring
    | skip =>
      rw [Block.rawBytes_length _ hb (by intro c h; cases h)]
      simp [dataBlocks, Block.isCrc32, List.filter_cons]
      ring

/-! ## Writer state bookkeeping lemmas -/

@[simp] theorem bump_current_fill (w : WriterState) :
    w.bumpChunkSize.current_fill = w.current_fill := rfl

@[simp] theorem feed_current_fill (w : WriterState) (b : Block) :
    (w.feedCrc b).current_fill = w.current_fill := rfl

@[simp] theorem grow_current_fill (w : WriterState) :
    w.growTotalSize.current_fill = w.current_fill := rfl

@[simp] theorem hasFillChunk_bump (w : WriterState) :
    hasFillChunk w.bumpChunkSize = hasFillChunk w := by
  unfold hasFillChunk WriterState.bumpChunkSize
  cases w.current_chunk <;> rfl

@[simp] theorem hasFillChunk_feed (w : WriterState) (b : Block) :
    hasFillChunk (w.feedCrc b) = hasFillChunk w := rfl

@[simp] theorem hasFillChunk_grow (w : WriterState) :
    hasFillChunk w.growTotalSize = hasFillChunk w := by
  unfold hasFillChunk WriterState.growTotalSize
  cases w.current_chunk <;> rfl

theorem finishChunk_fill (w : WriterState) : w.finishChunk.current_fill = none ∨
    (w.finishChunk = w ∧ w.current_chunk = none) := by
  unfold WriterState.finishChunk
  cases h : w.current_chunk with
  | none => exact Or.inr ⟨rfl, rfl⟩
  | some c => exact Or.inl rfl

theorem finishChunk_chunk (w : WriterState) : w.finishChunk.current_chunk = none ∨
    (w.finishChunk = w ∧ w.current_chunk = none) := by
  unfold WriterState.finishChunk
  cases h : w.current_chunk with
  | none => exact Or.inr ⟨rfl, rfl⟩
  | some c => exact Or.inl rfl

/-- After `finish_chunk`, no chunk is open and no fill value is cached
(using the invariant in the no-open-chunk case). -/
theorem finishChunk_clears (w : WriterState)
    (h : hasFillChunk w = w.current_fill.isSome) :
    w.finishChunk.current_chunk = none ∧ w.finishChunk.current_fill = none := by
  unfold WriterState.finishChunk
  cases hc : w.current_chunk with
  | some c => exact ⟨rfl, rfl⟩
  | none =>
    refine ⟨hc, ?_⟩
    unfold hasFillChunk at h
    rw [hc] at h
    simpa using h.symm

theorem startChunk_fields (w : WriterState) (b : Block) :
    (w.startChunk b).current_fill = w.current_fill ∧
    ∃ c, (w.startChunk b).current_chunk = some c ∧
      c.chunk_type = (match b with
        | .raw _ => ChunkType.raw
        | .fill _ => ChunkType.fill
        | .skip => ChunkType.dontCare
        | .crc32 _ => ChunkType.crc32) := by
  cases b <;> exact ⟨rfl, _, rfl, rfl⟩

theorem hasFillChunk_eq (w : WriterState) (c : ChunkHeader) (h : w.current_chunk = some c) :
    hasFillChunk w = (c.chunk_type == ChunkType.fill) := by
  unfold hasFillChunk
  rw [h]

/-- `can_merge` of any block against a state with no open chunk is false. -/
theorem canMerge_none (w : WriterState) (b : Block) (h : w.current_chunk = none) :
    w.canMerge b = false := by
  unfold WriterState.canMerge
  rw [h]

/-- A `Crc32` block never merges. -/
theorem canMerge_crc32 (w : WriterState) (c : Nat) :
    w.canMerge (.crc32 c) = false := by
  unfold WriterState.canMerge
  cases hc : w.current_chunk with
  | none => rfl
  | some ch => cases ch with
    | mk ct cs ts => cases ct <;> rfl

/-- If `can_merge` accepts a fill block, the open chunk is a fill chunk and
the cached fill value equals the incoming one. -/
theorem canMerge_fill_facts (w : WriterState) (value : List Nat)
    (h : w.canMerge (.fill value) = true) :
    hasFillChunk w = true ∧ w.current_fill = some value := by
  unfold WriterState.canMerge at h
  cases hc : w.current_chunk with
  | none => rw [hc] at h; simp at h
  | some c =>
    rw [hc] at h
    cases c with
    | mk ct cs ts =>
      cases ct with
      | raw => simp at h
      | fill =>
        simp only [beq_iff_eq] at h
        exact ⟨by simp [hasFillChunk, hc], h⟩
      | dontCare => simp at h
      | crc32 => simp at h

/-- If `can_merge` accepts a raw block, the open chunk is a raw chunk. -/
theorem canMerge_raw_facts (w : WriterState) (buf : List Nat)
    (h : w.canMerge (.raw buf) = true) :
    ∃ cs ts, w.current_chunk = some ⟨ChunkType.raw, cs, ts⟩ := by
  unfold WriterState.canMerge at h
  cases hc : w.current_chunk with
  | none => rw [hc] at h; simp at h
  | some c =>
    rw [hc] at h
    cases c with
    | mk ct cs ts =>
      cases ct with
      | raw => exact ⟨cs, ts, rfl⟩
      | fill => simp at h
      | dontCare => simp at h
      | crc32 => simp at h

/-- If `can_merge` accepts a skip block, the open chunk is a don't-care
chunk. -/
theorem canMerge_skip_facts (w : WriterState)
    (h : w.canMerge .skip = true) :
    ∃ cs ts, w.current_chunk = some ⟨ChunkType.dontCare, cs, ts⟩ := by
  unfold WriterState.canMerge at h
  cases hc : w.current_chunk with
  | none => rw [hc] at h; simp at h
  | some c =>
    rw [hc] at h
    cases c with
    | mk ct cs ts =>
      cases ct with
      | raw => simp at h
      | fill => simp at h
      | dontCare => exact ⟨cs, ts, rfl⟩
      | crc32 => simp at h

/-! ### `start_chunk` and `write_block`, case by case -/

theorem startChunk_raw (w : WriterState) (buf : List Nat) :
    w.startChunk (.raw buf)
      = { w with
          dst := w.dst.seekCur 12
          current_chunk := some ⟨ChunkType.raw, 0, 12⟩ } := rfl

theorem startChunk_fill (w : WriterState) (value : List Nat) :
    w.startChunk (.fill value)
      = { w with
          dst := w.dst.seekCur 12
          current_chunk := some ⟨ChunkType.fill, 0, 16⟩ } := rfl

theorem startChunk_skip (w : WriterState) :
    w.startChunk .skip
      = { w with
          dst := w.dst.seekCur 12
          current_chunk := some ⟨ChunkType.dontCare, 0, 12⟩ } := rfl

theorem startChunk_crc32 (w : WriterState) (c : Nat) :
    w.startChunk (.crc32 c)
      = { w with
          dst := w.dst.seekCur 12
          current_chunk := some ⟨ChunkType.crc32, 0, 16⟩ } := rfl

theorem writeBlock_raw_merge (w : WriterState) (buf : List Nat)
    (hcm : w.canMerge (.raw buf) = true) :
    w.writeBlock (.raw buf)
      = (({ w with dst := w.dst.writeAll buf }).growTotalSize.feedCrc
          (.raw buf)).bumpChunkSize := by
  unfold WriterState.writeBlock
  rw [hcm]
  simp

theorem writeBlock_raw_new (w : WriterState) (buf : List Nat)
    (hcm : w.canMerge (.raw buf) = false) :
    w.writeBlock (.raw buf)
      = let s := w.finishChunk.startChunk (.raw buf)
        (({ s with dst := s.dst.writeAll buf }).growTotalSize.feedCrc
          (.raw buf)).bumpChunkSize := by
  unfold WriterState.writeBlock
  rw [hcm]
  simp

theorem writeBlock_fill_merge (w : WriterState) (value : List Nat)
    (hcm : w.canMerge (.fill value) = true) :
    w.writeBlock (.fill value) = (w.feedCrc (.fill value)).bumpChunkSize := by
  obtain ⟨-, hv⟩ := canMerge_fill_facts w value hcm
  unfold WriterState.writeBlock
  rw [hcm]
  simp [hv]

theorem writeBlock_fill_new (w : WriterState) (value : List Nat)
    (hcm : w.canMerge (.fill value) = false)
    (hfn : w.finishChunk.current_fill = none) :
    w.writeBlock (.fill value)
      = let s := w.finishChunk.startChunk (.fill value)
        (({ s with
            dst := s.dst.writeAll value
            current_fill := some value }).feedCrc (.fill value)).bumpChunkSize := by
  unfold WriterState.writeBlock
  rw [hcm]
  have hsf : (w.finishChunk.startChunk (.fill value)).current_fill = none := hfn
  simp [hsf]

theorem writeBlock_skip_merge (w : WriterState)
    (hcm : w.canMerge .skip = true) :
    w.writeBlock .skip = (w.feedCrc .skip).bumpChunkSize := by
  unfold WriterState.writeBlock
  rw [hcm]
  simp

theorem writeBlock_skip_new (w : WriterState)
    (hcm : w.canMerge .skip = false) :
    w.writeBlock .skip
      = ((w.finishChunk.startChunk .skip).feedCrc .skip).bumpChunkSize := by
  unfold WriterState.writeBlock
  rw [hcm]
  simp

theorem writeBlock_crc32 (w : WriterState) (c : Nat) :
    w.writeBlock (.crc32 c)
      = let s := w.finishChunk.startChunk (.crc32 c)
        { s with dst := s.dst.writeAll (le32 c) } := by
  unfold WriterState.writeBlock
  rw [canMerge_crc32 w c]
  simp

/-- One `write_block` call preserves the correspondence between the open
chunk being a Fill chunk and `current_fill` being set. -/
theorem writeBlock_fill_inv (w : WriterState) (b : Block)
    (h : hasFillChunk w = w.current_fill.isSome) :
    hasFillChunk (w.writeBlock b) = (w.writeBlock b).current_fill.isSome := by
  have hclear := finishChunk_clears w h
  cases b with
  | raw buf =>
    cases hcm : w.canMerge (.raw buf) with
    | true =>
      obtain ⟨cs, ts, hc⟩ := canMerge_raw_facts w buf hcm
      rw [writeBlock_raw_merge w buf hcm]
      simp only [hasFillChunk_bump, hasFillChunk_feed, hasFillChunk_grow,
        bump_current_fill, feed_current_fill, grow_current_fill]
      simp only [hasFillChunk, hc] at h ⊢
      exact h
    | false =>
      rw [writeBlock_raw_new w buf hcm, startChunk_raw]
      simp only [hasFillChunk_bump, hasFillChunk_feed, hasFillChunk_grow,
        bump_current_fill, feed_current_fill, grow_current_fill]
      simp [hasFillChunk, hclear.2]
  | fill value =>
    cases hcm : w.canMerge (.fill value) with
    | true =>
      obtain ⟨hf, hv⟩ := canMerge_fill_facts w value hcm
      rw [writeBlock_fill_merge w value hcm]
      simpa using h
    | false =>
      rw [writeBlock_fill_new w value hcm hclear.2, startChunk_fill]
      simp only [hasFillChunk_bump, hasFillChunk_feed, bump_current_fill, feed_current_fill]
      simp [hasFillChunk]
  | skip =>
    cases hcm : w.canMerge .skip with
    | true =>
      rw [writeBlock_skip_merge w hcm]
      simpa using h
    | false =>
      rw [writeBlock_skip_new w hcm, startChunk_skip]
      simp only [hasFillChunk_bump, hasFillChunk_feed, bump_current_fill, feed_current_fill]
      simp [hasFillChunk, hclear.2]
  | crc32 cv =>
    rw [writeBlock_crc32 w cv, startChunk_crc32]
    simp [hasFillChunk, hclear.2]

theorem encMergeRaw_total (pos : Nat) (ch : Option EChunk) :
    ((encMergeRaw pos ch).1.map EChunk.nb).getD 0 + (encMergeRaw pos ch).2.nb
      = optNb ch + 1 := by
  cases ch with
  | none => rfl
  | some c => cases c <;> simp [encMergeRaw, optNb, EChunk.nb]

theorem encMergeFill_total (value : List Nat) (ch : Option EChunk) :
    ((encMergeFill value ch).1.map EChunk.nb).getD 0 + (encMergeFill value ch).2.nb
      = optNb ch + 1 := by
  cases ch with
  | none => rfl
  | some c =>
    cases c with
    | fill v n =>
      by_cases hv : v = value <;> simp [encMergeFill, hv, optNb, EChunk.nb]
    | raw o n => simp [encMergeFill, optNb, EChunk.nb]
    | dontCare n => simp [encMergeFill, optNb, EChunk.nb]

theorem encMergeDontCare_total (ch : Option EChunk) :
    ((encMergeDontCare ch).1.map EChunk.nb).getD 0 + (encMergeDontCare ch).2.nb
      = optNb ch + 1 := by
  cases ch with
  | none => rfl
  | some c => cases c <;> simp [encMergeDontCare, optNb, EChunk.nb]

/-- Every non-empty slice the encoder reads contributes exactly one block to
its running total. -/
theorem encStep_total (st : Nat × Option EChunk × List EChunk) (slice : List Nat)
    (h : slice ≠ []) :
    encStateTotal (encStep st slice) = encStateTotal st + 1 := by
  obtain ⟨pos, ch, out⟩ := st
  unfold encStep
  dsimp only
  rw [if_neg h]
  by_cases hs : is_sparse_block slice = true
  · by_cases hz : slice.take 4 = [0, 0, 0, 0]
    · have := encMergeDontCare_total ch
      simp only [hs, if_true, hz]
      unfold encStateTotal optNb at *
      cases hmc : (encMergeDontCare ch).1 with
      | none => simp [hmc] at this ⊢; omega
      | some c => simp [hmc] at this ⊢; omega
    · have := encMergeFill_total (slice.take 4) ch
      simp only [hs, if_true, hz, if_false]
      unfold encStateTotal optNb at *
      cases hmc : (encMergeFill (slice.take 4) ch).1 with
      | none => simp [hmc] at this ⊢; omega
      | some c => simp [hmc] at this ⊢; omega
  · have := encMergeRaw_total (pos + slice.length) ch
    simp only [hs]
    unfold encStateTotal optNb at *
    cases hmc : (encMergeRaw (pos + slice.length) ch).1 with
    | none => simp [hmc] at this ⊢; omega
    | some c => simp [hmc] at this ⊢; omega

theorem encFold_total (slices : List (List Nat)) (st : Nat × Option EChunk × List EChunk)
    (h : ∀ p ∈ slices, p ≠ []) :
    encStateTotal (slices.foldl encStep st) = encStateTotal st + slices.length := by
  induction slices generalizing st with
  | nil => simp
  | cons p t ih =>
    simp only [List.foldl_cons, List.length_cons]
    rw [ih _ (fun q hq => h q (List.mem_cons_of_mem p hq)),
      encStep_total st p (h p (List.mem_cons_self p t))]
    omega

/-- The `read.rs` encoder's total block count equals the number of slices the
read loop produces — the final partial slice included. -/
theorem encTotalBlocks_eq (r : List Nat) :
    encTotalBlocks r = (splitSz 4095 r).length := by
  have h := encFold_total (splitSz 4095 r) (0, none, [])
    (fun p hp => (splitSz_mem_length 4095 r p hp).2)
  unfold encTotalBlocks encChunks
  unfold encStateTotal at h
  rcases hfold : (splitSz 4095 r).foldl encStep (0, none, []) with ⟨pos, ch, out⟩
  rw [hfold] at h
  simp only at h ⊢
  cases ch with
  | none => simp [optNb] at h ⊢; omega
  | some c => simp [optNb, EChunk.nb] at h ⊢; omega

/-- On a source that is not a whole number of blocks, the slice list is all
full blocks plus one final partial slice. -/
theorem splitSz_frag (r : List Nat) (h : r.length % 4096 ≠ 0) :
    ∃ init last, splitSz 4095 r = init ++ [last] ∧
      (∀ p ∈ init, p.length = 4096) ∧
      last.length = r.length % 4096 := by
  induction r using splitSz.induct 4095 with
  | case1 => simp at h
  | case2 l hne ih =>
    rw [splitSz_cons 4095 l hne]
    rcases Nat.lt_or_ge l.length 4096 with hlt | hge
    · refine ⟨[], l.take 4096, ?_, by simp, ?_⟩
      · have : l.drop 4096 = [] := List.drop_eq_nil_of_le (by omega)
        rw [this]
        simp
      · rw [List.length_take]
        omega
    · have hdl : (l.drop 4096).length % 4096 ≠ 0 := by
        rw [List.length_drop]
        omega
      obtain ⟨init, last, heq, hinit, hlast⟩ := ih hdl
      refine ⟨l.take 4096 :: init, last, by rw [heq]; rfl, ?_, ?_⟩
      · intro p hp
        rcases List.mem_cons.mp hp with rfl | hp
        · rw [List.length_take]; omega
        · exact hinit p hp
      · rw [hlast, List.length_drop]
        omega

theorem is_sparse_block_frag (p : List Nat) (h : p.length ≠ 4096) :
    is_sparse_block p = false := by
  unfold is_sparse_block
  rw [if_pos (by simpa [BLOCK_SIZE] using h)]

theorem encoderRsStep_full (cs : List FChunk) (p : List Nat) (hp : p.length = 4096) :
    ∃ cs', encoderRsStep (.ok cs) p = .ok cs' := by
  unfold encoderRsStep
  dsimp only
  rw [if_neg (by rintro rfl; simp at hp)]
  by_cases hs : is_sparse_block p = true
  · rw [hs]
    by_cases hz : p.take 4 = [0, 0, 0, 0]
    · simp only [hz, if_true, if_false]
      unfold fileAddDontCare
      rw [if_neg (by norm_num)]
      split <;> exact ⟨_, rfl⟩
    · simp only [hz, if_true, if_false]
      unfold fileAddFill
      rw [if_neg (by norm_num)]
      split
      · split <;> exact ⟨_, rfl⟩
      · exact ⟨_, rfl⟩
  · rw [Bool.not_eq_true] at hs
    rw [hs]
    simp only [Bool.false_eq_true, if_false]
    unfold fileAddRaw
    rw [if_neg (by simp [hp])]
    split <;> exact ⟨_, rfl⟩

theorem encoderRsStep_frag (cs : List FChunk) (p : List Nat)
    (h2 : p.length % 4096 ≠ 0) :
    encoderRsStep (.ok cs) p = .error "bytes size must be multiple of block_size" := by
  unfold encoderRsStep
  dsimp only
  rw [if_neg (by rintro rfl; simp at h2)]
  rw [is_sparse_block_frag p (by omega)]
  simp only [Bool.false_eq_true, if_false]
  unfold fileAddRaw
  rw [if_pos h2]

theorem encoderRsStep_error (e : String) (p : List Nat) :
    encoderRsStep (.error e) p = .error e := rfl

theorem encoderRs_foldl_error (e : String) (l : List (List Nat)) :
    l.foldl encoderRsStep (.error e) = .error e := by
  induction l with
  | nil => rfl
  | cons p t ih => simpa [encoderRsStep_error] using ih

theorem encoderRs_foldl_full (l : List (List Nat)) (cs : List FChunk)
    (h : ∀ p ∈ l, p.length = 4096) :
    ∃ cs', l.foldl encoderRsStep (.ok cs) = .ok cs' := by
  induction l generalizing cs with
  | nil => exact ⟨cs, rfl⟩
  | cons p t ih =>
    obtain ⟨cs', hcs'⟩ := encoderRsStep_full cs p (h p (List.mem_cons_self p t))
    simp only [List.foldl_cons, hcs']
    exact ih cs' (fun q hq => h q (List.mem_cons_of_mem p hq))

/-- `src/encoder.rs` on a source that is not a whole number of blocks:
`File::add_raw` rejects the final partial slice. -/
theorem encoderRsRead_frag (r : List Nat) (h : r.length % 4096 ≠ 0) :
    encoderRsRead r = .error "bytes size must be multiple of block_size" := by
  obtain ⟨init, last, heq, hinit, hlast⟩ := splitSz_frag r h
  unfold encoderRsRead
  rw [heq, List.foldl_append]
  obtain ⟨cs', hcs'⟩ := encoderRs_foldl_full init [] hinit
  rw [hcs']
  simp only [List.foldl_cons, List.foldl_nil]
  rw [encoderRsStep_frag cs' last (by omega)]

/-! ## Byte-source evaluation lemmas

Each lemma consumes a prefix of the unread bytes (`s.data.drop s.pos`). -/

theorem drop_view_step (data : List Nat) (p : Nat) (pre tail : List Nat)
    (h : data.drop p = pre ++ tail) : data.drop (p + pre.length) = tail := by
  have h2 : data.drop (p + pre.length) = (data.drop p).drop pre.length := by
    rw [List.drop_drop, Nat.add_comm]
  rw [h2, h, List.drop_left]

theorem drop_view16 (data : List Nat) (p k : Nat) (tail : List Nat)
    (h : data.drop p = le16 k ++ tail) : data.drop (p + 2) = tail :=
  drop_view_step data p (le16 k) tail h

theorem drop_view32 (data : List Nat) (p k : Nat) (tail : List Nat)
    (h : data.drop p = le32 k ++ tail) : data.drop (p + 4) = tail :=
  drop_view_step data p (le32 k) tail h

theorem Src.readExact_view (s : Src) (mid tail : List Nat) (hm : mid ≠ [])
    (h : s.data.drop s.pos = mid ++ tail) :
    s.readExact mid.length = .ok (mid, { s with pos := s.pos + mid.length }) := by
  unfold Src.readExact
  have hlen := congrArg List.length h
  rw [List.length_drop, List.length_append] at hlen
  have hmp : 0 < mid.length := List.length_pos.mpr hm
  have hple : s.pos + mid.length ≤ s.data.length := by omega
  rw [if_pos hple, h, List.take_left]

theorem Src.readU16_view (s : Src) (k : Nat) (tail : List Nat) (hk : k < 65536)
    (h : s.data.drop s.pos = le16 k ++ tail) :
    s.readU16 = .ok (k, { s with pos := s.pos + 2 }) := by
  unfold Src.readU16
  have he := Src.readExact_view s (le16 k) tail (by simp [le16]) h
  rw [show ((le16 k).length) = 2 from rfl] at he
  rw [he]
  show Except.ok (de16 ((le16 k).getD 0 0) ((le16 k).getD 1 0), _) = _
  rw [show (le16 k).getD 0 0 = k % 256 from rfl, show (le16 k).getD 1 0 = k / 256 % 256 from rfl,
    de16_le16 k hk]

theorem Src.readU32_view (s : Src) (k : Nat) (tail : List Nat) (hk : k < U32)
    (h : s.data.drop s.pos = le32 k ++ tail) :
    s.readU32 = .ok (k, { s with pos := s.pos + 4 }) := by
  unfold Src.readU32
  have he := Src.readExact_view s (le32 k) tail (by simp [le32]) h
  rw [show ((le32 k).length) = 4 from rfl] at he
  rw [he]
  show Except.ok (de32 ((le32 k).getD 0 0) ((le32 k).getD 1 0)
    ((le32 k).getD 2 0) ((le32 k).getD 3 0), _) = _
  rw [show (le32 k).getD 0 0 = k % 256 from rfl, show (le32 k).getD 1 0 = k / 256 % 256 from rfl,
    show (le32 k).getD 2 0 = k / 65536 % 256 from rfl,
    show (le32 k).getD 3 0 = k / 16777216 % 256 from rfl, de32_le32 k hk]

/-- `FileHeader::read_from` on wire bytes assembled from arbitrary field
values: the verdict is the first failing validation, and on success the
three counters are taken verbatim, consuming exactly 28 bytes. -/
theorem readFileHeader_fields (m maj minr fhs chs bsz tb tc ic : Nat) (s : Src)
    (hm : m < U32) (h1 : maj < 65536) (h2 : minr < 65536) (h3 : fhs < 65536)
    (h4 : chs < 65536) (h5 : bsz < U32) (h6 : tb < U32) (h7 : tc < U32) (h8 : ic < U32)
    (tail : List Nat)
    (hview : s.data.drop s.pos = headerFieldBytes m maj minr fhs chs bsz tb tc ic ++ tail) :
    readFileHeader s
      = match headerVerdict m maj minr fhs chs bsz tb tc ic with
        | .error e => .error e
        | .ok h => .ok (h, { s with pos := s.pos + 28 }) := by
  unfold headerFieldBytes at hview
  simp only [List.append_assoc] at hview
  unfold readFileHeader headerVerdict FILE_MAGIC FileHeader.SIZE ChunkHeader.SIZE BLOCK_SIZE
  rw [Src.readU32_view s m _ hm hview]
  dsimp only
  by_cases hcm : m = 0xED26FF3A
  case neg => rw [if_pos hcm, if_pos hcm]
  subst hcm
  rw [if_neg (by simp), if_neg (by simp)]
  have hv1 := drop_view32 s.data s.pos _ _ hview
  rw [Src.readU16_view ⟨s.data, s.pos + 4⟩ maj _ h1 hv1]
  dsimp only
  have hv2 := drop_view16 s.data (s.pos + 4) maj _ hv1
  rw [Src.readU16_view ⟨s.data, s.pos + 4 + 2⟩ minr _ h2 hv2]
  dsimp only
  by_cases hcv : (maj, minr) = ((1 : Nat), (0 : Nat))
  case neg => rw [if_pos hcv, if_pos hcv]
  have hmaj : maj = 1 := congrArg Prod.fst hcv
  have hmin : minr = 0 := congrArg Prod.snd hcv
  subst hmaj hmin
  rw [if_neg (by simp), if_neg (by simp)]
  have hv3 := drop_view16 s.data (s.pos + 4 + 2) _ _ hv2
  rw [Src.readU16_view ⟨s.data, s.pos + 4 + 2 + 2⟩ fhs _ h3 hv3]
  dsimp only
  by_cases hcf : fhs = 28
  case neg => rw [if_pos hcf, if_pos hcf]
  subst hcf
  rw [if_neg (by simp), if_neg (by simp)]
  have hv4 := drop_view16 s.data (s.pos + 4 + 2 + 2) _ _ hv3
  rw [Src.readU16_view ⟨s.data, s.pos + 4 + 2 + 2 + 2⟩ chs _ h4 hv4]
  dsimp only
  by_cases hcc : chs = 12
  case neg => rw [if_pos hcc, if_pos hcc]
  subst hcc
  rw [if_neg (by simp), if_neg (by simp)]
  have hv5 := drop_view16 s.data (s.pos + 4 + 2 + 2 + 2) _ _ hv4
  rw [Src.readU32_view ⟨s.data, s.pos + 4 + 2 + 2 + 2 + 2⟩ bsz _ h5 hv5]
  dsimp only
  by_cases hcb : bsz = 4096
  case neg => rw [if_pos hcb, if_pos hcb]
  subst hcb
  rw [if_neg (by simp), if_neg (by simp)]
  have hv6 := drop_view32 s.data (s.pos + 4 + 2 + 2 + 2 + 2) _ _ hv5
  rw [Src.readU32_view ⟨s.data, s.pos + 4 + 2 + 2 + 2 + 2 + 4⟩ tb _ h6 hv6]
  dsimp only
  have hv7 := drop_view32 s.data (s.pos + 4 + 2 + 2 + 2 + 2 + 4) tb _ hv6
  rw [Src.readU32_view ⟨s.data, s.pos + 4 + 2 + 2 + 2 + 2 + 4 + 4⟩ tc _ h7 hv7]
  dsimp only
  have hv8 := drop_view32 s.data (s.pos + 4 + 2 + 2 + 2 + 2 + 4 + 4) tc _ hv7
  rw [Src.readU32_view ⟨s.data, s.pos + 4 + 2 + 2 + 2 + 2 + 4 + 4 + 4⟩ ic _ h8 hv8]

/-! ## Writer bridge: chunk accounting lemmas -/

theorem WChunk.bytes_length (c : WChunk) (h : c.wf) :
    c.bytes.length = c.header.total_size := by
  cases c with
  | raw bufs =>
    show (ChunkHeader.writeTo _ ++ bufs.flatten).length = 12 + 4096 * bufs.length
    rw [List.length_append, chunkHeader_writeTo_length]
    have : bufs.flatten.length = 4096 * bufs.length := by
      induction bufs with
      | nil => simp
      | cons a t ih =>
        simp only [List.flatten_cons, List.length_append, List.length_cons]
        rw [ih (fun b hb => h b (List.mem_cons_of_mem a hb)),
          h a (List.mem_cons_self a t)]
        ring
    rw [this]
  | fill v n =>
    show (ChunkHeader.writeTo _ ++ v).length = 16
    rw [List.length_append, chunkHeader_writeTo_length, h]
  | dontCare n => rfl
  | crc32 c => rfl

theorem doneBytes_append (done : List WChunk) (c : WChunk) :
    doneBytes (done ++ [c]) = doneBytes done ++ c.bytes := by
  unfold doneBytes
  simp

theorem sizeSum_append (done : List WChunk) (c : WChunk) :
    sizeSum (done ++ [c]) = sizeSum done + c.header.total_size := by
  unfold sizeSum
  simp

theorem countSum_append (done : List WChunk) (c : WChunk) :
    countSum (done ++ [c]) = countSum done + c.count := by
  unfold countSum
  simp

theorem doneBytes_length (done : List WChunk) (h : ∀ c ∈ done, c.wf) :
    (doneBytes done).length = sizeSum done := by
  induction done with
  | nil => rfl
  | cons c t ih =>
    show ((c.bytes ++ doneBytes t) : List Nat).length = c.header.total_size + sizeSum t
    rw [List.length_append, WChunk.bytes_length c (h c (List.mem_cons_self c t)),
      ih (fun d hd => h d (List.mem_cons_of_mem c hd))]

theorem crcOfBlocks_snoc (bs : List Block) (b : Block) :
    crcOfBlocks (bs ++ [b]) = crcWriteBlock (crcOfBlocks bs) b := by
  unfold crcOfBlocks
  rw [List.foldl_append]
  rfl

theorem mergeBlocks_snoc (bs : List Block) (b : Block) :
    mergeBlocks (bs ++ [b]) = mergeStep (mergeBlocks bs) b := by
  unfold mergeBlocks
  rw [List.foldl_append]
  rfl

/-- Under the invariant, the writer's `can_merge` coincides with the chunk
merge table. -/
theorem canMerge_of_inv (w : WriterState) (opn : Option WChunk)
    (hchunk : w.current_chunk = opn.map WChunk.header)
    (hfill : w.current_fill = openFillCache opn) (b : Block) :
    w.canMerge b = match opn with
      | none => false
      | some c => c.mergeable b := by
  cases opn with
  | none =>
    show w.canMerge b = false
    unfold WriterState.canMerge
    rw [hchunk]
    rfl
  | some c =>
    show w.canMerge b = c.mergeable b
    unfold WriterState.canMerge
    rw [hchunk]
    dsimp only [Option.map]
    cases c with
    | raw bufs => cases b <;> rfl
    | fill v n =>
      cases b with
      | fill value =>
        show (w.current_fill == some value) = (v == value)
        rw [hfill]
        show (some v == some value) = (v == value)
        cases h : v == value with
        | true => simp_all
        | false => simp_all
      | raw buf => rfl
      | skip => rfl
      | crc32 c => rfl
    | dontCare n => cases b <;> rfl
    | crc32 c => cases b <;> rfl

/-- `sinkData` when something has been written: the full three-part form. -/
theorem sinkData_full (done : List WChunk) (opn : Option WChunk)
    (h : ¬(done = [] ∧ openPartial opn = [])) :
    sinkData done opn = List.replicate 28 0 ++ doneBytes done ++ openPartial opn := by
  unfold sinkData
  rw [if_neg h]

theorem sinkData_length (done : List WChunk) (opn : Option WChunk)
    (hwf : ∀ c ∈ done, c.wf)
    (h : ¬(done = [] ∧ openPartial opn = [])) :
    (sinkData done opn).length = 28 + sizeSum done + (openPartial opn).length := by
  rw [sinkData_full done opn h]
  simp [doneBytes_length done hwf]
  omega

@[simp] theorem openAdv_none : openAdv none = 0 := rfl

@[simp] theorem openAdv_some (c : WChunk) : openAdv (some c) = c.header.total_size := rfl

@[simp] theorem optCount_none : optCount none = 0 := rfl

@[simp] theorem optCount_some (c : WChunk) : optCount (some c) = c.count := rfl

theorem openPartial_body (c : WChunk) (h : ∀ n, c ≠ .dontCare n) :
    openPartial (some c) = List.replicate 12 0 ++ c.body := by
  cases c with
  | raw bufs => rfl
  | fill v n => rfl
  | dontCare n => exact absurd rfl (h n)
  | crc32 cv => rfl

/-- Back-patching the header of the in-progress chunk produces exactly the
serialized finished chunk in place. -/
theorem finishChunk_data (done : List WChunk) (c : WChunk) (hwfd : ∀ d ∈ done, d.wf) :
    storeBytes (sinkData done (some c)) (28 + sizeSum done) (ChunkHeader.writeTo c.header)
      = sinkData (done ++ [c]) none := by
  have hfull' : sinkData (done ++ [c]) none
      = List.replicate 28 0 ++ doneBytes (done ++ [c]) := by
    rw [sinkData_full _ _ (by simp)]
    simp [openPartial]
  by_cases hdc : ∀ n, c ≠ WChunk.dontCare n
  · -- a chunk with a written body: patch the reserved header gap
    rw [sinkData_full _ _ (by simp [openPartial_body c hdc])]
    rw [openPartial_body c hdc]
    have hpre : (28 : Nat) + sizeSum done
        = (List.replicate 28 (0 : Nat) ++ doneBytes done).length := by
      rw [List.length_append, List.length_replicate, doneBytes_length done hwfd]
    rw [hpre]
    have hshape : List.replicate 28 (0 : Nat) ++ doneBytes done ++
          (List.replicate 12 0 ++ c.body)
        = (List.replicate 28 (0 : Nat) ++ doneBytes done) ++
          List.replicate 12 0 ++ c.body := by
      simp [List.append_assoc]
    rw [hshape, storeBytes_patch _ _ _ _ (by simp)]
    rw [hfull', doneBytes_append]
    unfold WChunk.bytes
    simp [List.append_assoc]
  · -- a don't-care chunk: nothing written yet, append the header
    push_neg at hdc
    obtain ⟨n, rfl⟩ := hdc
    by_cases hd : done = []
    · subst hd
      rw [hfull']
      show storeBytes (sinkData [] (some (WChunk.dontCare n))) 28 _ = _
      rw [show sinkData [] (some (WChunk.dontCare n)) = [] from rfl]
      rw [storeBytes_append_at_end _ _ _ (by simp),
        if_neg (by simp [ChunkHeader.writeTo, le16, le32])]
      show List.replicate 28 0 ++ _ = _
      unfold doneBytes WChunk.bytes WChunk.body
      simp
    · rw [hfull', doneBytes_append]
      rw [sinkData_full _ _ (by simp [hd]),
        show openPartial (some (WChunk.dontCare n)) = [] from rfl, List.append_nil]
      have hlen2 : (28 : Nat) + sizeSum done
          = (List.replicate 28 (0 : Nat) ++ doneBytes done).length := by
        rw [List.length_append, List.length_replicate, doneBytes_length done hwfd]
      rw [hlen2, storeBytes_at_end]
      unfold doneBytes WChunk.bytes WChunk.body
      simp

/-- `finish_chunk` turns the in-progress chunk into a finished one: the
header lands exactly in its reserved gap. -/
theorem finishChunk_inv (wc : Bool) (consumed : List Block) (done : List WChunk)
    (opn : Option WChunk) (w : WriterState)
    (inv : WriterInv wc consumed done opn w)
    (hbudget : consumed.length ≤ 524288) :
    WriterInv wc consumed (done ++ opn.toList) none w.finishChunk := by
  cases opn with
  | none =>
    have hw : w.finishChunk = w := by
      unfold WriterState.finishChunk
      rw [inv.hchunk]
      rfl
    rw [hw]
    simpa using inv
  | some c =>
    have hfc : w.finishChunk = { w with
        dst := (((w.dst.seekBack c.header.total_size).writeAll
          c.header.writeTo).seekTo w.dst.pos)
        current_chunk := none
        current_fill := none
        num_chunks := (w.num_chunks + 1) % U32
        num_blocks := (w.num_blocks + c.header.chunk_size) % U32 } := by
      unfold WriterState.finishChunk
      rw [inv.hchunk]
      rfl
    have hwfc : c.wf := inv.hwfopen c (by simp)
    have hcsz : c.header.chunk_size = c.count := by cases c <;> rfl
    have hcnt := inv.hcount
    rw [optCount_some] at hcnt
    have hnb' : (w.num_blocks + c.header.chunk_size) % U32 = countSum (done ++ [c]) := by
      rw [inv.hnb, hcsz, countSum_append]
      exact Nat.mod_eq_of_lt (by unfold U32; omega)
    have hnc' : (w.num_chunks + 1) % U32 = (done ++ [c]).length := by
      rw [inv.hnc, List.length_append]
      have hb := inv.hlen
      simp only [Option.toList_some, List.length_cons, List.length_nil] at hb
      exact Nat.mod_eq_of_lt (by unfold U32; omega)
    have hposw := inv.hpos
    rw [openAdv_some] at hposw
    have hpos0 : w.dst.pos - c.header.total_size = 28 + sizeSum done := by omega
    have hdata' : storeBytes w.dst.data (w.dst.pos - c.header.total_size) c.header.writeTo
        = sinkData (done ++ [c]) none := by
      rw [inv.hdata, hpos0]
      exact finishChunk_data done c inv.hwfdone
    have hdd : w.finishChunk.dst.data
        = storeBytes w.dst.data (w.dst.pos - c.header.total_size) c.header.writeTo := by
      rw [hfc]
      simp only [Sink.seekTo, Sink.writeAll, Sink.seekBack]
    have hdp : w.finishChunk.dst.pos = w.dst.pos := by
      rw [hfc]
      simp only [Sink.seekTo, Sink.writeAll, Sink.seekBack]
    have hccn : w.finishChunk.current_chunk = none := by rw [hfc]
    have hcfn : w.finishChunk.current_fill = none := by rw [hfc]
    have hnbq : w.finishChunk.num_blocks
        = (w.num_blocks + c.header.chunk_size) % U32 := by rw [hfc]
    have hncq : w.finishChunk.num_chunks = (w.num_chunks + 1) % U32 := by rw [hfc]
    have hcrcq : w.finishChunk.crc = w.crc := by rw [hfc]
    refine ⟨?_, ?_, ?_, ?_, ?_, ?_, ?_, ?_, ?_, ?_, ?_, ?_⟩
    · rw [hccn]; rfl
    · rw [hcfn]; rfl
    · rw [hnbq]; exact hnb'
    · rw [hncq]; exact hnc'
    · rw [hdd]; exact hdata'
    · rw [hdp]
      simp only [Option.toList_some, sizeSum_append, openAdv_none]
      omega
    · rw [hcrcq]; exact inv.hcrc
    · intro d hd
      simp only [Option.toList_some] at hd
      rcases List.mem_append.mp hd with hd | hd
      · exact inv.hwfdone d hd
      · rw [List.mem_singleton] at hd
        subst hd
        exact hwfc
    · intro d hd
      simp at hd
    · simp only [Option.toList_some, sizeSum_append, openAdv_none]
      have := inv.hsize
      rw [openAdv_some] at this
      omega
    · simp only [Option.toList_some, countSum_append, optCount_none]
      omega
    · have := inv.hlen
      simp at this ⊢
      omega

/-! ### `write_block` preserves the invariant -/

@[simp] theorem bump_dst (w : WriterState) : w.bumpChunkSize.dst = w.dst := rfl

@[simp] theorem grow_dst (w : WriterState) : w.growTotalSize.dst = w.dst := rfl

@[simp] theorem feed_dst (w : WriterState) (b : Block) : (w.feedCrc b).dst = w.dst := rfl

@[simp] theorem bump_num_blocks (w : WriterState) :
    w.bumpChunkSize.num_blocks = w.num_blocks := rfl

@[simp] theorem grow_num_blocks (w : WriterState) :
    w.growTotalSize.num_blocks = w.num_blocks := rfl

@[simp] theorem feed_num_blocks (w : WriterState) (b : Block) :
    (w.feedCrc b).num_blocks = w.num_blocks := rfl

@[simp] theorem bump_num_chunks (w : WriterState) :
    w.bumpChunkSize.num_chunks = w.num_chunks := rfl

@[simp] theorem grow_num_chunks (w : WriterState) :
    w.growTotalSize.num_chunks = w.num_chunks := rfl

@[simp] theorem feed_num_chunks (w : WriterState) (b : Block) :
    (w.feedCrc b).num_chunks = w.num_chunks := rfl

@[simp] theorem bump_crc (w : WriterState) : w.bumpChunkSize.crc = w.crc := rfl

@[simp] theorem grow_crc (w : WriterState) : w.growTotalSize.crc = w.crc := rfl

@[simp] theorem feed_crc_eq (w : WriterState) (b : Block) :
    (w.feedCrc b).crc = w.crc.map (fun v => crcWriteBlock v b) := rfl

@[simp] theorem bump_chunk (w : WriterState) :
    w.bumpChunkSize.current_chunk
      = w.current_chunk.map (fun c => { c with chunk_size := (c.chunk_size + 1) % U32 }) :=
  rfl

@[simp] theorem grow_chunk (w : WriterState) :
    w.growTotalSize.current_chunk
      = w.current_chunk.map (fun c => { c with total_size := (c.total_size + 4096) % U32 }) :=
  rfl

@[simp] theorem feed_chunk (w : WriterState) (b : Block) :
    (w.feedCrc b).current_chunk = w.current_chunk := rfl

theorem finishChunk_none (w : WriterState) (h : w.current_chunk = none) :
    w.finishChunk = w := by
  unfold WriterState.finishChunk
  rw [h]

theorem finishChunk_idem (w : WriterState) :
    w.finishChunk.finishChunk = w.finishChunk := by
  cases h : w.current_chunk with
  | none => rw [finishChunk_none w h, finishChunk_none w h]
  | some c =>
    apply finishChunk_none
    unfold WriterState.finishChunk
    rw [h]

/-- When the open chunk cannot absorb the block, `write_block` behaves as if
called on the state with that chunk already finished. -/
theorem writeBlock_unmerged (w : WriterState) (b : Block)
    (hcm : w.canMerge b = false) :
    w.writeBlock b = w.finishChunk.writeBlock b := by
  have h2 : w.finishChunk.canMerge b = false := by
    cases h : w.current_chunk with
    | none => rw [finishChunk_none w h]; exact hcm
    | some c =>
      apply canMerge_none
      unfold WriterState.finishChunk
      rw [h]
  unfold WriterState.writeBlock
  rw [hcm, h2, finishChunk_idem]
  simp only [Bool.false_eq_true, if_false]

theorem flatten_all_length (bufs : List (List Nat))
    (h : ∀ b ∈ bufs, b.length = 4096) :
    bufs.flatten.length = 4096 * bufs.length := by
  induction bufs with
  | nil => rfl
  | cons a t ih =>
    simp only [List.flatten_cons, List.length_append, List.length_cons]
    rw [ih (fun b hb => h b (List.mem_cons_of_mem a hb)), h a (List.mem_cons_self a t)]
    ring

/-- Writing the first body bytes of a fresh chunk 12 bytes past the end of the
written image: the reserved chunk-header gap appears as zeros. -/
theorem storeBytes_open (done : List WChunk) (hwf : ∀ c ∈ done, c.wf)
    (bs : List Nat) (hbs : bs ≠ []) :
    storeBytes (sinkData done none) (28 + sizeSum done + 12) bs
      = List.replicate 28 0 ++ doneBytes done ++ (List.replicate 12 0 ++ bs) := by
  by_cases hd : done = []
  · subst hd
    rw [show sinkData [] none = [] from rfl]
    rw [storeBytes_append_at_end _ _ _ (by simp), if_neg hbs]
    rw [show (28 : Nat) + sizeSum [] + 12 - ([] : List Nat).length = 28 + 12 from rfl]
    rw [List.replicate_add]
    rw [show doneBytes [] = [] from rfl]
    simp [List.append_assoc]
  · have hfull : sinkData done none
        = List.replicate 28 0 ++ doneBytes done := by
      rw [sinkData_full _ _ (by simp [hd])]
      simp [openPartial]
    have hlen : (sinkData done none).length = 28 + sizeSum done := by
      rw [hfull, List.length_append, List.length_replicate, doneBytes_length done hwf]
    rw [storeBytes_append_at_end _ _ _ (by omega), if_neg hbs, hlen]
    rw [show (28 : Nat) + sizeSum done + 12 - (28 + sizeSum done) = 12 from by omega]
    rw [hfull]
    simp [List.append_assoc]

/-- `sinkData` ignores the counter of an open don't-care chunk (nothing of it
is in the file). -/
theorem sinkData_dontCare (done : List WChunk) (n : Nat) :
    sinkData done (some (.dontCare n)) = sinkData done none := by
  simp [sinkData, openPartial]

/-- `sinkData` ignores the block counter of an open fill chunk (the body is
the 4 value bytes either way). -/
theorem sinkData_fill_any (done : List WChunk) (v : List Nat) (n m : Nat) :
    sinkData done (some (.fill v n)) = sinkData done (some (.fill v m)) := by
  simp [sinkData, openPartial]

/-- Appending one raw buffer at the end of the image extends the open raw
chunk's body in place. -/
theorem storeBytes_raw_push (done : List WChunk) (hwf : ∀ c ∈ done, c.wf)
    (bufs : List (List Nat)) (hbufs : ∀ x ∈ bufs, x.length = 4096) (buf : List Nat) :
    storeBytes (sinkData done (some (.raw bufs)))
        (28 + sizeSum done + (12 + 4096 * bufs.length)) buf
      = sinkData done (some (.raw (bufs ++ [buf]))) := by
  have hlen : (sinkData done (some (.raw bufs))).length
      = 28 + sizeSum done + (12 + 4096 * bufs.length) := by
    rw [sinkData_length done _ hwf (by simp [openPartial])]
    have hop : (openPartial (some (WChunk.raw bufs))).length = 12 + 4096 * bufs.length := by
      show (List.replicate 12 0 ++ bufs.flatten).length = _
      rw [List.length_append, List.length_replicate, flatten_all_length bufs hbufs]
    rw [hop]
  rw [← hlen, storeBytes_at_end]
  rw [sinkData_full done _ (by simp [openPartial]),
    sinkData_full done _ (by simp [openPartial])]
  show List.replicate 28 0 ++ doneBytes done ++ (List.replicate 12 0 ++ bufs.flatten) ++ buf
    = List.replicate 28 0 ++ doneBytes done ++ (List.replicate 12 0 ++ (bufs ++ [buf]).flatten)
  simp [List.flatten_append, List.append_assoc]

/-- `write_block` on a state whose open chunk absorbs the block keeps the
invariant, pushing the block into the open chunk. -/
theorem writeBlock_merge_inv (wc : Bool) (consumed : List Block) (done : List WChunk)
    (c : WChunk) (w : WriterState) (b : Block) (hb : b.wf)
    (inv : WriterInv wc consumed done (some c) w)
    (hm : c.mergeable b = true)
    (hbudget : consumed.length + 1 ≤ 524288) :
    WriterInv wc (consumed ++ [b]) done (some (c.push b)) (w.writeBlock b) := by
  have hcm : w.canMerge b = true := by
    rw [canMerge_of_inv w (some c) inv.hchunk inv.hfill b]
    exact hm
  have hwfc : c.wf := inv.hwfopen c (by simp)
  have hcnt := inv.hcount
  rw [optCount_some] at hcnt
  cases c with
  | raw bufs =>
    cases b with
    | fill value => exact absurd hm (by simp [WChunk.mergeable])
    | skip => exact absurd hm (by simp [WChunk.mergeable])
    | crc32 cv => exact absurd hm (by simp [WChunk.mergeable])
    | raw buf =>
      have hbuf : buf.length = 4096 := hb
      have hbl : bufs.length ≤ 524287 := by
        have hc0 : (WChunk.raw bufs).count = bufs.length := rfl
        rw [hc0] at hcnt
        omega
      have hch : w.current_chunk
          = some ⟨ChunkType.raw, bufs.length, 12 + 4096 * bufs.length⟩ := by
        rw [inv.hchunk]; rfl
      rw [writeBlock_raw_merge w buf hcm]
      refine ⟨?_, ?_, ?_, ?_, ?_, ?_, ?_, ?_, ?_, ?_, ?_, ?_⟩
      · simp only [bump_chunk, feed_chunk, grow_chunk]
        show (Option.map _ (Option.map _ w.current_chunk)) = _
        rw [hch]
        simp only [Option.map_some']
        show some (ChunkHeader.mk ChunkType.raw ((bufs.length + 1) % U32)
            ((12 + 4096 * bufs.length + 4096) % U32))
          = some (ChunkHeader.mk ChunkType.raw (bufs ++ [buf]).length
            (12 + 4096 * (bufs ++ [buf]).length))
        have e1 : (bufs.length + 1) % U32 = bufs.length + 1 :=
          Nat.mod_eq_of_lt (by unfold U32; omega)
        have e2 : (12 + 4096 * bufs.length + 4096) % U32 = 12 + 4096 * bufs.length + 4096 :=
          Nat.mod_eq_of_lt (by unfold U32; omega)
        have e3 : 12 + 4096 * bufs.length + 4096 = 12 + 4096 * (bufs.length + 1) := by ring
        rw [e1, e2, e3, List.length_append, List.length_singleton]
      · simp only [bump_current_fill, feed_current_fill, grow_current_fill]
        show w.current_fill = openFillCache (some (WChunk.raw (bufs ++ [buf])))
        rw [inv.hfill]; rfl
      · exact inv.hnb
      · exact inv.hnc
      · show (w.dst.writeAll buf).data = _
        have hwd : (w.dst.writeAll buf).data = storeBytes w.dst.data w.dst.pos buf := rfl
        rw [hwd, inv.hdata, inv.hpos]
        have hoa : openAdv (some (WChunk.raw bufs)) = 12 + 4096 * bufs.length := rfl
        rw [hoa, storeBytes_raw_push done inv.hwfdone bufs hwfc buf]
        rfl
      · show (w.dst.writeAll buf).pos = _
        have hwp : (w.dst.writeAll buf).pos = w.dst.pos + buf.length := rfl
        have hoa : openAdv (some (WChunk.raw bufs)) = 12 + 4096 * bufs.length := rfl
        have hoa2 : openAdv (some ((WChunk.raw bufs).push (.raw buf)))
            = 12 + 4096 * (bufs.length + 1) := by
          show openAdv (some (WChunk.raw (bufs ++ [buf]))) = _
          show 12 + 4096 * (bufs ++ [buf]).length = _
          rw [List.length_append, List.length_singleton]
        rw [hwp, inv.hpos, hoa, hoa2, hbuf]
        omega
      · simp only [bump_crc, feed_crc_eq, grow_crc]
        show w.crc.map _ = _
        rw [inv.hcrc, crcOfBlocks_snoc]
        cases wc <;> rfl
      · exact inv.hwfdone
      · intro d hd
        simp only [Option.toList_some, List.mem_singleton] at hd
        subst hd
        show ∀ x ∈ bufs ++ [buf], x.length = 4096
        intro x hx
        rcases List.mem_append.mp hx with hx | hx
        · exact hwfc x hx
        · rw [List.mem_singleton] at hx
          subst hx
          exact hbuf
      · have hoa2 : openAdv (some ((WChunk.raw bufs).push (.raw buf)))
            = 12 + 4096 * (bufs.length + 1) := by
          show 12 + 4096 * (bufs ++ [buf]).length = _
          rw [List.length_append, List.length_singleton]
        have hs := inv.hsize
        have hoa : openAdv (some (WChunk.raw bufs)) = 12 + 4096 * bufs.length := rfl
        rw [hoa] at hs
        rw [hoa2, List.length_append, List.length_singleton]
        omega
      · have hc1 : ((WChunk.raw bufs).push (.raw buf)).count = bufs.length + 1 := by
          show (bufs ++ [buf]).length = _
          rw [List.length_append, List.length_singleton]
        have hc0 : (WChunk.raw bufs).count = bufs.length := rfl
        rw [hc0] at hcnt
        rw [optCount_some, hc1, List.length_append, List.length_singleton]
        omega
      · have := inv.hlen
        simp only [Option.toList_some, List.length_singleton, List.length_append] at this ⊢
        omega
  | fill v n =>
    cases b with
    | raw buf => exact absurd hm (by simp [WChunk.mergeable])
    | skip => exact absurd hm (by simp [WChunk.mergeable])
    | crc32 cv => exact absurd hm (by simp [WChunk.mergeable])
    | fill value =>
      have hn : n ≤ 524287 := by
        have hc0 : (WChunk.fill v n).count = n := rfl
        rw [hc0] at hcnt
        omega
      have hch : w.current_chunk = some ⟨ChunkType.fill, n, 16⟩ := by
        rw [inv.hchunk]; rfl
      rw [writeBlock_fill_merge w value hcm]
      refine ⟨?_, ?_, ?_, ?_, ?_, ?_, ?_, ?_, ?_, ?_, ?_, ?_⟩
      · simp only [bump_chunk, feed_chunk]
        rw [hch]
        simp only [Option.map_some']
        show some (ChunkHeader.mk ChunkType.fill ((n + 1) % U32) 16)
          = some (ChunkHeader.mk ChunkType.fill (n + 1) 16)
        rw [Nat.mod_eq_of_lt (show n + 1 < U32 by unfold U32; omega)]
      · simp only [bump_current_fill, feed_current_fill]
        show w.current_fill = openFillCache (some (WChunk.fill v (n + 1)))
        rw [inv.hfill]; rfl
      · exact inv.hnb
      · exact inv.hnc
      · show w.dst.data = _
        rw [inv.hdata]
        exact sinkData_fill_any done v n (n + 1)
      · show w.dst.pos = _
        rw [inv.hpos]
        rfl
      · simp only [bump_crc, feed_crc_eq]
        show w.crc.map _ = _
        rw [inv.hcrc, crcOfBlocks_snoc]
        cases wc <;> rfl
      · exact inv.hwfdone
      · intro d hd
        simp only [Option.toList_some, List.mem_singleton] at hd
        subst hd
        exact hwfc
      · have hs := inv.hsize
        rw [openAdv_some] at hs ⊢
        have h1 : (WChunk.fill v n).header.total_size = 16 := rfl
        have h2 : (WChunk.fill v (n + 1)).header.total_size = 16 := rfl
        rw [h1] at hs
        rw [show ((WChunk.fill v n).push (.fill value)) = WChunk.fill v (n + 1) from rfl,
          h2, List.length_append, List.length_singleton]
        omega
      · have hc0 : (WChunk.fill v n).count = n := rfl
        rw [hc0] at hcnt
        have hc1 : ((WChunk.fill v n).push (.fill value)).count = n + 1 := rfl
        rw [optCount_some, hc1, List.length_append, List.length_singleton]
        omega
      · have := inv.hlen
        simp only [Option.toList_some, List.length_singleton, List.length_append] at this ⊢
        omega
  | dontCare n =>
    cases b with
    | raw buf => exact absurd hm (by simp [WChunk.mergeable])
    | fill value => exact absurd hm (by simp [WChunk.mergeable])
    | crc32 cv => exact absurd hm (by simp [WChunk.mergeable])
    | skip =>
      have hn : n ≤ 524287 := by
        have hc0 : (WChunk.dontCare n).count = n := rfl
        rw [hc0] at hcnt
        omega
      have hch : w.current_chunk = some ⟨ChunkType.dontCare, n, 12⟩ := by
        rw [inv.hchunk]; rfl
      rw [writeBlock_skip_merge w hcm]
      refine ⟨?_, ?_, ?_, ?_, ?_, ?_, ?_, ?_, ?_, ?_, ?_, ?_⟩
      · simp only [bump_chunk, feed_chunk]
        rw [hch]
        simp only [Option.map_some']
        show some (ChunkHeader.mk ChunkType.dontCare ((n + 1) % U32) 12)
          = some (ChunkHeader.mk ChunkType.dontCare (n + 1) 12)
        rw [Nat.mod_eq_of_lt (show n + 1 < U32 by unfold U32; omega)]
      · simp only [bump_current_fill, feed_current_fill]
        show w.current_fill = openFillCache (some (WChunk.dontCare (n + 1)))
        rw [inv.hfill]; rfl
      · exact inv.hnb
      · exact inv.hnc
      · show w.dst.data = _
        rw [inv.hdata, sinkData_dontCare]
        exact (sinkData_dontCare done (n + 1)).symm
      · show w.dst.pos = _
        rw [inv.hpos]
        rfl
      · simp only [bump_crc, feed_crc_eq]
        show w.crc.map _ = _
        rw [inv.hcrc, crcOfBlocks_snoc]
        cases wc <;> rfl
      · exact inv.hwfdone
      · intro d hd
        simp only [Option.toList_some, List.mem_singleton] at hd
        subst hd
        trivial
      · have hs := inv.hsize
        rw [openAdv_some] at hs ⊢
        have h1 : (WChunk.dontCare n).header.total_size = 12 := rfl
        have h2 : (WChunk.dontCare (n + 1)).header.total_size = 12 := rfl
        rw [h1] at hs
        rw [show ((WChunk.dontCare n).push .skip) = WChunk.dontCare (n + 1) from rfl,
          h2, List.length_append, List.length_singleton]
        omega
      · have hc0 : (WChunk.dontCare n).count = n := rfl
        rw [hc0] at hcnt
        have hc1 : ((WChunk.dontCare n).push .skip).count = n + 1 := rfl
        rw [optCount_some, hc1, List.length_append, List.length_singleton]
        omega
      · have := inv.hlen
        simp only [Option.toList_some, List.length_singleton, List.length_append] at this ⊢
        omega
  | crc32 cv0 =>
    cases b with
    | raw buf => exact absurd hm (by simp [WChunk.mergeable])
    | fill value => exact absurd hm (by simp [WChunk.mergeable])
    | skip => exact absurd hm (by simp [WChunk.mergeable])
    | crc32 cv => exact absurd hm (by simp [WChunk.mergeable])

/-- `write_block` on a state with no open chunk opens a fresh chunk from the
block and keeps the invariant. -/
theorem writeBlock_fresh_inv (wc : Bool) (consumed : List Block) (done : List WChunk)
    (w : WriterState) (b : Block) (hb : b.wf)
    (inv : WriterInv wc consumed done none w) :
    WriterInv wc (consumed ++ [b]) done (some (WChunk.openFrom b)) (w.writeBlock b) := by
  have hcc : w.current_chunk = none := by rw [inv.hchunk]; rfl
  have hcf : w.current_fill = none := by rw [inv.hfill]; rfl
  have hcm : w.canMerge b = false := canMerge_none w b hcc
  have hfcw : w.finishChunk = w := finishChunk_none w hcc
  have hdata := inv.hdata
  have hpos := inv.hpos
  rw [openAdv_none, Nat.add_zero] at hpos
  have hcrc := inv.hcrc
  have hsz := inv.hsize
  rw [openAdv_none, Nat.add_zero] at hsz
  have hct := inv.hcount
  rw [optCount_none, Nat.add_zero] at hct
  have hln := inv.hlen
  simp only [Option.toList_none, List.length_nil, Nat.add_zero] at hln
  cases b with
  | raw buf =>
    have hbuf : buf.length = 4096 := hb
    have hne : buf ≠ [] := by intro h; rw [h] at hbuf; simp at hbuf
    have hw : w.writeBlock (.raw buf) = { w with
        dst := ⟨storeBytes w.dst.data (w.dst.pos + 12) buf, w.dst.pos + 12 + buf.length⟩
        current_chunk := some ⟨ChunkType.raw, 1, 4108⟩
        crc := w.crc.map (fun v => crcWriteBlock v (.raw buf)) } := by
      rw [writeBlock_raw_new w buf hcm, hfcw, startChunk_raw]
      rfl
    rw [hw]
    refine ⟨?_, ?_, ?_, ?_, ?_, ?_, ?_, ?_, ?_, ?_, ?_, ?_⟩
    · rfl
    · show w.current_fill = openFillCache (some (WChunk.openFrom (.raw buf)))
      rw [hcf]; rfl
    · exact inv.hnb
    · exact inv.hnc
    · show storeBytes w.dst.data (w.dst.pos + 12) buf
        = sinkData done (some (WChunk.openFrom (.raw buf)))
      rw [hdata, hpos, storeBytes_open done inv.hwfdone buf hne,
        sinkData_full done _ (by simp [openPartial, WChunk.openFrom])]
      simp [openPartial, WChunk.openFrom]
    · show w.dst.pos + 12 + buf.length
        = 28 + sizeSum done + openAdv (some (WChunk.openFrom (.raw buf)))
      have h16 : (WChunk.openFrom (Block.raw buf)).header.total_size = 4108 := rfl
      rw [hpos, hbuf, openAdv_some, h16]
    · show w.crc.map _ = _
      rw [hcrc, crcOfBlocks_snoc]
      cases wc <;> rfl
    · exact inv.hwfdone
    · intro c hc
      simp only [Option.toList_some, List.mem_singleton] at hc
      subst hc
      show ∀ x ∈ [buf], x.length = 4096
      intro x hx
      rw [List.mem_singleton] at hx
      subst hx
      exact hbuf
    · have h16 : (WChunk.openFrom (Block.raw buf)).header.total_size = 4108 := rfl
      rw [openAdv_some, h16, List.length_append, List.length_singleton]
      omega
    · have h1 : (WChunk.openFrom (Block.raw buf)).count = 1 := rfl
      rw [optCount_some, h1, List.length_append, List.length_singleton]
      omega
    · simp only [Option.toList_some, List.length_singleton, List.length_append]
      omega
  | fill value =>
    have hval : value.length = 4 := hb
    have hne : value ≠ [] := by intro h; rw [h] at hval; simp at hval
    have hfn : w.finishChunk.current_fill = none := by rw [hfcw]; exact hcf
    have hw : w.writeBlock (.fill value) = { w with
        dst := ⟨storeBytes w.dst.data (w.dst.pos + 12) value, w.dst.pos + 12 + value.length⟩
        current_chunk := some ⟨ChunkType.fill, 1, 16⟩
        current_fill := some value
        crc := w.crc.map (fun v => crcWriteBlock v (.fill value)) } := by
      rw [writeBlock_fill_new w value hcm hfn, hfcw, startChunk_fill]
      rfl
    rw [hw]
    refine ⟨?_, ?_, ?_, ?_, ?_, ?_, ?_, ?_, ?_, ?_, ?_, ?_⟩
    · rfl
    · rfl
    · exact inv.hnb
    · exact inv.hnc
    · show storeBytes w.dst.data (w.dst.pos + 12) value
        = sinkData done (some (WChunk.openFrom (.fill value)))
      rw [hdata, hpos, storeBytes_open done inv.hwfdone value hne,
        sinkData_full done _ (by simp [openPartial, WChunk.openFrom])]
      simp [openPartial, WChunk.openFrom]
    · show w.dst.pos + 12 + value.length
        = 28 + sizeSum done + openAdv (some (WChunk.openFrom (.fill value)))
      have h16 : (WChunk.openFrom (Block.fill value)).header.total_size = 16 := rfl
      rw [hpos, hval, openAdv_some, h16]
    · show w.crc.map _ = _
      rw [hcrc, crcOfBlocks_snoc]
      cases wc <;> rfl
    · exact inv.hwfdone
    · intro c hc
      simp only [Option.toList_some, List.mem_singleton] at hc
      subst hc
      exact hval
    · have h16 : (WChunk.openFrom (Block.fill value)).header.total_size = 16 := rfl
      rw [openAdv_some, h16, List.length_append, List.length_singleton]
      omega
    · have h1 : (WChunk.openFrom (Block.fill value)).count = 1 := rfl
      rw [optCount_some, h1, List.length_append, List.length_singleton]
      omega
    · simp only [Option.toList_some, List.length_singleton, List.length_append]
      omega
  | skip =>
    have hw : w.writeBlock .skip = { w with
        dst := ⟨w.dst.data, w.dst.pos + 12⟩
        current_chunk := some ⟨ChunkType.dontCare, 1, 12⟩
        crc := w.crc.map (fun v => crcWriteBlock v .skip) } := by
      rw [writeBlock_skip_new w hcm, hfcw, startChunk_skip]
      rfl
    rw [hw]
    refine ⟨?_, ?_, ?_, ?_, ?_, ?_, ?_, ?_, ?_, ?_, ?_, ?_⟩
    · rfl
    · show w.current_fill = openFillCache (some (WChunk.openFrom .skip))
      rw [hcf]; rfl
    · exact inv.hnb
    · exact inv.hnc
    · show w.dst.data = sinkData done (some (WChunk.openFrom .skip))
      rw [show WChunk.openFrom Block.skip = WChunk.dontCare 1 from rfl,
        sinkData_dontCare]
      exact hdata
    · show w.dst.pos + 12 = 28 + sizeSum done + openAdv (some (WChunk.openFrom .skip))
      have h12 : (WChunk.openFrom Block.skip).header.total_size = 12 := rfl
      rw [hpos, openAdv_some, h12]
    · show w.crc.map _ = _
      rw [hcrc, crcOfBlocks_snoc]
      cases wc <;> rfl
    · exact inv.hwfdone
    · intro c hc
      simp only [Option.toList_some, List.mem_singleton] at hc
      subst hc
      trivial
    · have h12 : (WChunk.openFrom Block.skip).header.total_size = 12 := rfl
      rw [openAdv_some, h12, List.length_append, List.length_singleton]
      omega
    · have h1 : (WChunk.openFrom Block.skip).count = 1 := rfl
      rw [optCount_some, h1, List.length_append, List.length_singleton]
      omega
    · simp only [Option.toList_some, List.length_singleton, List.length_append]
      omega
  | crc32 cv =>
    have hne : le32 cv ≠ [] := by simp [le32]
    have hw : w.writeBlock (.crc32 cv) = { w with
        dst := ⟨storeBytes w.dst.data (w.dst.pos + 12) (le32 cv),
          w.dst.pos + 12 + (le32 cv).length⟩
        current_chunk := some ⟨ChunkType.crc32, 0, 16⟩ } := by
      rw [writeBlock_crc32 w cv, hfcw, startChunk_crc32]
      rfl
    rw [hw]
    refine ⟨?_, ?_, ?_, ?_, ?_, ?_, ?_, ?_, ?_, ?_, ?_, ?_⟩
    · rfl
    · show w.current_fill = openFillCache (some (WChunk.openFrom (.crc32 cv)))
      rw [hcf]; rfl
    · exact inv.hnb
    · exact inv.hnc
    · show storeBytes w.dst.data (w.dst.pos + 12) (le32 cv)
        = sinkData done (some (WChunk.openFrom (.crc32 cv)))
      rw [hdata, hpos, storeBytes_open done inv.hwfdone (le32 cv) hne,
        sinkData_full done _ (by simp [openPartial, WChunk.openFrom, le32])]
      rfl
    · show w.dst.pos + 12 + (le32 cv).length
        = 28 + sizeSum done + openAdv (some (WChunk.openFrom (.crc32 cv)))
      have h16 : (WChunk.openFrom (Block.crc32 cv)).header.total_size = 16 := rfl
      rw [hpos, le32_length, openAdv_some, h16]
    · show w.crc = _
      rw [hcrc, crcOfBlocks_snoc]
      cases wc <;> rfl
    · exact inv.hwfdone
    · intro c hc
      simp only [Option.toList_some, List.mem_singleton] at hc
      subst hc
      trivial
    · have h16 : (WChunk.openFrom (Block.crc32 cv)).header.total_size = 16 := rfl
      rw [openAdv_some, h16, List.length_append, List.length_singleton]
      omega
    · have h0 : (WChunk.openFrom (Block.crc32 cv)).count = 0 := rfl
      rw [optCount_some, h0, List.length_append, List.length_singleton]
      omega
    · simp only [Option.toList_some, List.length_singleton, List.length_append]
      omega

/-- One `write_block` call advances the invariant along `mergeStep`. -/
theorem writeBlock_inv (wc : Bool) (consumed : List Block) (done : List WChunk)
    (opn : Option WChunk) (w : WriterState) (b : Block) (hb : b.wf)
    (inv : WriterInv wc consumed done opn w)
    (hbudget : consumed.length + 1 ≤ 524288) :
    WriterInv wc (consumed ++ [b]) (mergeStep (done, opn) b).1 (mergeStep (done, opn) b).2
      (w.writeBlock b) := by
  cases opn with
  | none =>
    show WriterInv wc (consumed ++ [b]) done (some (WChunk.openFrom b)) (w.writeBlock b)
    exact writeBlock_fresh_inv wc consumed done w b hb inv
  | some c =>
    cases hm : c.mergeable b with
    | true =>
      have hms : mergeStep (done, some c) b = (done, some (c.push b)) := by
        simp [mergeStep, hm]
      rw [hms]
      exact writeBlock_merge_inv wc consumed done c w b hb inv hm hbudget
    | false =>
      have hcm : w.canMerge b = false := by
        rw [canMerge_of_inv w (some c) inv.hchunk inv.hfill b]
        exact hm
      have hms : mergeStep (done, some c) b = (done ++ [c], some (WChunk.openFrom b)) := by
        simp [mergeStep, hm]
      rw [hms, writeBlock_unmerged w b hcm]
      have inv2 : WriterInv wc consumed (done ++ [c]) none w.finishChunk := by
        have h := finishChunk_inv wc consumed done (some c) w inv (by omega)
        simpa using h
      exact writeBlock_fresh_inv wc consumed (done ++ [c]) w.finishChunk b hb inv2

/-! ### Whole-run writer correctness -/

theorem xor_lt_u32 (a b : Nat) (ha : a < U32) (hb : b < U32) : a ^^^ b < U32 := by
  have h32 : U32 = 2 ^ 32 := by norm_num [U32]
  rw [h32] at ha hb ⊢
  exact Nat.xor_lt_two_pow ha hb

theorem crcTableStep_lt (v : Nat) (h : v < U32) : crcTableStep v < U32 := by
  unfold crcTableStep
  split
  · exact xor_lt_u32 _ _ (lt_of_le_of_lt (Nat.div_le_self v 2) h) (by norm_num [CRC_IEEE, U32])
  · exact lt_of_le_of_lt (Nat.div_le_self v 2) h

theorem crcTableStep_iter_lt (n : Nat) (v : Nat) (h : v < U32) :
    crcTableStep^[n] v < U32 := by
  induction n generalizing v with
  | zero => exact h
  | succ k ih =>
    rw [Function.iterate_succ_apply]
    exact ih _ (crcTableStep_lt v h)

theorem crcUpdate_lt (v b : Nat) (h : v < U32) : crcUpdate v b < U32 := by
  unfold crcUpdate
  refine xor_lt_u32 _ _ ?_ (lt_of_le_of_lt (Nat.div_le_self v 256) h)
  exact crcTableStep_iter_lt 8 _ (xor_lt_u32 _ _
    (lt_of_lt_of_le (Nat.mod_lt v (by norm_num)) (by norm_num [U32]))
    (lt_of_lt_of_le (Nat.mod_lt b (by norm_num)) (by norm_num [U32])))

theorem compl32_lt (v : Nat) (h : v < U32) : compl32 v < U32 :=
  xor_lt_u32 _ _ h (by norm_num [U32])

theorem crcWrite_lt (v : Nat) (bytes : List Nat) (h : v < U32) :
    crcWrite v bytes < U32 := by
  unfold crcWrite
  apply compl32_lt
  have : ∀ (l : List Nat) (a : Nat), a < U32 → l.foldl crcUpdate a < U32 := by
    intro l
    induction l with
    | nil => intro a ha; exact ha
    | cons x t ih => intro a ha; exact ih _ (crcUpdate_lt a x ha)
  exact this bytes _ (compl32_lt v h)

/-- The writer's running digest is always a `u32` value. -/
theorem crcOfBlocks_lt (bs : List Block) : crcOfBlocks bs < U32 := by
  show bs.foldl crcWriteBlock 0 < U32
  rw [foldl_crcWriteBlock_eq]
  exact crcWrite_lt 0 _ (by norm_num [U32])

/-- The fresh writer satisfies the invariant with nothing consumed. -/
theorem writerInv_init (wc : Bool) : WriterInv wc [] [] none (Writer.new wc) := by
  refine ⟨rfl, rfl, rfl, rfl, rfl, rfl, rfl, ?_, ?_, ?_, ?_, ?_⟩
  · intro c hc; simp at hc
  · intro c hc; simp at hc
  · show sizeSum [] + openAdv none ≤ 4108 * ([] : List Block).length
    simp [sizeSum, openAdv]
  · show countSum [] + optCount none ≤ ([] : List Block).length
    simp [countSum, optCount]
  · simp

/-- Folding `write_block` over a block list advances the invariant along the
chunk-merging replay. -/
theorem foldl_writeBlock_inv (wc : Bool) (bs : List Block) (hwf : ∀ b ∈ bs, b.wf)
    (consumed : List Block) (done : List WChunk) (opn : Option WChunk) (w : WriterState)
    (inv : WriterInv wc consumed done opn w)
    (hbudget : consumed.length + bs.length ≤ 524288) :
    WriterInv wc (consumed ++ bs)
      (bs.foldl mergeStep (done, opn)).1 (bs.foldl mergeStep (done, opn)).2
      (bs.foldl WriterState.writeBlock w) := by
  induction bs generalizing consumed done opn w with
  | nil => simpa using inv
  | cons b t ih =>
    have h1 := writeBlock_inv wc consumed done opn w b (hwf b (by simp)) inv
      (by simp only [List.length_cons] at hbudget; omega)
    have h2 := ih (fun x hx => hwf x (by simp [hx])) (consumed ++ [b])
      (mergeStep (done, opn) b).1 (mergeStep (done, opn) b).2 (w.writeBlock b) h1
      (by simp only [List.length_cons, List.length_append, List.length_singleton,
            List.length_nil] at hbudget ⊢
          omega)
    simpa [List.append_assoc] using h2

/-- `write_checksum` extends the consumed sequence to `writerBlocks`. -/
theorem writeChecksum_inv (wc : Bool) (bs : List Block) (w : WriterState)
    (inv : WriterInv wc bs (mergeBlocks bs).1 (mergeBlocks bs).2 w)
    (hbudget : bs.length + 1 ≤ 524288) :
    WriterInv wc (writerBlocks wc bs) (mergeBlocks (writerBlocks wc bs)).1
      (mergeBlocks (writerBlocks wc bs)).2 w.writeChecksum := by
  cases wc with
  | false =>
    have hcrc : w.crc = none := by rw [inv.hcrc]; rfl
    have hwc : w.writeChecksum = w := by
      unfold WriterState.writeChecksum
      rw [hcrc]
    have hwb : writerBlocks false bs = bs := by
      unfold writerBlocks
      simp
    rw [hwc, hwb]
    exact inv
  | true =>
    have hcrc : w.crc = some (crcOfBlocks bs) := by rw [inv.hcrc]; rfl
    have hwc : w.writeChecksum = w.writeBlock (.crc32 (crcOfBlocks bs)) := by
      unfold WriterState.writeChecksum
      rw [hcrc]
    have hwb : writerBlocks true bs = bs ++ [.crc32 (crcOfBlocks bs)] := by
      unfold writerBlocks
      simp
    rw [hwc, hwb, mergeBlocks_snoc]
    exact writeBlock_inv true bs (mergeBlocks bs).1 (mergeBlocks bs).2 w
      (.crc32 (crcOfBlocks bs)) (crcOfBlocks_lt bs) inv hbudget

/-- Writing the final 28 file-header bytes at position 0 patches the reserved
gap. -/
theorem storeBytes_header (cs : List WChunk) (hdr : List Nat)
    (hlen : hdr.length = 28) :
    storeBytes (sinkData cs none) 0 hdr = hdr ++ doneBytes cs := by
  by_cases h : cs = []
  · subst h
    rw [show sinkData [] none = [] from rfl]
    have h0 := storeBytes_at_end ([] : List Nat) hdr
    simp only [List.length_nil, List.nil_append] at h0
    rw [h0, show doneBytes [] = [] from rfl, List.append_nil]
  · rw [sinkData_full _ _ (by simp [h, openPartial])]
    have hp := storeBytes_patch [] (List.replicate 28 0) (doneBytes cs) hdr
      (by simp [hlen])
    simp only [List.nil_append, List.length_nil] at hp
    show storeBytes (List.replicate 28 0 ++ doneBytes cs ++ []) 0 hdr = _
    rw [List.append_nil, hp]

theorem finish_data (w : WriterState) :
    w.finish.dst.data
      = storeBytes w.writeChecksum.finishChunk.dst.data 0
          (FileHeader.mk w.writeChecksum.finishChunk.num_blocks
            w.writeChecksum.finishChunk.num_chunks 0).writeTo := by
  simp only [WriterState.finish, Sink.seekTo, Sink.writeAll]

/-- The bytes the writer produces: the final file header followed by the
serialized merged chunks. -/
theorem writerImage_eq (wc : Bool) (bs : List Block) (hwf : ∀ b ∈ bs, b.wf)
    (hlen : bs.length + 1 ≤ 524288) :
    writerImage wc bs
      = (FileHeader.mk (countSum (writerChunks wc bs)) (writerChunks wc bs).length 0).writeTo
        ++ doneBytes (writerChunks wc bs) := by
  have inv1 : WriterInv wc bs (mergeBlocks bs).1 (mergeBlocks bs).2
      (bs.foldl WriterState.writeBlock (Writer.new wc)) := by
    have h := foldl_writeBlock_inv wc bs hwf [] [] none (Writer.new wc) (writerInv_init wc)
      (by simp only [List.length_nil]; omega)
    simpa [mergeBlocks] using h
  have inv2 := writeChecksum_inv wc bs _ inv1 hlen
  have hwbl : (writerBlocks wc bs).length ≤ 524288 := by
    unfold writerBlocks
    cases wc <;> simp <;> omega
  have inv3 := finishChunk_inv wc (writerBlocks wc bs) (mergeBlocks (writerBlocks wc bs)).1
    (mergeBlocks (writerBlocks wc bs)).2 _ inv2 hwbl
  have hcs : writerChunks wc bs
      = (mergeBlocks (writerBlocks wc bs)).1 ++ (mergeBlocks (writerBlocks wc bs)).2.toList :=
    rfl
  show ((bs.foldl WriterState.writeBlock (Writer.new wc)).finish).dst.data = _
  rw [finish_data, inv3.hnb, inv3.hnc, inv3.hdata,
    storeBytes_header _ _ (fileHeader_writeTo_length _), hcs]

/-! ### Structure of the merged chunk stream -/

theorem WChunk.blocks_push (c : WChunk) (b : Block) (hm : c.mergeable b = true) :
    (c.push b).blocks = c.blocks ++ [b] := by
  cases c with
  | raw bufs =>
    cases b with
    | raw buf => simp [WChunk.push, WChunk.blocks]
    | fill v => simp [WChunk.mergeable] at hm
    | skip => simp [WChunk.mergeable] at hm
    | crc32 cv => simp [WChunk.mergeable] at hm
  | fill v n =>
    cases b with
    | fill value =>
      have hv : v = value := by simpa [WChunk.mergeable] using hm
      subst hv
      show List.replicate (n + 1) (Block.fill v) = List.replicate n (Block.fill v) ++ [.fill v]
      exact List.replicate_succ' n _
    | raw buf => simp [WChunk.mergeable] at hm
    | skip => simp [WChunk.mergeable] at hm
    | crc32 cv => simp [WChunk.mergeable] at hm
  | dontCare n =>
    cases b with
    | skip =>
      show List.replicate (n + 1) Block.skip = List.replicate n Block.skip ++ [.skip]
      exact List.replicate_succ' n _
    | raw buf => simp [WChunk.mergeable] at hm
    | fill v => simp [WChunk.mergeable] at hm
    | crc32 cv => simp [WChunk.mergeable] at hm
  | crc32 cv => cases b <;> simp [WChunk.mergeable] at hm

theorem WChunk.blocks_openFrom (b : Block) : (WChunk.openFrom b).blocks = [b] := by
  cases b <;> rfl

/-- The state of the chunk replay always flattens back to the consumed
blocks. -/
theorem mergeBlocks_flatten (bs : List Block) :
    (((mergeBlocks bs).1 ++ (mergeBlocks bs).2.toList).map WChunk.blocks).flatten = bs := by
  suffices h : ∀ (bs : List Block) (st : List WChunk × Option WChunk),
      (((bs.foldl mergeStep st).1 ++ (bs.foldl mergeStep st).2.toList).map WChunk.blocks).flatten
        = ((st.1 ++ st.2.toList).map WChunk.blocks).flatten ++ bs by
    have h2 := h bs ([], none)
    simpa [mergeBlocks] using h2
  intro bs
  induction bs with
  | nil => intro st; simp
  | cons b t ih =>
    intro st
    rw [List.foldl_cons, ih (mergeStep st b)]
    obtain ⟨done, opn⟩ := st
    cases opn with
    | none => simp [mergeStep, WChunk.blocks_openFrom]
    | some c =>
      show ((((mergeStep (done, some c) b).1 ++ (mergeStep (done, some c) b).2.toList).map
          WChunk.blocks).flatten) ++ t = _
      cases hm : c.mergeable b with
      | true =>
        rw [show mergeStep (done, some c) b = (done, some (c.push b)) from by
          simp [mergeStep, hm]]
        simp [WChunk.blocks_push c b hm, List.append_assoc]
      | false =>
        rw [show mergeStep (done, some c) b = (done ++ [c], some (WChunk.openFrom b)) from by
          simp [mergeStep, hm]]
        simp [WChunk.blocks_openFrom, List.append_assoc]

/-- The chunk stream of a written image flattens back to the blocks the
writer consumed. -/
theorem writerChunks_flatten (wc : Bool) (bs : List Block) :
    ((writerChunks wc bs).map WChunk.blocks).flatten = writerBlocks wc bs :=
  mergeBlocks_flatten (writerBlocks wc bs)

theorem WChunk.head_push (c : WChunk) (b : Block) (h : c.blocks ≠ []) :
    (c.push b).blocks.head? = c.blocks.head? := by
  cases c with
  | raw bufs =>
    cases b with
    | raw buf =>
      show ((bufs ++ [buf]).map Block.raw).head? = (bufs.map Block.raw).head?
      cases bufs with
      | nil => exact absurd rfl h
      | cons a t => simp
    | fill v => rfl
    | skip => rfl
    | crc32 cv => rfl
  | fill v n =>
    show (List.replicate (n + 1) (Block.fill v)).head? = (List.replicate n (Block.fill v)).head?
    cases n with
    | zero => exact absurd rfl h
    | succ k => simp [List.replicate_succ]
  | dontCare n =>
    show (List.replicate (n + 1) Block.skip).head? = (List.replicate n Block.skip).head?
    cases n with
    | zero => exact absurd rfl h
    | succ k => simp [List.replicate_succ]
  | crc32 cv => rfl

theorem notMergeable_push (c1 c : WChunk) (b : Block) (h : notMergeable c1 c)
    (hne : c.blocks ≠ []) : notMergeable c1 (c.push b) := by
  intro x hx
  rw [WChunk.head_push c b hne] at hx
  exact h x hx

theorem notMergeable_openFrom (c : WChunk) (b : Block) (h : c.mergeable b = false) :
    notMergeable c (WChunk.openFrom b) := by
  intro x hx
  rw [WChunk.blocks_openFrom] at hx
  simp only [List.head?_cons, Option.some.injEq] at hx
  subst hx
  exact h

theorem WChunk.openFrom_blocks_ne (b : Block) : (WChunk.openFrom b).blocks ≠ [] := by
  rw [WChunk.blocks_openFrom]
  simp

theorem WChunk.push_blocks_ne (c : WChunk) (b : Block) (h : c.blocks ≠ []) :
    (c.push b).blocks ≠ [] := by
  cases c with
  | raw bufs => cases b <;> simp_all [WChunk.push, WChunk.blocks]
  | fill v n => cases b <;> simp [WChunk.push, WChunk.blocks, List.replicate_succ]
  | dontCare n => cases b <;> simp [WChunk.push, WChunk.blocks, List.replicate_succ]
  | crc32 cv => cases b <;> simp_all [WChunk.push, WChunk.blocks]

/-- The chunk replay never leaves two adjacent mergeable chunks. -/
theorem mergeBlocks_chain (bs : List Block) :
    List.Chain' notMergeable ((mergeBlocks bs).1 ++ (mergeBlocks bs).2.toList) := by
  suffices h : ∀ (bs : List Block) (st : List WChunk × Option WChunk),
      List.Chain' notMergeable (st.1 ++ st.2.toList) →
      (∀ c ∈ st.1 ++ st.2.toList, c.blocks ≠ []) →
      (st.2 = none → st.1 = []) →
      List.Chain' notMergeable
          ((bs.foldl mergeStep st).1 ++ (bs.foldl mergeStep st).2.toList) ∧
        (∀ c ∈ (bs.foldl mergeStep st).1 ++ (bs.foldl mergeStep st).2.toList,
          c.blocks ≠ []) ∧
        ((bs.foldl mergeStep st).2 = none → (bs.foldl mergeStep st).1 = []) by
    exact (h bs ([], none) (by simp) (by simp) (by simp)).1
  intro bs
  induction bs with
  | nil => intro st h hne hn; exact ⟨h, hne, hn⟩
  | cons b t ih =>
    intro st h hne hn
    rw [List.foldl_cons]
    obtain ⟨done, opn⟩ := st
    cases opn with
    | none =>
      have hd : done = [] := hn rfl
      subst hd
      refine ih (mergeStep ([], none) b) ?_ ?_ ?_
      · rw [show mergeStep ([], none) b = ([], some (WChunk.openFrom b)) from rfl]
        simp
      · rw [show mergeStep ([], none) b = ([], some (WChunk.openFrom b)) from rfl]
        intro c hc
        simp only [List.nil_append, Option.toList_some, List.mem_singleton] at hc
        subst hc
        exact WChunk.openFrom_blocks_ne b
      · rw [show mergeStep ([], none) b = ([], some (WChunk.openFrom b)) from rfl]
        simp
    | some c =>
      have hcb : c.blocks ≠ [] := hne c (by simp)
      cases hm : c.mergeable b with
      | true =>
        have hms : mergeStep (done, some c) b = (done, some (c.push b)) := by
          simp [mergeStep, hm]
        rw [hms]
        refine ih (done, some (c.push b)) ?_ ?_ ?_
        · show List.Chain' notMergeable (done ++ [c.push b])
          simp only [Option.toList_some] at h
          rw [List.chain'_append] at h ⊢
          obtain ⟨h1, h2, h3⟩ := h
          refine ⟨h1, by simp, ?_⟩
          intro x hx y hy
          simp only [List.head?_cons, Option.mem_def, Option.some.injEq] at hy
          subst hy
          have := h3 x hx c (by simp)
          exact notMergeable_push x c b this hcb
        · intro d hd
          simp only [Option.toList_some, List.mem_append, List.mem_singleton] at hd
          rcases hd with hd | hd
          · exact hne d (by simp [hd])
          · subst hd
            exact WChunk.push_blocks_ne c b hcb
        · simp
      | false =>
        have hms : mergeStep (done, some c) b
            = (done ++ [c], some (WChunk.openFrom b)) := by
          simp [mergeStep, hm]
        rw [hms]
        refine ih (done ++ [c], some (WChunk.openFrom b)) ?_ ?_ ?_
        · show List.Chain' notMergeable ((done ++ [c]) ++ [WChunk.openFrom b])
          simp only [Option.toList_some] at h
          rw [List.chain'_append]
          refine ⟨h, by simp, ?_⟩
          intro x hx y hy
          simp only [List.head?_cons, Option.mem_def, Option.some.injEq] at hy
          subst hy
          have hx' : c = x := by
            rw [List.getLast?_append] at hx
            simpa using hx
          subst hx'
          exact notMergeable_openFrom c b hm
        · intro d hd
          simp only [Option.toList_some, List.mem_append, List.mem_singleton] at hd
          rcases hd with (hd | hd) | hd
          · exact hne d (by simp [hd])
          · subst hd
            exact hcb
          · subst hd
            exact WChunk.openFrom_blocks_ne b
        · simp

theorem chunkTypeFromMagic_magic (ct : ChunkType) :
    chunkTypeFromMagic ct.magic = .ok ct := by
  cases ct <;> rfl

theorem ChunkType.magic_lt (ct : ChunkType) : ct.magic < 65536 := by
  cases ct <;> decide

/-- `ChunkHeader::read_from` on a serialized header. -/
theorem readChunkHeader_view (s : Src) (h : ChunkHeader) (tail : List Nat)
    (hcs : h.chunk_size < U32) (hts : h.total_size < U32)
    (hview : s.data.drop s.pos = h.writeTo ++ tail) :
    readChunkHeader s = .ok (h, { s with pos := s.pos + 12 }) := by
  obtain ⟨ct, cs, ts⟩ := h
  unfold ChunkHeader.writeTo at hview
  simp only [List.append_assoc] at hview
  unfold readChunkHeader
  rw [Src.readU16_view s ct.magic _ (ChunkType.magic_lt ct) hview]
  dsimp only
  rw [chunkTypeFromMagic_magic ct]
  dsimp only
  have hv1 := drop_view16 s.data s.pos _ _ hview
  rw [Src.readU16_view ⟨s.data, s.pos + 2⟩ 0 _ (by decide) hv1]
  dsimp only
  have hv2 := drop_view16 s.data (s.pos + 2) _ _ hv1
  rw [Src.readU32_view ⟨s.data, s.pos + 2 + 2⟩ cs _ hcs hv2]
  dsimp only
  have hv3 := drop_view32 s.data (s.pos + 2 + 2) _ _ hv2
  rw [Src.readU32_view ⟨s.data, s.pos + 2 + 2 + 4⟩ ts _ hts hv3]

/-- The CRC-verifying body loop of `read_raw_chunk` over a serialized raw
body. -/
theorem readRawLoop_view (image : List Nat) (bufs : List (List Nat)) :
    ∀ (v p : Nat) (tail : List Nat), (∀ x ∈ bufs, x.length = 4096) →
    image.drop p = bufs.flatten ++ tail →
    readRawLoop v ⟨image, p⟩ bufs.length
      = .ok (bufs.foldl crcWrite v, ⟨image, p + 4096 * bufs.length⟩) := by
  induction bufs with
  | nil => intro v p tail hwf hview; simp [readRawLoop]
  | cons b bt ih =>
    intro v p tail hwf hview
    have hb : b.length = 4096 := hwf b (by simp)
    have hbne : b ≠ [] := by intro hx; rw [hx] at hb; simp at hb
    show readRawLoop v ⟨image, p⟩ (bt.length + 1) = _
    unfold readRawLoop
    rw [List.flatten_cons, List.append_assoc] at hview
    have hre := Src.readExact_view ⟨image, p⟩ b (bt.flatten ++ tail) hbne hview
    rw [hb] at hre
    rw [hre]
    dsimp only
    have hv2 : image.drop (p + 4096) = bt.flatten ++ tail := by
      have := drop_view_step image p b (bt.flatten ++ tail) hview
      rw [hb] at this
      exact this
    rw [ih (crcWrite v b) (p + 4096) tail (fun x hx => hwf x (by simp [hx])) hv2]
    rw [List.foldl_cons]
    have : p + 4096 + 4096 * bt.length = p + 4096 * (bt.length + 1) := by ring
    rw [this]
    simp only [List.length_cons]

theorem foldl_replicate {α β : Type} (f : β → α → β) (x : α) (n : Nat) (v : β) :
    (List.replicate n x).foldl f v = (fun u => f u x)^[n] v := by
  induction n generalizing v with
  | zero => rfl
  | succ k ih =>
    rw [List.replicate_succ, List.foldl_cons, ih, ← Function.iterate_succ_apply]

theorem crcChunk_raw (v : Nat) (bufs : List (List Nat)) :
    crcChunk v (.raw bufs) = bufs.foldl crcWrite v := by
  unfold crcChunk
  show ((bufs.map Block.raw).foldl crcWriteBlock v) = _
  rw [List.foldl_map]
  rfl

theorem crcChunk_fill (v : Nat) (value : List Nat) (n : Nat) :
    crcChunk v (.fill value n) = (fun u => crcWrite u value)^[1024 * n] v := by
  unfold crcChunk
  show (List.replicate n (Block.fill value)).foldl crcWriteBlock v = _
  rw [foldl_replicate]
  have h1 : (fun u => crcWriteBlock u (Block.fill value))
      = (fun u => crcWrite u value)^[1024] := by
    funext u
    show (List.replicate 1024 value).foldl crcWrite u = _
    rw [foldl_replicate]
  rw [h1, ← Function.iterate_mul]

theorem crcChunk_dontCare (v : Nat) (n : Nat) :
    crcChunk v (.dontCare n) = (fun u => crcWrite u (List.replicate 4096 0))^[n] v := by
  unfold crcChunk
  show (List.replicate n Block.skip).foldl crcWriteBlock v = _
  rw [foldl_replicate]
  rfl

theorem crcChunk_crc32 (v cv : Nat) : crcChunk v (.crc32 cv) = v := rfl

/-- `Reader::read_chunk` on the serialized bytes of one writer chunk. -/
theorem readChunk_wchunk (image : List Nat) (p : Nat) (c : WChunk) (tail : List Nat)
    (hwf : c.wf) (hcnt : c.count ≤ 524288) (hcv : ∀ cv, c = .crc32 cv → cv < U32)
    (hview : image.drop p = c.bytes ++ tail) (crcv : Option Nat)
    (hcons : ∀ v cv, crcv = some v → c = .crc32 cv → cv = v) :
    readChunk crcv ⟨image, p⟩
      = .ok (crcv.map (fun v => crcChunk v c), c.record p,
          ⟨image, p + c.header.total_size⟩) := by
  have hcsb : c.header.chunk_size < U32 := by
    have : c.header.chunk_size = c.count := by cases c <;> rfl
    rw [this]
    unfold U32
    omega
  have htsb : c.header.total_size < U32 := by
    cases c with
    | raw bufs =>
      show 12 + 4096 * bufs.length < 4294967296
      have hcc : (WChunk.raw bufs).count = bufs.length := rfl
      rw [hcc] at hcnt
      omega
    | fill v n => show (16 : Nat) < U32; decide
    | dontCare n => show (12 : Nat) < U32; decide
    | crc32 cv => show (16 : Nat) < U32; decide
  unfold WChunk.bytes at hview
  rw [List.append_assoc] at hview
  unfold readChunk
  rw [readChunkHeader_view ⟨image, p⟩ c.header (c.body ++ tail) hcsb htsb hview]
  dsimp only
  have hvbody : image.drop (p + 12) = c.body ++ tail := by
    have := drop_view_step image p c.header.writeTo (c.body ++ tail) hview
    rw [chunkHeader_writeTo_length] at this
    exact this
  cases c with
  | raw bufs =>
    show readRawChunk crcv ⟨image, p + 12⟩ bufs.length = _
    cases crcv with
    | none =>
      unfold readRawChunk
      dsimp only
      show Except.ok (none, RChunk.raw (p + 12) bufs.length,
          Src.seekCur ⟨image, p + 12⟩ (rawChunkByteSize bufs.length)) = _
      have hcc : (WChunk.raw bufs).count = bufs.length := rfl
      rw [hcc] at hcnt
      have hrcb : rawChunkByteSize bufs.length = bufs.length * 4096 := by
        unfold rawChunkByteSize BLOCK_SIZE
        exact Nat.mod_eq_of_lt (show bufs.length * 4096 < 4294967296 by omega)
      unfold Src.seekCur
      rw [hrcb]
      show Except.ok (none, RChunk.raw (p + 12) bufs.length,
          (⟨image, p + 12 + bufs.length * 4096⟩ : Src)) = _
      have harith : p + 12 + bufs.length * 4096 = p + (12 + 4096 * bufs.length) := by ring
      rw [harith]
      rfl
    | some v =>
      unfold readRawChunk
      dsimp only
      rw [readRawLoop_view image bufs v (p + 12) tail hwf hvbody]
      dsimp only
      rw [show Option.map (fun u => crcChunk u (WChunk.raw bufs)) (some v)
          = some (crcChunk v (WChunk.raw bufs)) from rfl, crcChunk_raw]
      rw [show (WChunk.raw bufs).header.total_size = 12 + 4096 * bufs.length from rfl]
      have harith : p + 12 + 4096 * bufs.length = p + (12 + 4096 * bufs.length) := by ring
      rw [harith]
      rfl
  | fill value n =>
    show readFillChunk crcv ⟨image, p + 12⟩ n = _
    have hvlen : value.length = 4 := hwf
    have hvne : value ≠ [] := by intro hx; rw [hx] at hvlen; simp at hvlen
    unfold readFillChunk
    have hre := Src.readExact_view ⟨image, p + 12⟩ value tail hvne hvbody
    rw [hvlen] at hre
    rw [hre]
    dsimp only
    have hffc : fillFeedCount n = 1024 * n := by
      unfold fillFeedCount BLOCK_SIZE
      rw [Nat.mod_eq_of_lt (by unfold U32; have : n ≤ 524288 := hcnt; omega)]
      omega
    rw [hffc]
    have harith : p + 12 + 4 = p + 16 := by omega
    rw [harith]
    cases crcv with
    | none => rfl
    | some v =>
      rw [show Option.map (fun v => (fun u => crcWrite u value)^[1024 * n] v) (some v)
          = some ((fun u => crcWrite u value)^[1024 * n] v) from rfl]
      rw [show Option.map (fun v => crcChunk v (WChunk.fill value n)) (some v)
          = some (crcChunk v (WChunk.fill value n)) from rfl]
      rw [crcChunk_fill]
      rfl
  | dontCare n =>
    show Except.ok ((readDontCareChunk crcv n).1, (readDontCareChunk crcv n).2,
        (⟨image, p + 12⟩ : Src)) = _
    unfold readDontCareChunk
    cases crcv with
    | none => rfl
    | some v =>
      dsimp only
      rw [show Option.map (fun v => crcChunk v (WChunk.dontCare n)) (some v)
          = some (crcChunk v (WChunk.dontCare n)) from rfl]
      rw [crcChunk_dontCare]
      rfl
  | crc32 cv =>
    show (match readCrc32Chunk crcv ⟨image, p + 12⟩ with
      | Except.error e => (Except.error e : Except RdErr (Option Nat × RChunk × Src))
      | Except.ok (chunk, s) => Except.ok (crcv, chunk, s)) = _
    unfold readCrc32Chunk
    rw [Src.readU32_view ⟨image, p + 12⟩ cv tail (hcv cv rfl) hvbody]
    dsimp only
    have harith : p + 12 + 4 = p + 16 := by omega
    cases crcv with
    | none =>
      rw [harith]
      rfl
    | some v =>
      have hveq : cv = v := hcons v cv rfl rfl
      subst hveq
      dsimp only
      rw [if_neg (show ¬ cv ≠ cv by simp), harith]
      rfl

theorem doneBytes_cons (c : WChunk) (t : List WChunk) :
    doneBytes (c :: t) = c.bytes ++ doneBytes t := by
  unfold doneBytes
  simp

/-- The `total_chunks` iterations of `Reader::read` over serialized chunks. -/
theorem readChunksLoop_records (image : List Nat) (rest : List WChunk) :
    ∀ (p : Nat) (acc : List RChunk) (crcv : Option Nat),
    (∀ c ∈ rest, c.wf) → (∀ c ∈ rest, c.count ≤ 524288) →
    (∀ cv, WChunk.crc32 cv ∈ rest → cv < U32) →
    image.drop p = doneBytes rest →
    (∀ v, crcv = some v → crcConsistent v rest) →
    readChunksLoop crcv ⟨image, p⟩ acc rest.length = .ok (acc ++ recordsFrom p rest) := by
  induction rest with
  | nil =>
    intro p acc crcv hwf hcnt hcv hview hcons
    show Except.ok acc = .ok (acc ++ recordsFrom p [])
    rw [show recordsFrom p [] = [] from rfl, List.append_nil]
  | cons c t ih =>
    intro p acc crcv hwf hcnt hcv hview hcons
    rw [doneBytes_cons] at hview
    have hviewc : image.drop p = c.bytes ++ doneBytes t := hview
    show readChunksLoop crcv ⟨image, p⟩ acc (t.length + 1) = _
    unfold readChunksLoop
    rw [readChunk_wchunk image p c (doneBytes t) (hwf c (by simp))
      (hcnt c (by simp)) (fun cv hc => hcv cv (by simp [hc])) hviewc crcv
      (fun v cv hv hc => ((hcons v hv).1 cv hc))]
    dsimp only
    have hvt : image.drop (p + c.header.total_size) = doneBytes t := by
      have h0 := drop_view_step image p c.bytes (doneBytes t) hviewc
      rw [WChunk.bytes_length c (hwf c (by simp))] at h0
      exact h0
    rw [ih (p + c.header.total_size) (acc ++ [c.record p])
      (crcv.map (fun v => crcChunk v c))
      (fun d hd => hwf d (by simp [hd])) (fun d hd => hcnt d (by simp [hd]))
      (fun cv hc => hcv cv (by simp [hc])) hvt ?_]
    · rw [show recordsFrom p (c :: t)
          = c.record p :: recordsFrom (p + c.header.total_size) t from rfl]
      simp
    · intro v hv
      cases crcv with
      | none => simp at hv
      | some u =>
        have : v = crcChunk u c := by
          rw [show Option.map (fun v => crcChunk v c) (some u)
            = some (crcChunk u c) from rfl] at hv
          exact (Option.some.injEq _ _ ▸ hv).symm
        subst this
        exact (hcons u rfl).2

/-- `headerVerdict` on the values the writer emits: success. -/
theorem headerVerdict_writer (tb tc : Nat) :
    headerVerdict FILE_MAGIC 1 0 28 12 4096 tb tc 0 = .ok ⟨tb, tc, 0⟩ := by
  unfold headerVerdict
  rw [if_neg (by simp), if_neg (by simp [FileHeader.SIZE]), if_neg (by simp),
    if_neg (by simp), if_neg (by simp)]

theorem FileHeader.writeTo_fields (h : FileHeader) :
    h.writeTo = headerFieldBytes FILE_MAGIC 1 0 28 12 4096
      h.total_blocks h.total_chunks h.image_checksum := rfl

/-- Parsing a written image: the file header round-trips and every chunk is
recovered as its record. -/
theorem readerRun_records (verify : Bool) (cs : List WChunk) (image : List Nat)
    (himg : image = (FileHeader.mk (countSum cs) cs.length 0).writeTo ++ doneBytes cs)
    (hwf : ∀ c ∈ cs, c.wf) (hcnt : ∀ c ∈ cs, c.count ≤ 524288)
    (hcv : ∀ cv, WChunk.crc32 cv ∈ cs → cv < U32)
    (htb : countSum cs < U32) (htc : cs.length < U32)
    (hcons : verify = true → crcConsistent 0 cs) :
    readerRun verify image = .ok (recordsFrom 28 cs) := by
  unfold readerRun
  have hview : (⟨image, 0⟩ : Src).data.drop 0
      = headerFieldBytes FILE_MAGIC 1 0 28 12 4096 (countSum cs) cs.length 0
        ++ doneBytes cs := by
    show image.drop 0 = _
    rw [List.drop_zero, himg, FileHeader.writeTo_fields]
  rw [readFileHeader_fields FILE_MAGIC 1 0 28 12 4096 (countSum cs) cs.length 0
    ⟨image, 0⟩ (by decide) (by decide) (by decide) (by decide) (by decide) (by decide)
    htb htc (by decide) (doneBytes cs) hview]
  rw [headerVerdict_writer]
  dsimp only
  have hdrop : image.drop 28 = doneBytes cs := by
    rw [himg]
    have h28 : (28 : Nat) = ((FileHeader.mk (countSum cs) cs.length 0).writeTo).length := by
      rw [fileHeader_writeTo_length]
    rw [h28, List.drop_left]
  rw [show (0 : Nat) + 28 = 28 from rfl]
  exact readChunksLoop_records image cs 28 [] (if verify then some 0 else none)
    hwf hcnt hcv hdrop
    (by intro v hv
        cases verify with
        | false => simp at hv
        | true =>
          rw [if_pos rfl] at hv
          simp only [Option.some.injEq] at hv
          rw [← hv]
          exact hcons rfl)

theorem mergedChunks_flatten (bs : List Block) :
    ((mergedChunks bs).map WChunk.blocks).flatten = bs :=
  mergeBlocks_flatten bs

theorem WChunk.mergeable_crc32 (c : WChunk) (cv : Nat) :
    c.mergeable (.crc32 cv) = false := by
  cases c <;> rfl

theorem writerChunks_false_eq (bs : List Block) :
    writerChunks false bs = mergedChunks bs := by
  unfold writerChunks mergedChunks writerBlocks
  simp

theorem writerChunks_true_eq (bs : List Block) :
    writerChunks true bs = mergedChunks bs ++ [.crc32 (crcOfBlocks bs)] := by
  unfold writerChunks mergedChunks
  have hwb : writerBlocks true bs = bs ++ [.crc32 (crcOfBlocks bs)] := by
    unfold writerBlocks
    simp
  rw [hwb, mergeBlocks_snoc]
  cases ho : (mergeBlocks bs).2 with
  | none =>
    have hms : mergeStep (mergeBlocks bs) (.crc32 (crcOfBlocks bs))
        = ((mergeBlocks bs).1, some (.crc32 (crcOfBlocks bs))) := by
      show mergeStep ((mergeBlocks bs).1, (mergeBlocks bs).2) (.crc32 (crcOfBlocks bs)) = _
      rw [ho]
      rfl
    rw [hms]
    simp
  | some c =>
    have hms : mergeStep (mergeBlocks bs) (.crc32 (crcOfBlocks bs))
        = ((mergeBlocks bs).1 ++ [c], some (.crc32 (crcOfBlocks bs))) := by
      show mergeStep ((mergeBlocks bs).1, (mergeBlocks bs).2) (.crc32 (crcOfBlocks bs)) = _
      rw [ho]
      simp [mergeStep, WChunk.mergeable_crc32, WChunk.openFrom]
    rw [hms]
    simp

/-- The writer's state after the checksum block and the final `finish_chunk`
satisfies the invariant over the full consumed sequence. -/
theorem runWriter_inv (wc : Bool) (bs : List Block) (hwf : ∀ b ∈ bs, b.wf)
    (hlen : bs.length + 1 ≤ 524288) :
    WriterInv wc (writerBlocks wc bs) (writerChunks wc bs) none
      ((bs.foldl WriterState.writeBlock (Writer.new wc)).writeChecksum.finishChunk) := by
  have inv1 : WriterInv wc bs (mergeBlocks bs).1 (mergeBlocks bs).2
      (bs.foldl WriterState.writeBlock (Writer.new wc)) := by
    have h := foldl_writeBlock_inv wc bs hwf [] [] none (Writer.new wc) (writerInv_init wc)
      (by simp only [List.length_nil]; omega)
    simpa [mergeBlocks] using h
  have inv2 := writeChecksum_inv wc bs _ inv1 hlen
  have hwbl : (writerBlocks wc bs).length ≤ 524288 := by
    unfold writerBlocks
    cases wc <;> simp <;> omega
  exact finishChunk_inv wc (writerBlocks wc bs) (mergeBlocks (writerBlocks wc bs)).1
    (mergeBlocks (writerBlocks wc bs)).2 _ inv2 hwbl

/-- Every block of the writer's consumed sequence is well-formed: the caller's
blocks plus the appended checksum block. -/
theorem writerBlocks_wf (wc : Bool) (bs : List Block) (hwf : ∀ b ∈ bs, b.wf) :
    ∀ b ∈ writerBlocks wc bs, b.wf := by
  intro b hb
  unfold writerBlocks at hb
  rcases List.mem_append.mp hb with hb | hb
  · exact hwf b hb
  · cases wc with
    | false => simp at hb
    | true =>
      rw [if_pos rfl] at hb
      rw [List.mem_singleton] at hb
      subst hb
      exact crcOfBlocks_lt bs

theorem WChunk.block_mem_flatten (cs : List WChunk) (c : WChunk) (hc : c ∈ cs)
    (b : Block) (hb : b ∈ c.blocks) : b ∈ (cs.map WChunk.blocks).flatten := by
  rw [List.mem_flatten]
  exact ⟨c.blocks, List.mem_map_of_mem WChunk.blocks hc, hb⟩

theorem count_le_countSum (cs : List WChunk) (c : WChunk) (hc : c ∈ cs) :
    c.count ≤ countSum cs := by
  unfold countSum
  exact List.single_le_sum (fun x _ => Nat.zero_le x) c.count
    (List.mem_map_of_mem WChunk.count hc)

theorem mergedChunks_no_crc32 (bs : List Block) (hnc : ∀ cv, Block.crc32 cv ∉ bs) :
    ∀ cv, WChunk.crc32 cv ∉ mergedChunks bs := by
  intro cv hmem
  have hb : Block.crc32 cv ∈ ((mergedChunks bs).map WChunk.blocks).flatten :=
    WChunk.block_mem_flatten _ _ hmem _ (by simp [WChunk.blocks])
  rw [mergedChunks_flatten] at hb
  exact hnc cv hb

theorem foldl_crcChunk_flatten (cs : List WChunk) :
    ∀ v, cs.foldl crcChunk v = ((cs.map WChunk.blocks).flatten).foldl crcWriteBlock v := by
  induction cs with
  | nil => intro v; rfl
  | cons c t ih =>
    intro v
    rw [List.foldl_cons, ih, List.map_cons, List.flatten_cons, List.foldl_append]
    rfl

theorem crcConsistent_snoc_crc (pre : List WChunk) :
    ∀ (v : Nat), (∀ cv, WChunk.crc32 cv ∉ pre) →
    crcConsistent v (pre ++ [.crc32 (pre.foldl crcChunk v)]) := by
  induction pre with
  | nil =>
    intro v hno
    refine ⟨?_, trivial⟩
    intro cv hc
    injection hc with h
    exact h.symm
  | cons c t ih =>
    intro v hno
    refine ⟨?_, ?_⟩
    · intro cv hc
      exact absurd (by rw [← hc]; exact List.mem_cons_self c t) (hno cv)
    · show crcConsistent (crcChunk v c)
        (t ++ [WChunk.crc32 (List.foldl crcChunk (crcChunk v c) t)])
      exact ih (crcChunk v c) (fun cv hcv => hno cv (List.mem_cons_of_mem c hcv))

/-- CRC consistency of a CRC-enabled writer's chunk stream over `Crc32`-free
input blocks. -/
theorem writerChunks_crcConsistent (bs : List Block)
    (hnc : ∀ cv, Block.crc32 cv ∉ bs) :
    crcConsistent 0 (writerChunks true bs) := by
  rw [writerChunks_true_eq]
  have hdig : crcOfBlocks bs = (mergedChunks bs).foldl crcChunk 0 := by
    rw [foldl_crcChunk_flatten, mergedChunks_flatten]
    rfl
  rw [hdig]
  exact crcConsistent_snoc_crc (mergedChunks bs) 0 (mergedChunks_no_crc32 bs hnc)

/-- Reading back a written image (CRC verification off) recovers every chunk
record. -/
theorem readerRun_writerImage (wc : Bool) (bs : List Block) (hwf : ∀ b ∈ bs, b.wf)
    (hlen : bs.length + 1 ≤ 524288) :
    readerRun false (writerImage wc bs) = .ok (recordsFrom 28 (writerChunks wc bs)) := by
  have inv := runWriter_inv wc bs hwf hlen
  have hwbl : (writerBlocks wc bs).length ≤ 524288 := by
    unfold writerBlocks
    cases wc <;> simp <;> omega
  have hcnt := inv.hcount
  rw [optCount_none, Nat.add_zero] at hcnt
  refine readerRun_records false (writerChunks wc bs) _ (writerImage_eq wc bs hwf hlen)
    inv.hwfdone ?_ ?_ ?_ ?_ (by intro h; cases h)
  · intro c hc
    have := count_le_countSum _ c hc
    omega
  · intro cv hc
    have hb : Block.crc32 cv ∈ writerBlocks wc bs := by
      have := WChunk.block_mem_flatten _ _ hc (Block.crc32 cv) (by simp [WChunk.blocks])
      rwa [writerChunks_flatten] at this
    exact writerBlocks_wf wc bs hwf _ hb
  · unfold U32; omega
  · have := inv.hlen
    simp only [Option.toList_none, List.length_nil, Nat.add_zero] at this
    unfold U32; omega

/-- Reading back a CRC-enabled image with verification on: the checksum chunk
matches and every record is recovered — never a checksum error. -/
theorem readerRun_writerImage_crc (bs : List Block) (hwf : ∀ b ∈ bs, b.wf)
    (hnc : ∀ cv, Block.crc32 cv ∉ bs)
    (hlen : bs.length + 1 ≤ 524288) :
    readerRun true (writerImage true bs) = .ok (recordsFrom 28 (writerChunks true bs)) := by
  have inv := runWriter_inv true bs hwf hlen
  have hwbl : (writerBlocks true bs).length ≤ 524288 := by
    unfold writerBlocks
    simp
    omega
  have hcnt := inv.hcount
  rw [optCount_none, Nat.add_zero] at hcnt
  refine readerRun_records true (writerChunks true bs) _ (writerImage_eq true bs hwf hlen)
    inv.hwfdone ?_ ?_ ?_ ?_ (fun _ => writerChunks_crcConsistent bs hnc)
  · intro c hc
    have := count_le_countSum _ c hc
    omega
  · intro cv hc
    have hb : Block.crc32 cv ∈ writerBlocks true bs := by
      have := WChunk.block_mem_flatten _ _ hc (Block.crc32 cv) (by simp [WChunk.blocks])
      rwa [writerChunks_flatten] at this
    exact writerBlocks_wf true bs hwf _ hb
  · unfold U32; omega
  · have := inv.hlen
    simp only [Option.toList_none, List.length_nil, Nat.add_zero] at this
    unfold U32; omega

/-- Cutting 4096-byte slices back out of a flattened run of buffers. -/
theorem slices_of_flatten (image : List Nat) (bufs : List (List Nat)) :
    ∀ (q : Nat) (tail : List Nat), (∀ x ∈ bufs, x.length = 4096) →
    image.drop q = bufs.flatten ++ tail →
    (List.range bufs.length).map (fun i => (image.drop (q + 4096 * i)).take 4096) = bufs := by
  induction bufs with
  | nil => intro q tail hwf hview; rfl
  | cons b bt ih =>
    intro q tail hwf hview
    have hb : b.length = 4096 := hwf b (by simp)
    rw [List.flatten_cons, List.append_assoc] at hview
    show (List.range (bt.length + 1)).map _ = _
    rw [List.range_succ_eq_map, List.map_cons, List.map_map]
    have hhead : (image.drop (q + 4096 * 0)).take 4096 = b := by
      rw [Nat.mul_zero, Nat.add_zero, hview, show (4096 : Nat) = b.length from hb.symm,
        List.take_left]
    rw [hhead]
    have hview' : image.drop (q + 4096) = bt.flatten ++ tail := by
      have := drop_view_step image q b (bt.flatten ++ tail) hview
      rw [hb] at this
      exact this
    have ih' := ih (q + 4096) tail (fun x hx => hwf x (by simp [hx])) hview'
    refine congrArg₂ List.cons rfl ?_
    refine Eq.trans ?_ ih'
    congr 1
    funext i
    show (image.drop (q + 4096 * (i + 1))).take 4096
      = (image.drop (q + 4096 + 4096 * i)).take 4096
    congr 2
    ring

/-- Expanding the reader's records against the image recovers exactly the
blocks of the serialized chunks. -/
theorem recordsFrom_expand (image : List Nat) (cs : List WChunk) :
    ∀ (p : Nat) (tail : List Nat), (∀ c ∈ cs, c.wf) →
    image.drop p = doneBytes cs ++ tail →
    ((recordsFrom p cs).map fun c =>
      match c with
      | RChunk.raw offset n =>
        (List.range n).map fun i => Block.raw ((image.drop (offset + 4096 * i)).take 4096)
      | RChunk.fill v n => List.replicate n (Block.fill v)
      | RChunk.dontCare n => List.replicate n Block.skip
      | RChunk.crc32 c => [Block.crc32 c]).flatten
    = (cs.map WChunk.blocks).flatten := by
  induction cs with
  | nil => intro p tail hwf hview; rfl
  | cons c t ih =>
    intro p tail hwf hview
    rw [doneBytes_cons, List.append_assoc] at hview
    have hviewt : image.drop (p + c.header.total_size) = doneBytes t ++ tail := by
      have h0 := drop_view_step image p c.bytes (doneBytes t ++ tail) hview
      rw [WChunk.bytes_length c (hwf c (by simp))] at h0
      exact h0
    have iht := ih (p + c.header.total_size) tail (fun d hd => hwf d (by simp [hd])) hviewt
    rw [show recordsFrom p (c :: t)
        = c.record p :: recordsFrom (p + c.header.total_size) t from rfl,
      List.map_cons, List.flatten_cons, iht, List.map_cons, List.flatten_cons]
    congr 1
    cases c with
    | raw bufs =>
      show (List.range bufs.length).map
          (fun i => Block.raw ((image.drop (p + 12 + 4096 * i)).take 4096))
        = bufs.map Block.raw
      have hvbody : image.drop (p + 12) = bufs.flatten ++ (doneBytes t ++ tail) := by
        unfold WChunk.bytes at hview
        rw [List.append_assoc] at hview
        have h0 := drop_view_step image p (WChunk.raw bufs).header.writeTo _ hview
        rw [chunkHeader_writeTo_length] at h0
        exact h0
      have hs := slices_of_flatten image bufs (p + 12) (doneBytes t ++ tail)
        (hwf (WChunk.raw bufs) (by simp)) hvbody
      have hmm : (List.range bufs.length).map
          (fun i => Block.raw ((image.drop (p + 12 + 4096 * i)).take 4096))
        = ((List.range bufs.length).map
            (fun i => (image.drop (p + 12 + 4096 * i)).take 4096)).map Block.raw := by
        rw [List.map_map]
        rfl
      rw [hmm, hs]
    | fill v n => rfl
    | dontCare n => rfl
    | crc32 cv => rfl

/-- Parsing a written image and expanding the chunk records yields exactly the
block sequence the writer consumed. -/
theorem imageBlocks_writerImage (wc : Bool) (bs : List Block) (hwf : ∀ b ∈ bs, b.wf)
    (hlen : bs.length + 1 ≤ 524288) :
    imageBlocks (writerImage wc bs) = .ok (writerBlocks wc bs) := by
  unfold imageBlocks
  rw [readerRun_writerImage wc bs hwf hlen]
  dsimp only
  have hdrop : (writerImage wc bs).drop 28 = doneBytes (writerChunks wc bs) ++ [] := by
    rw [writerImage_eq wc bs hwf hlen, List.append_nil]
    have h28 : (28 : Nat) = ((FileHeader.mk (countSum (writerChunks wc bs))
        (writerChunks wc bs).length 0).writeTo).length := by
      rw [fileHeader_writeTo_length]
    rw [h28, List.drop_left]
  rw [recordsFrom_expand (writerImage wc bs) (writerChunks wc bs) 28 []
    (runWriter_inv wc bs hwf hlen).hwfdone hdrop]
  rw [writerChunks_flatten]

/-! ### Block classification and its raw-image inverse -/

theorem sparse_eq_replicate_words (s : List Nat) (hs : s.length = 4096)
    (hsp : is_sparse_block s = true) : splitSz 3 s = List.replicate 1024 (s.take 4) := by
  have hne : s ≠ [] := by intro h; rw [h] at hs; simp at hs
  have hcons := splitSz_cons 3 s hne
  unfold is_sparse_block at hsp
  rw [if_neg (by rw [hs]; simp [BLOCK_SIZE])] at hsp
  rw [hcons] at hsp
  have hall : ∀ p ∈ splitSz 3 s, p = s.take 4 := by
    intro p hp
    rw [hcons] at hp
    rcases List.mem_cons.mp hp with rfl | hp
    · rfl
    · have := List.all_eq_true.mp hsp p hp
      exact eq_of_beq this
  have hlen : (splitSz 3 s).length = 1024 := by
    rw [splitSz_length, hs]
  exact List.eq_replicate_iff.mpr ⟨hlen, hall⟩

theorem sparse_flatten (s : List Nat) (hs : s.length = 4096)
    (hsp : is_sparse_block s = true) :
    s = (List.replicate 1024 (s.take 4)).flatten := by
  rw [← sparse_eq_replicate_words s hs hsp, flatten_splitSz]

theorem flatten_replicate_zero_word (n : Nat) :
    (List.replicate n ([0, 0, 0, 0] : List Nat)).flatten = List.replicate (4 * n) 0 := by
  induction n with
  | zero => rfl
  | succ k ih =>
    rw [List.replicate_succ, List.flatten_cons, ih,
      show 4 * (k + 1) = 4 + 4 * k from by ring, List.replicate_add]
    rfl

/-- Decoding a classified 4096-byte slice reproduces the slice. -/
theorem classify_rawBytes (s : List Nat) (hs : s.length = 4096) :
    (classifyBlock s).rawBytes = s := by
  unfold classifyBlock
  by_cases hsp : is_sparse_block s = true
  · rw [if_pos hsp]
    by_cases hz : s.take 4 = [0, 0, 0, 0]
    · rw [if_pos hz]
      show List.replicate 4096 0 = s
      rw [sparse_flatten s hs hsp, hz, flatten_replicate_zero_word]
    · rw [if_neg hz]
      show (List.replicate 1024 (s.take 4)).flatten = s
      exact (sparse_flatten s hs hsp).symm
  · rw [if_neg hsp]
    rfl

/-- A classified full slice is a well-formed block (and never `Crc32`). -/
theorem classify_wf (s : List Nat) (hs : s.length = 4096) :
    (classifyBlock s).wf := by
  unfold classifyBlock
  by_cases hsp : is_sparse_block s = true
  · rw [if_pos hsp]
    by_cases hz : s.take 4 = [0, 0, 0, 0]
    · rw [if_pos hz]
      trivial
    · rw [if_neg hz]
      show (s.take 4).length = 4
      rw [List.length_take, hs]
      rfl
  · rw [if_neg hsp]
    exact hs

theorem classify_not_crc32 (s : List Nat) : ∀ cv, classifyBlock s ≠ .crc32 cv := by
  intro cv
  unfold classifyBlock
  by_cases hsp : is_sparse_block s = true
  · rw [if_pos hsp]
    by_cases hz : s.take 4 = [0, 0, 0, 0]
    · rw [if_pos hz]; intro h; cases h
    · rw [if_neg hz]; intro h; cases h
  · rw [if_neg hsp]; intro h; cases h

theorem toBlocks_raw_succ (r : List Nat) (off : Int) (n : Nat) :
    (EChunk.raw off (n + 1)).toBlocks r
      = (EChunk.raw off n).toBlocks r
        ++ [.raw ((r.drop (off + 4096 * n).toNat).take 4096)] := by
  unfold EChunk.toBlocks
  dsimp only
  rw [List.range_succ, List.map_append]
  rfl

theorem toBlocks_fill_succ (r : List Nat) (v : List Nat) (n : Nat) :
    (EChunk.fill v (n + 1)).toBlocks r = (EChunk.fill v n).toBlocks r ++ [.fill v] :=
  List.replicate_succ' n _

theorem toBlocks_dc_succ (r : List Nat) (n : Nat) :
    (EChunk.dontCare (n + 1)).toBlocks r = (EChunk.dontCare n).toBlocks r ++ [.skip] :=
  List.replicate_succ' n _

theorem toBlocks_raw_one (r : List Nat) (off : Int) :
    (EChunk.raw off 1).toBlocks r = [.raw ((r.drop off.toNat).take 4096)] := by
  unfold EChunk.toBlocks
  dsimp only
  rw [show List.range 1 = [0] from rfl, List.map_cons, List.map_nil]
  norm_num

theorem encExpand_step (r : List Nat) (pos pos' : Nat) (chunk : Option EChunk)
    (out : List EChunk) (old : Option EChunk) (new : EChunk) (bs : List Block)
    (h : (old = none ∧ ∃ c, chunk = some c ∧ new.toBlocks r = c.toBlocks r ++ bs)
       ∨ (old = chunk ∧ new.toBlocks r = bs)) :
    encExpand r (pos', some new, out ++ old.toList) = encExpand r (pos, chunk, out) ++ bs := by
  unfold encExpand
  rcases h with ⟨hold, c, hc, hnew⟩ | ⟨hold, hnew⟩
  · subst hold hc
    simp [hnew, List.append_assoc]
  · subst hold
    simp [hnew, List.append_assoc]

/-- One non-empty full-slice `encStep`: the expansion grows by the classified
block, the position advances one block, and the raw-offset invariant is
maintained. -/
theorem encStep_expand (r : List Nat) (pos : Nat) (chunk : Option EChunk)
    (out : List EChunk) (s : List Nat) (hs : s = (r.drop pos).take 4096)
    (hslen : s.length = 4096)
    (hch : ∀ off n, chunk = some (.raw off n) →
      off = (pos : Int) - 4096 * n ∧ 4096 * n ≤ pos) :
    encExpand r (encStep (pos, chunk, out) s)
      = encExpand r (pos, chunk, out) ++ [classifyBlock s]
    ∧ (encStep (pos, chunk, out) s).1 = pos + 4096
    ∧ (∀ off n, (encStep (pos, chunk, out) s).2.1 = some (.raw off n) →
        off = ((pos + 4096 : Nat) : Int) - 4096 * n ∧ 4096 * n ≤ pos + 4096) := by
  have hsne : s ≠ [] := by intro h; rw [h] at hslen; simp at hslen
  by_cases hsp : is_sparse_block s = true
  · by_cases hz : s.take 4 = [0, 0, 0, 0]
    · -- a zero sparse slice: don't-care
      have hcl : classifyBlock s = .skip := by
        unfold classifyBlock
        rw [if_pos hsp, if_pos hz]
      have hm : encMergeDontCare chunk
          = ((encMergeDontCare chunk).1, (encMergeDontCare chunk).2) := rfl
      have hstep : encStep (pos, chunk, out) s
          = (pos + 4096, some (encMergeDontCare chunk).2,
             out ++ (encMergeDontCare chunk).1.toList) := by
        unfold encStep
        dsimp only
        rw [if_neg hsne, hslen, if_pos hsp, if_pos hz, hm]
      rw [hstep, hcl]
      refine ⟨?_, rfl, ?_⟩
      · apply encExpand_step
        cases chunk with
        | none => exact Or.inr ⟨rfl, rfl⟩
        | some c =>
          cases c with
          | dontCare n =>
            exact Or.inl ⟨rfl, _, rfl, toBlocks_dc_succ r n⟩
          | raw off n => exact Or.inr ⟨rfl, rfl⟩
          | fill v n => exact Or.inr ⟨rfl, rfl⟩
      · intro off m h
        cases chunk with
        | none => cases h
        | some c => cases c <;> cases h
    · -- a nonzero sparse slice: fill
      have hcl : classifyBlock s = .fill (s.take 4) := by
        unfold classifyBlock
        rw [if_pos hsp, if_neg hz]
      have hm : encMergeFill (s.take 4) chunk
          = ((encMergeFill (s.take 4) chunk).1, (encMergeFill (s.take 4) chunk).2) := rfl
      have hstep : encStep (pos, chunk, out) s
          = (pos + 4096, some (encMergeFill (s.take 4) chunk).2,
             out ++ (encMergeFill (s.take 4) chunk).1.toList) := by
        unfold encStep
        dsimp only
        rw [if_neg hsne, hslen, if_pos hsp, if_neg hz, hm]
      rw [hstep, hcl]
      refine ⟨?_, rfl, ?_⟩
      · apply encExpand_step
        cases chunk with
        | none => exact Or.inr ⟨rfl, rfl⟩
        | some c =>
          cases c with
          | fill v n =>
            by_cases hv : v = s.take 4
            · rw [show encMergeFill (s.take 4) (some (EChunk.fill v n))
                  = (none, .fill v (n + 1)) from by
                unfold encMergeFill; dsimp only; rw [if_pos hv]]
              refine Or.inl ⟨rfl, _, rfl, ?_⟩
              rw [toBlocks_fill_succ, hv]
            · rw [show encMergeFill (s.take 4) (some (EChunk.fill v n))
                  = (some (.fill v n), .fill (s.take 4) 1) from by
                unfold encMergeFill; dsimp only; rw [if_neg hv]]
              exact Or.inr ⟨rfl, rfl⟩
          | raw off n => exact Or.inr ⟨rfl, rfl⟩
          | dontCare n => exact Or.inr ⟨rfl, rfl⟩
      · intro off m h
        cases chunk with
        | none => cases h
        | some c =>
          cases c with
          | fill v n =>
            by_cases hv : v = s.take 4
            · rw [show encMergeFill (s.take 4) (some (EChunk.fill v n))
                  = (none, .fill v (n + 1)) from by
                unfold encMergeFill; dsimp only; rw [if_pos hv]] at h
              cases h
            · rw [show encMergeFill (s.take 4) (some (EChunk.fill v n))
                  = (some (.fill v n), .fill (s.take 4) 1) from by
                unfold encMergeFill; dsimp only; rw [if_neg hv]] at h
              cases h
          | raw o n => cases h
          | dontCare n => cases h
  · -- a raw slice
    have hcl : classifyBlock s = .raw s := by
      unfold classifyBlock
      rw [if_neg hsp]
    have hm : encMergeRaw (pos + 4096) chunk
        = ((encMergeRaw (pos + 4096) chunk).1, (encMergeRaw (pos + 4096) chunk).2) := rfl
    have hstep : encStep (pos, chunk, out) s
        = (pos + 4096, some (encMergeRaw (pos + 4096) chunk).2,
           out ++ (encMergeRaw (pos + 4096) chunk).1.toList) := by
      unfold encStep
      dsimp only
      rw [if_neg hsne, hslen, if_neg hsp, hm]
    rw [hstep, hcl]
    have hfresh : ∀ (r' : List Nat),
        (EChunk.raw (((pos + 4096 : Nat) : Int) - 4096) 1).toBlocks r' = [.raw s] → True :=
      fun _ _ => trivial
    have hoff1 : ((((pos + 4096 : Nat) : Int)) - 4096).toNat = pos := by
      push_cast
      rw [show ((pos : Int) + 4096 - 4096) = (pos : Int) from by ring]
      exact Int.toNat_natCast pos
    have hone : (EChunk.raw (((pos + 4096 : Nat) : Int) - 4096) 1).toBlocks r = [.raw s] := by
      rw [toBlocks_raw_one, hoff1, ← hs]
    refine ⟨?_, rfl, ?_⟩
    · apply encExpand_step
      cases chunk with
      | none =>
        rw [show encMergeRaw (pos + 4096) none
            = (none, EChunk.raw (((pos + 4096 : Nat) : Int) - 4096) 1) from rfl]
        exact Or.inr ⟨rfl, hone⟩
      | some c =>
        cases c with
        | raw off n =>
          rw [show encMergeRaw (pos + 4096) (some (EChunk.raw off n))
              = (none, EChunk.raw off (n + 1)) from rfl]
          refine Or.inl ⟨rfl, _, rfl, ?_⟩
          rw [toBlocks_raw_succ]
          obtain ⟨hoff, hle⟩ := hch off n rfl
          have htn : (off + 4096 * (n : Int)).toNat = pos := by
            rw [hoff, show (pos : Int) - 4096 * (n : Int) + 4096 * (n : Int)
              = (pos : Int) from by ring]
            exact Int.toNat_natCast pos
          rw [htn, ← hs]
        | fill v n =>
          rw [show encMergeRaw (pos + 4096) (some (EChunk.fill v n))
              = (some (EChunk.fill v n), EChunk.raw (((pos + 4096 : Nat) : Int) - 4096) 1)
            from rfl]
          exact Or.inr ⟨rfl, hone⟩
        | dontCare n =>
          rw [show encMergeRaw (pos + 4096) (some (EChunk.dontCare n))
              = (some (EChunk.dontCare n), EChunk.raw (((pos + 4096 : Nat) : Int) - 4096) 1)
            from rfl]
          exact Or.inr ⟨rfl, hone⟩
    · intro off' m h
      cases chunk with
      | none =>
        rw [show encMergeRaw (pos + 4096) none
            = (none, EChunk.raw (((pos + 4096 : Nat) : Int) - 4096) 1) from rfl] at h
        simp only [Option.some.injEq, EChunk.raw.injEq] at h
        obtain ⟨h1, h2⟩ := h
        subst h2
        rw [← h1]
        constructor
        · push_cast
          ring
        · omega
      | some c =>
        cases c with
        | raw off n =>
          rw [show encMergeRaw (pos + 4096) (some (EChunk.raw off n))
              = (none, EChunk.raw off (n + 1)) from rfl] at h
          simp only [Option.some.injEq, EChunk.raw.injEq] at h
          obtain ⟨h1, h2⟩ := h
          subst h2
          obtain ⟨hoff, hle⟩ := hch off n rfl
          rw [← h1, hoff]
          constructor
          · push_cast
            ring
          · omega
        | fill v n =>
          rw [show encMergeRaw (pos + 4096) (some (EChunk.fill v n))
              = (some (EChunk.fill v n), EChunk.raw (((pos + 4096 : Nat) : Int) - 4096) 1)
            from rfl] at h
          simp only [Option.some.injEq, EChunk.raw.injEq] at h
          obtain ⟨h1, h2⟩ := h
          subst h2
          rw [← h1]
          constructor
          · push_cast
            ring
          · omega
        | dontCare n =>
          rw [show encMergeRaw (pos + 4096) (some (EChunk.dontCare n))
              = (some (EChunk.dontCare n), EChunk.raw (((pos + 4096 : Nat) : Int) - 4096) 1)
            from rfl] at h
          simp only [Option.some.injEq, EChunk.raw.injEq] at h
          obtain ⟨h1, h2⟩ := h
          subst h2
          rw [← h1]
          constructor
          · push_cast
            ring
          · omega

/-- The encoder's read loop over a whole-block suffix: the chunks expand to
the classified slices. -/
theorem encFold_expand (r : List Nat) :
    ∀ (fuel pos : Nat) (chunk : Option EChunk) (out : List EChunk),
    r.length - pos = 4096 * fuel →
    (∀ off n, chunk = some (.raw off n) →
      off = (pos : Int) - 4096 * n ∧ 4096 * n ≤ pos) →
    encExpand r ((splitSz 4095 (r.drop pos)).foldl encStep (pos, chunk, out))
      = encExpand r (pos, chunk, out) ++ (splitSz 4095 (r.drop pos)).map classifyBlock := by
  intro fuel
  induction fuel with
  | zero =>
    intro pos chunk out hfuel hch
    have hnil : r.drop pos = [] :=
      List.eq_nil_of_length_eq_zero (by rw [List.length_drop]; omega)
    rw [hnil, splitSz_nil]
    simp
  | succ k ihk =>
    intro pos chunk out hfuel hch
    have hlen : (r.drop pos).length = 4096 * (k + 1) := by
      rw [List.length_drop, hfuel]
    have hne : r.drop pos ≠ [] := by
      intro h
      rw [h] at hlen
      simp at hlen
    have hslen : ((r.drop pos).take 4096).length = 4096 := by
      rw [List.length_take, hlen]
      omega
    obtain ⟨he, hp, hinv⟩ := encStep_expand r pos chunk out ((r.drop pos).take 4096)
      rfl hslen hch
    rw [splitSz_cons 4095 _ hne, List.foldl_cons, List.map_cons]
    rw [show (4095 : Nat) + 1 = 4096 from rfl]
    have hdrop2 : (r.drop pos).drop 4096 = r.drop (pos + 4096) := by
      rw [List.drop_drop]
    rw [hdrop2]
    have hsteq : encStep (pos, chunk, out) ((r.drop pos).take 4096)
        = (pos + 4096, (encStep (pos, chunk, out) ((r.drop pos).take 4096)).2.1,
           (encStep (pos, chunk, out) ((r.drop pos).take 4096)).2.2) := by
      rw [← hp]
    rw [hsteq]
    rw [ihk (pos + 4096) _ _ (by omega) hinv]
    rw [← hsteq, he]
    simp [List.append_assoc]

/-- The `read.rs` Encoder over a whole-block source emits exactly the
classified slices. -/
theorem encoderBlocks_classify (r : List Nat) (hdvd : 4096 ∣ r.length) :
    encoderBlocks r = (splitSz 4095 r).map classifyBlock := by
  obtain ⟨a, ha⟩ := hdvd
  have h := encFold_expand r a 0 none [] (by omega) (by intro off n h; cases h)
  rw [List.drop_zero] at h
  show encExpand r ((splitSz 4095 r).foldl encStep (0, none, [])) = _
  rw [h]
  rfl

/-- The full `Encoder → Writer → Reader-expansion → Decoder` round trip is the
identity on whole-block sources (of bounded size). -/
theorem sparsePipeline_id (r : List Nat) (hdvd : 4096 ∣ r.length)
    (hlen : r.length ≤ 4096 * 524287) :
    sparsePipeline r = .ok r := by
  have hbs : encoderBlocks r = (splitSz 4095 r).map classifyBlock :=
    encoderBlocks_classify r hdvd
  have hsl : ∀ p ∈ splitSz 4095 r, p.length = 4096 := by
    have h := splitSz_mem_length_dvd 4095 r
      (by rw [show (4095 : Nat) + 1 = 4096 from rfl]; exact hdvd)
    simpa using h
  have hwf : ∀ b ∈ encoderBlocks r, b.wf := by
    rw [hbs]
    intro b hb
    obtain ⟨s, hs, rfl⟩ := List.mem_map.mp hb
    exact classify_wf s (hsl s hs)
  have hcount : (encoderBlocks r).length + 1 ≤ 524288 := by
    rw [hbs, List.length_map, splitSz_length]
    omega
  unfold sparsePipeline
  rw [imageBlocks_writerImage false (encoderBlocks r) hwf hcount]
  dsimp only
  have hwb : writerBlocks false (encoderBlocks r) = encoderBlocks r := by
    unfold writerBlocks
    simp
  rw [hwb, decoderImage_eq, hbs, List.map_map]
  have hid : (splitSz 4095 r).map (Block.rawBytes ∘ classifyBlock)
      = (splitSz 4095 r).map id :=
    List.map_congr_left (fun s hs => classify_rawBytes s (hsl s hs))
  rw [hid, List.map_id, flatten_splitSz]

theorem countSum_filter (cs : List WChunk) :
    ((cs.filter fun c => c.header.chunk_type != ChunkType.crc32).map
      fun c => c.header.chunk_size).sum = countSum cs := by
  induction cs with
  | nil => rfl
  | cons c t ih =>
    rw [show countSum (c :: t) = c.count + countSum t from by unfold countSum; simp]
    cases c with
    | raw bufs =>
      rw [List.filter_cons_of_pos (by rfl), List.map_cons, List.sum_cons, ih]
      rfl
    | fill v n =>
      rw [List.filter_cons_of_pos (by rfl), List.map_cons, List.sum_cons, ih]
      rfl
    | dontCare n =>
      rw [List.filter_cons_of_pos (by rfl), List.map_cons, List.sum_cons, ih]
      rfl
    | crc32 cv =>
      rw [List.filter_cons_of_neg (by simp [WChunk.header]), ih,
        show (WChunk.crc32 cv).count = 0 from rfl, Nat.zero_add]

/-! ## The ten claims -/

/-- Claim C1: for every raw byte stream whose length is a multiple of 4096
bytes (within the bounded-size regime of `u32` chunk accounting), the full
round trip — classifying with the Encoder, writing the sparse image with the
Writer, expanding the parsed image's blocks, decoding with the Decoder —
reproduces the stream exactly. -/
theorem spec_C1 (r : List Nat) (hdvd : 4096 ∣ r.length)
    (hlen : r.length ≤ 4096 * 524287) :
    sparsePipeline r = .ok r :=
  sparsePipeline_id r hdvd hlen

theorem spec_C1_witness :
    4096 ∣ (List.replicate 8192 (0 : Nat)).length
    ∧ sparsePipeline (List.replicate 8192 0) = .ok (List.replicate 8192 0) :=
  ⟨by rw [List.length_replicate]; decide, spec_C1 (List.replicate 8192 0)
    (by rw [List.length_replicate]; decide) (by rw [List.length_replicate]; norm_num)⟩

set_option maxRecDepth 40000 in
/-- Claim C2 counterexample: feeding the CRC-enabled writer a single `Crc32`
block yields an image the verifying reader rejects with a checksum mismatch,
refuting the unconditional claim. -/
theorem spec_C2_counterexample :
    readerRun true (writerImage true [Block.crc32 5]) = .error .checksumMismatch := by
  decide

/-- Claim C2 (amended): for every well-formed block sequence without explicit
`Crc32` blocks (within the bounded-length regime), a CRC-enabled writer's
image is read back by a CRC-verifying reader with no checksum error — the
appended checksum chunk always matches the reader's digest. -/
theorem spec_C2 (bs : List Block) (hwf : ∀ b ∈ bs, b.wf)
    (hnc : ∀ cv, Block.crc32 cv ∉ bs) (hlen : bs.length + 1 ≤ 524288) :
    readerRun true (writerImage true bs) = .ok (recordsFrom 28 (writerChunks true bs)) :=
  readerRun_writerImage_crc bs hwf hnc hlen

theorem spec_C2_witness :
    (∀ b ∈ [Block.skip], b.wf)
    ∧ readerRun true (writerImage true [Block.skip])
      = .ok (recordsFrom 28 (writerChunks true [Block.skip])) :=
  ⟨by decide, spec_C2 [Block.skip] (by decide)
    (by intro cv h; simp at h) (by decide)⟩

/-- Claim C3 counterexample: on the 5-byte source `[5]` (not a multiple of
4096), the `read.rs` Encoder does emit a block for the partial fragment — a
raw block shorter than 4096 bytes — refuting the claim that no block is ever
emitted for a partial final fragment. -/
theorem spec_C3_counterexample :
    ([5] : List Nat).length % 4096 ≠ 0 ∧ encoderBlocks [5] = [Block.raw [5]]
    ∧ ([5] : List Nat).length ≠ 4096 := by
  have h1 : splitSz 4095 [5] = [[5]] := by
    rw [splitSz_cons 4095 [5] (by decide)]
    rw [show ([5] : List Nat).drop (4095 + 1) = [] from rfl, splitSz_nil]
    rfl
  refine ⟨by decide, ?_, by decide⟩
  show ((encChunks [5]).map (EChunk.toBlocks [5])).flatten = [Block.raw [5]]
  unfold encChunks
  rw [h1]
  decide

/-- Claim C3 (amended): on a source whose length is not a multiple of 4096,
the `read.rs` Encoder emits the final partial fragment as one extra raw
block (`len / 4096 + 1` blocks in total), while the earlier `encoder.rs`
generation rejects the source outright with a block-size error. -/
theorem spec_C3 (r : List Nat) (h : r.length % 4096 ≠ 0) :
    encTotalBlocks r = r.length / 4096 + 1
    ∧ encoderRsRead r = .error "bytes size must be multiple of block_size" := by
  refine ⟨?_, encoderRsRead_frag r h⟩
  rw [encTotalBlocks_eq, splitSz_length]
  omega

theorem spec_C3_witness :
    ([5] : List Nat).length % 4096 ≠ 0
    ∧ (encTotalBlocks [5] = ([5] : List Nat).length / 4096 + 1
      ∧ encoderRsRead [5] = .error "bytes size must be multiple of block_size") :=
  ⟨by decide, spec_C3 [5] (by decide)⟩

/-- Claim C4: the file header the writer back-patches at close carries
`total_blocks` equal to the sum of `chunk_size` over the non-`Crc32` chunks,
`total_chunks` equal to the number of chunk records written (the trailing
checksum chunk included when CRC is enabled), and `image_checksum` 0. -/
theorem spec_C4 (wc : Bool) (bs : List Block) (hwf : ∀ b ∈ bs, b.wf)
    (hlen : bs.length + 1 ≤ 524288) :
    writerImage wc bs
      = (FileHeader.mk
          (((writerChunks wc bs).filter
              (fun c => c.header.chunk_type != ChunkType.crc32)).map
            (fun c => c.header.chunk_size)).sum
          (writerChunks wc bs).length 0).writeTo
        ++ doneBytes (writerChunks wc bs) := by
  rw [writerImage_eq wc bs hwf hlen, countSum_filter]

theorem spec_C4_witness :
    (∀ b ∈ [Block.skip], b.wf)
    ∧ writerImage true [Block.skip]
      = (FileHeader.mk
          (((writerChunks true [Block.skip]).filter
              (fun c => c.header.chunk_type != ChunkType.crc32)).map
            (fun c => c.header.chunk_size)).sum
          (writerChunks true [Block.skip]).length 0).writeTo
        ++ doneBytes (writerChunks true [Block.skip]) :=
  ⟨by decide, spec_C4 true [Block.skip] (by decide) (by decide)⟩

/-- Claim C5: every chunk of a written image satisfies
`total_size = 12 + body_size`, with the body determined by the chunk type:
a raw chunk's body is `chunk_size × 4096` verbatim bytes, a fill chunk's body
is exactly the 4 pattern bytes (written once, however many blocks merged), a
don't-care chunk's body is empty, and a `Crc32` chunk's body is 4 bytes with
`chunk_size = 0`. -/
theorem spec_C5 (wc : Bool) (bs : List Block) (hwf : ∀ b ∈ bs, b.wf)
    (hlen : bs.length + 1 ≤ 524288) :
    ∀ c ∈ writerChunks wc bs,
      c.bytes = c.header.writeTo ++ c.body
      ∧ c.header.total_size = 12 + c.body.length
      ∧ (c.header.chunk_type = .raw → c.body.length = 4096 * c.header.chunk_size)
      ∧ (c.header.chunk_type = .fill → c.body.length = 4)
      ∧ (c.header.chunk_type = .dontCare → c.body = [])
      ∧ (c.header.chunk_type = .crc32 →
          c.body.length = 4 ∧ c.header.chunk_size = 0) := by
  intro c hc
  have hwfc : c.wf := (runWriter_inv wc bs hwf hlen).hwfdone c hc
  cases c with
  | raw bufs =>
    have hfl : bufs.flatten.length = 4096 * bufs.length := flatten_all_length bufs hwfc
    refine ⟨rfl, ?_, ?_, ?_, ?_, ?_⟩
    · show 12 + 4096 * bufs.length = 12 + bufs.flatten.length
      rw [hfl]
    · intro h
      show bufs.flatten.length = 4096 * bufs.length
      exact hfl
    · intro h; cases h
    · intro h; cases h
    · intro h; cases h
  | fill v n =>
    have hv : v.length = 4 := hwfc
    refine ⟨rfl, ?_, ?_, ?_, ?_, ?_⟩
    · show (16 : Nat) = 12 + v.length
      rw [hv]
    · intro h; cases h
    · intro h; exact hv
    · intro h; cases h
    · intro h; cases h
  | dontCare n =>
    refine ⟨rfl, rfl, ?_, ?_, ?_, ?_⟩
    · intro h; cases h
    · intro h; cases h
    · intro h; rfl
    · intro h; cases h
  | crc32 cv =>
    refine ⟨rfl, rfl, ?_, ?_, ?_, ?_⟩
    · intro h; cases h
    · intro h; cases h
    · intro h; cases h
    · intro h; exact ⟨rfl, rfl⟩

theorem spec_C5_witness :
    (∀ b ∈ [Block.skip], b.wf)
    ∧ (∀ c ∈ writerChunks false [Block.skip],
        c.bytes = c.header.writeTo ++ c.body
        ∧ c.header.total_size = 12 + c.body.length
        ∧ (c.header.chunk_type = .raw → c.body.length = 4096 * c.header.chunk_size)
        ∧ (c.header.chunk_type = .fill → c.body.length = 4)
        ∧ (c.header.chunk_type = .dontCare → c.body = [])
        ∧ (c.header.chunk_type = .crc32 →
            c.body.length = 4 ∧ c.header.chunk_size = 0)) :=
  ⟨by decide, spec_C5 false [Block.skip] (by decide) (by decide)⟩

/-- Claim C6: the writer never emits two adjacent mergeable chunks — the head
block of each chunk is one `can_merge` rejected against its predecessor, so
run merging is exhaustive. -/
theorem spec_C6 (wc : Bool) (bs : List Block) :
    List.Chain' notMergeable (writerChunks wc bs) :=
  mergeBlocks_chain (writerBlocks wc bs)

/-- Claim C7: reading a file header validates magic, version, header sizes
and block size in order, failing with the parse error carrying the offending
value, and on mismatch the whole reader run fails with that error before any
chunk is consumed; the three counters are accepted verbatim. -/
theorem spec_C7 (verify : Bool) (m maj minr fhs chs bsz tb tc ic : Nat)
    (tail : List Nat) (hm : m < U32) (h1 : maj < 65536) (h2 : minr < 65536)
    (h3 : fhs < 65536) (h4 : chs < 65536) (h5 : bsz < U32) (h6 : tb < U32)
    (h7 : tc < U32) (h8 : ic < U32) :
    (readFileHeader ⟨headerFieldBytes m maj minr fhs chs bsz tb tc ic ++ tail, 0⟩
      = match headerVerdict m maj minr fhs chs bsz tb tc ic with
        | .error e => .error e
        | .ok h =>
          .ok (h, ⟨headerFieldBytes m maj minr fhs chs bsz tb tc ic ++ tail, 28⟩))
    ∧ (∀ e, headerVerdict m maj minr fhs chs bsz tb tc ic = .error e →
        readerRun verify (headerFieldBytes m maj minr fhs chs bsz tb tc ic ++ tail)
          = .error e) := by
  have hview : (⟨headerFieldBytes m maj minr fhs chs bsz tb tc ic ++ tail, 0⟩ : Src).data.drop
      (⟨headerFieldBytes m maj minr fhs chs bsz tb tc ic ++ tail, 0⟩ : Src).pos
      = headerFieldBytes m maj minr fhs chs bsz tb tc ic ++ tail := by
    show (headerFieldBytes m maj minr fhs chs bsz tb tc ic ++ tail).drop 0 = _
    rw [List.drop_zero]
  have hmain := readFileHeader_fields m maj minr fhs chs bsz tb tc ic
    ⟨headerFieldBytes m maj minr fhs chs bsz tb tc ic ++ tail, 0⟩
    hm h1 h2 h3 h4 h5 h6 h7 h8 tail hview
  constructor
  · exact hmain
  · intro e he
    unfold readerRun
    rw [hmain, he]

theorem spec_C7_witness :
    (0 : Nat) < U32
    ∧ ((readFileHeader ⟨headerFieldBytes 0 1 0 28 12 4096 7 8 9 ++ [], 0⟩
        = match headerVerdict 0 1 0 28 12 4096 7 8 9 with
          | .error e => .error e
          | .ok h => .ok (h, ⟨headerFieldBytes 0 1 0 28 12 4096 7 8 9 ++ [], 28⟩))
      ∧ (∀ e, headerVerdict 0 1 0 28 12 4096 7 8 9 = .error e →
          readerRun false (headerFieldBytes 0 1 0 28 12 4096 7 8 9 ++ [])
            = .error e)) :=
  ⟨by decide, spec_C7 false 0 1 0 28 12 4096 7 8 9 [] (by decide) (by decide)
    (by decide) (by decide) (by decide) (by decide) (by decide) (by decide) (by decide)⟩

/-- Claim C8: decoding a well-formed block sequence whose last data block is
`Skip` into a fresh output leaves exactly `total_blocks × 4096` bytes — the
trailing hole is materialized (its final byte written as zero). -/
theorem spec_C8 (bs : List Block) (hwf : ∀ b ∈ bs, b.wf)
    (hlast : (dataBlocks bs).getLast? = some .skip) :
    (decoderImage bs).length = 4096 * (dataBlocks bs).length :=
  decoderImage_length bs hwf

theorem spec_C8_witness :
    (dataBlocks [Block.skip]).getLast? = some .skip
    ∧ (decoderImage [Block.skip]).length = 4096 * (dataBlocks [Block.skip]).length :=
  ⟨by decide, spec_C8 [Block.skip] (by decide) (by decide)⟩

/-- Claim C9: the reader computes a raw chunk's byte size and a fill chunk's
feed count in wrapping `u32` arithmetic; the result is the mathematical
product exactly when `chunk_size < 2^20`, and any chunk header is processed
with the wrapped size rather than rejected. -/
theorem spec_C9 (n : Nat) :
    rawChunkByteSize n = n * 4096 % 2 ^ 32
    ∧ fillFeedCount n = n * 4096 % 2 ^ 32 / 4
    ∧ (rawChunkByteSize n = n * 4096 ↔ n < 2 ^ 20)
    ∧ (∀ s : Src, readRawChunk none s n
        = .ok (none, .raw s.pos n, s.seekCur (rawChunkByteSize n))) := by
  have h32 : (2 : Nat) ^ 32 = 4294967296 := by norm_num
  have h20 : (2 : Nat) ^ 20 = 1048576 := by norm_num
  refine ⟨?_, ?_, ?_, fun s => rfl⟩
  · show n * 4096 % U32 = n * 4096 % 2 ^ 32
    rw [h32]
    rfl
  · show n * 4096 % U32 / 4 = n * 4096 % 2 ^ 32 / 4
    rw [h32]
    rfl
  · show n * 4096 % U32 = n * 4096 ↔ n < 2 ^ 20
    rw [h20]
    show n * 4096 % 4294967296 = n * 4096 ↔ n < 1048576
    omega

/-- Claim C10: after any run of `write_block` calls from a fresh writer, the
open chunk is a fill chunk exactly when `current_fill` holds a value, so the
`current_fill.unwrap()` that `can_merge` evaluates for a fill chunk cannot
panic. -/
theorem spec_C10 (wc : Bool) (bs : List Block) :
    hasFillChunk (bs.foldl WriterState.writeBlock (Writer.new wc))
      = (bs.foldl WriterState.writeBlock (Writer.new wc)).current_fill.isSome := by
  have haux : ∀ (l : List Block) (w : WriterState),
      hasFillChunk w = w.current_fill.isSome →
      hasFillChunk (l.foldl WriterState.writeBlock w)
        = (l.foldl WriterState.writeBlock w).current_fill.isSome := by
    intro l
    induction l with
    | nil => intro w h; exact h
    | cons b t ih =>
      intro w h
      rw [List.foldl_cons]
      exact ih _ (writeBlock_fill_inv w b h)
  exact haux bs (Writer.new wc) (by cases wc <;> rfl)

end AndroidSparse
